import Mathlib

/-!
Verification of the ALACS/tindalwic round-tripping engine against its
specification.  The definitions below are a shallow embedding of the engine in
`src/python/alacs/__init__.py` (class `UTF8`, the tree model `Comment` /
`Text` / `List` / `Dict` / `Key` / `File`, and the `Memory` encoder/decoder).
Bytes are modelled as natural numbers, byte strings as lists of bytes, and the
mutable engine state as explicit state records.  Loops of the Python source
that always advance the input cursor are translated as well-founded recursion
on the remaining input; the two scope loops of `_readDict` and `_readList`,
which do not always advance the cursor, are translated with an explicit fuel
parameter (`none` = the Python loop has not terminated within that budget).
-/

namespace Tindalwic

/-- a byte of the input or output stream (`bytes` elements in Python). -/
abbrev Byte := Nat

/-- one byte run: an entry of a UTF-8 sequence, a line, or a whole stream. -/
abbrev Chunk := List Byte

/-- an ordered sequence of byte runs: the storage shared by `Text` and
`Comment` (class `UTF8` of the source). -/
abbrev Seq := List Chunk

/-- the newline byte. -/
def nl : Byte := 10

/-- the tab byte. -/
def tab : Byte := 9

/-- Split one chunk at every newline byte, keeping empty pieces.
`UTF8.normalize` performs exactly this split for each entry that contains a
newline: it scans the chunk backwards, collecting `chunk[start+1:]` after the
last newline, then `chunk[start+1:limit]` between consecutive newlines, then
`chunk[:limit]`, and reverses the collected pieces. -/
def splitNl : Chunk → List Chunk
  | [] => [[]]
  | b :: rest =>
    if b = nl then [] :: splitNl rest
    else
      match splitNl rest with
      | [] => [[b]]
      | p :: ps => (b :: p) :: ps

/-- Model of `UTF8.normalize` (src/python/alacs/__init__.py lines 48-77):
a sequence holding exactly one zero-length entry is cleared; otherwise every
entry is replaced in place by its newline-free pieces (entries without a
newline are their own single piece and are left untouched). -/
def normalize (s : Seq) : Seq :=
  if s = [[]] then [] else s.flatMap splitNl

theorem splitNl_ne_nil (c : Chunk) : splitNl c ≠ [] := by
  induction c with
  | nil => simp [splitNl]
  | cons b rest ih =>
    simp only [splitNl]
    split
    · simp
    · cases h : splitNl rest <;> simp

theorem splitNl_no_nl (c : Chunk) : ∀ p ∈ splitNl c, nl ∉ p := by
  induction c with
  | nil => simp [splitNl]
  | cons b rest ih =>
    simp only [splitNl]
    split
    · intro p hp
      rcases List.mem_cons.1 hp with h | h
      · simp [h]
      · exact ih p h
    · rename_i hb
      cases h : splitNl rest with
      | nil =>
        intro p hp
        simp only [List.mem_singleton] at hp
        subst hp
        simp only [List.mem_singleton]
        intro hx
        exact hb hx.symm
      | cons q qs =>
        intro p hp
        rcases List.mem_cons.1 hp with h' | h'
        · subst h'
          intro hmem
          rcases List.mem_cons.1 hmem with h'' | h''
          · exact hb h''.symm
          · exact ih q (h ▸ List.mem_cons_self q qs) h''
        · exact ih p (h ▸ List.mem_cons_of_mem q h')

theorem splitNl_of_no_nl {c : Chunk} (h : nl ∉ c) : splitNl c = [c] := by
  induction c with
  | nil => simp [splitNl]
  | cons b rest ih =>
    simp only [splitNl]
    rw [if_neg (by intro hb; exact h (by simp [hb]))]
    rw [ih (by intro hm; exact h (List.mem_cons_of_mem b hm))]

theorem splitNl_eq_singleton_nil {c : Chunk} (h : splitNl c = [[]]) : c = [] := by
  cases c with
  | nil => rfl
  | cons b rest =>
    exfalso
    simp only [splitNl] at h
    split at h
    · simp at h
      exact splitNl_ne_nil rest h
    · cases hr : splitNl rest with
      | nil => rw [hr] at h; simp at h
      | cons p ps => rw [hr] at h; simp at h

theorem flatMap_splitNl_eq_singleton_nil {X : Seq} (h : X.flatMap splitNl = [[]]) :
    X = [[]] := by
  cases X with
  | nil => simp at h
  | cons c cs =>
    cases cs with
    | nil =>
      simp only [List.flatMap_cons, List.flatMap_nil, List.append_nil] at h
      rw [splitNl_eq_singleton_nil h]
    | cons d ds =>
      exfalso
      have h1 : (splitNl c).length ≥ 1 :=
        Nat.one_le_iff_ne_zero.2 (by simpa using splitNl_ne_nil c)
      have h2 : (splitNl d).length ≥ 1 :=
        Nat.one_le_iff_ne_zero.2 (by simpa using splitNl_ne_nil d)
      have : ((c :: d :: ds).flatMap splitNl).length ≥ 2 := by
        simp only [List.flatMap_cons, List.length_append]
        omega
      rw [h] at this
      simp at this

theorem normalize_no_nl (X : Seq) : ∀ c ∈ normalize X, nl ∉ c := by
  unfold normalize
  split
  · simp
  · intro c hc
    rcases List.mem_flatMap.1 hc with ⟨d, _, hd⟩
    exact splitNl_no_nl d c hd

theorem normalize_of_no_nl {X : Seq} (hX : X ≠ [[]]) (h : ∀ c ∈ X, nl ∉ c) :
    normalize X = X := by
  unfold normalize
  rw [if_neg hX]
  induction X with
  | nil => simp
  | cons c cs ih =>
    simp only [List.flatMap_cons]
    rw [splitNl_of_no_nl (h c (List.mem_cons_self c cs))]
    by_cases hcs : cs = [[]]
    · subst hcs
      simp [splitNl]
    · rw [ih hcs (fun d hd => h d (List.mem_cons_of_mem c hd))]
      simp

theorem normalize_idem (X : Seq) : normalize (normalize X) = normalize X := by
  by_cases h : X = [[]]
  · subst h; simp [normalize]
  · have hnl := normalize_no_nl X
    by_cases h2 : normalize X = [[]]
    · exfalso
      unfold normalize at h2
      rw [if_neg h] at h2
      exact h (flatMap_splitNl_eq_singleton_nil h2)
    · exact normalize_of_no_nl h2 hnl

/-- C6: for every UTF-8 sequence, `normalize` is idempotent, after one
`normalize` no entry contains a newline byte, and a sequence consisting of
exactly one zero-length entry collapses to the empty sequence. -/
theorem C6_normalize_idempotent_newline_free (X : Seq) :
    normalize (normalize X) = normalize X ∧
    (∀ c ∈ normalize X, nl ∉ c) ∧
    normalize [[]] = [] :=
  ⟨normalize_idem X, normalize_no_nl X, by simp [normalize]⟩

/-! ## The tree model

`Comment` is a UTF-8 sequence plus an informational 1-based starting line.
`Value` is the tagged sum Text | List | Dict; a `Dict` is an insertion-ordered
association list whose keys carry the `blank_line_before` flag and the
optional `comment_before` annotation.  `FileT` is the top-level dictionary
with its optional hashbang and intro comment (class `File` has no
`comment_after` slot). -/

structure Comment where
  lines : Seq
  startingLine : Nat
deriving DecidableEq, Repr

structure KeyA where
  name : Chunk
  blankLineBefore : Bool
  commentBefore : Option Comment
deriving DecidableEq, Repr

inductive Value where
  | text (lines : Seq) (startingLine : Nat) (commentAfter : Option Comment)
  | vlist (items : List Value) (startingLine : Nat)
      (commentIntro commentAfter : Option Comment)
  | vdict (entries : List (KeyA × Value)) (startingLine : Nat)
      (commentIntro commentAfter : Option Comment)
deriving Repr

structure FileT where
  entries : List (KeyA × Value)
  hashbang : Option Comment
  commentIntro : Option Comment
deriving Repr

def Value.commentAfter : Value → Option Comment
  | .text _ _ a => a
  | .vlist _ _ _ a => a
  | .vdict _ _ _ a => a

/-! ## The encoder

A faithful translation of `Memory.encode` and its `_write*` helpers.  The
output buffer, the 1-based emitted-line counter and the indent depth make up
the encoder state.  The in-place `normalize` calls of the source become uses
of the pure `normalize` on the spot; the `starting_line` assignments of the
source affect only the informational fields, never the output, and are not
modelled. -/

structure ESt where
  out : Chunk
  count : Nat
  depth : Nat
deriving DecidableEq, Repr

/-- Model of `Memory._writeIndent`. -/
def writeIndent (s : ESt) : ESt :=
  if s.count ≠ 0 then
    { s with out := s.out ++ [nl] ++ List.replicate s.depth tab, count := s.count + 1 }
  else
    { s with out := s.out ++ List.replicate s.depth tab, count := 1 }

def writeBytes (s : ESt) (d : Chunk) : ESt :=
  { s with out := s.out ++ d }

/-- Model of `Memory._writeComment`: marker then first normalized line, then
one deeper indent for each continuation line. -/
def writeComment (marker : Chunk) (c : Option Comment) (s : ESt) : ESt :=
  match c with
  | none => s
  | some com =>
    let s1 := writeBytes (writeIndent s) marker
    match normalize com.lines with
    | [] => s1
    | l0 :: rest =>
      let s2 := writeBytes s1 l0
      let s3 := { s2 with depth := s2.depth + 1 }
      let s4 := rest.foldl (fun t line => writeBytes (writeIndent t) line) s3
      { s4 with depth := s4.depth - 1 }

/-- the byte set `b"\t#<>[]{}/="` tested by `_shortList`. -/
def shortListSet : Chunk := [9, 35, 60, 62, 91, 93, 123, 125, 47, 61]

/-- the byte set `"\t#<>[]{}/"` tested by `_shortDict`. -/
def shortDictSet : Chunk := [9, 35, 60, 62, 91, 93, 123, 125, 47]

/-- Model of `Memory._shortList`, applied to the already-normalized lines
(the source normalizes in place and then tests).  A normalized singleton
entry is never empty, so the inner `[]` case is unreachable. -/
def shortList (t : Seq) : Bool :=
  match t with
  | [] => true
  | [l] =>
    match l with
    | [] => true
    | b :: _ => if b ∈ shortListSet then false else true
  | _ => false

/-- Model of `Memory._shortDict`, applied to the already-normalized lines. -/
def shortDict (key : Chunk) (t : Seq) : Bool :=
  if t.length > 1 then false
  else
    match key with
    | [] => true
    | b :: _ =>
      if b ∈ shortDictSet then false
      else if (61 : Byte) ∈ key then false
      else true

mutual

/-- the body of the `match value` inside the item loop of `Memory._writeList`,
run on the state right after the item's `_writeIndent()`. -/
def writeListValue : Value → ESt → ESt
  | .text lines _ _, s1 =>
    let nls := normalize lines
    if shortList nls then
      match nls with
      | [] => s1
      | l0 :: _ => writeBytes s1 l0
    else
      let t1 := writeBytes s1 [60, 62]
      let t2 := { t1 with depth := t1.depth + 1 }
      let t3 := nls.foldl (fun t line => writeBytes (writeIndent t) line) t2
      { t3 with depth := t3.depth - 1 }
  | .vlist its _ intro _, s1 =>
    let t1 := writeBytes s1 [91, 93]
    let t2 := { t1 with depth := t1.depth + 1 }
    let t3 := writeListItems its (writeComment [35] intro t2)
    { t3 with depth := t3.depth - 1 }
  | .vdict es _ intro _, s1 =>
    let t1 := writeBytes s1 [123, 125]
    let t2 := { t1 with depth := t1.depth + 1 }
    let t3 := writeDictEntries es (writeComment [35] intro t2)
    { t3 with depth := t3.depth - 1 }

/-- the body of the `match value` inside the entry loop of
`Memory._writeDict`, run on the state right after the entry's
`_writeIndent()`. -/
def writeDictValue (kname : Chunk) : Value → ESt → ESt
  | .text lines _ _, s2 =>
    let nls := normalize lines
    if shortDict kname nls then
      let t1 := writeBytes (writeBytes s2 kname) [61]
      match nls with
      | [] => t1
      | l0 :: _ => writeBytes t1 l0
    else
      let t1 := writeBytes (writeBytes (writeBytes s2 [60]) kname) [62]
      let t2 := { t1 with depth := t1.depth + 1 }
      let t3 := nls.foldl (fun t line => writeBytes (writeIndent t) line) t2
      { t3 with depth := t3.depth - 1 }
  | .vlist its _ intro _, s2 =>
    let t1 := writeBytes (writeBytes (writeBytes s2 [91]) kname) [93]
    let t2 := { t1 with depth := t1.depth + 1 }
    let t3 := writeListItems its (writeComment [35] intro t2)
    { t3 with depth := t3.depth - 1 }
  | .vdict es _ intro _, s2 =>
    let t1 := writeBytes (writeBytes (writeBytes s2 [123]) kname) [125]
    let t2 := { t1 with depth := t1.depth + 1 }
    let t3 := writeDictEntries es (writeComment [35] intro t2)
    { t3 with depth := t3.depth - 1 }

/-- the per-item loop of `Memory._writeList`. -/
def writeListItems : List Value → ESt → ESt
  | [], s => s
  | v :: rest, s =>
    writeListItems rest
      (writeComment [35] v.commentAfter (writeListValue v (writeIndent s)))

/-- the per-entry loop of `Memory._writeDict`. -/
def writeDictEntries : List (KeyA × Value) → ESt → ESt
  | [], s => s
  | (k, v) :: rest, s =>
    let s0 := if k.blankLineBefore then writeIndent s else s
    let s1 := writeComment [47, 47] k.commentBefore s0
    let s2 := writeIndent s1
    writeDictEntries rest
      (writeComment [35] v.commentAfter (writeDictValue k.name v s2))

end

/-- Model of `Memory._writeList`: intro comment then the item loop. -/
def writeListBody (intro : Option Comment) (items : List Value) (s : ESt) : ESt :=
  writeListItems items (writeComment [35] intro s)

/-- Model of `Memory._writeDict`: intro comment then the entry loop. -/
def writeDictBody (intro : Option Comment) (entries : List (KeyA × Value))
    (s : ESt) : ESt :=
  writeDictEntries entries (writeComment [35] intro s)

/-- Model of `Memory.encode`: reset the buffer, write the hashbang with the
`#!` marker, then the top-level dictionary. -/
def encode (f : FileT) : Chunk :=
  let s : ESt := { out := [], count := 0, depth := 0 }
  let s1 := writeComment [35, 33] f.hashbang s
  let s2 := writeDictBody f.commentIntro f.entries s1
  s2.out

/-! ## The decoder

State of `Memory` during `decode`: the input buffer, the cursor `_next`, the
current line (with its leading tabs), the leading-tab count `_tabs`, the
first-`=` offset `_assign` (−1 when absent), the 1-based line counter
`_count` and the error list.  `latched` models the identity test
`self._line is Memory.empty`: it is true exactly when `_line` holds the
end-of-input sentinel (as it does when `decode` starts).  Keys are kept as
their byte runs; the source's `bytes.decode`/`str.encode` round-trip is the
identity on those runs.  The decoder never assigns the `_key` cells of the
indent chain (and `zero()` nulls them on entry), so `Indent.keys()` renders
the empty string at every decode-time error site; the embedded error helper
therefore receives the empty path. -/

structure DSt where
  parse : Chunk
  next : Nat
  latched : Bool
  line : Chunk
  tabs : Int
  assign : Int
  count : Nat
  errors : List String
deriving DecidableEq, Repr

/-- Model of `Memory._errors_add` for a single message part: the optional
`#<count> ` prefix, the rendered key path, then `:` and the part. -/
def errorsAdd (count : Nat) (path : String) (message : String) : String :=
  (if count ≠ 0 then s!"#{count} " else "") ++ path ++ ":" ++ " " ++ message

/-- append one decode-time diagnostic (empty path, see above). -/
def decErr (s : DSt) (message : String) : DSt :=
  { s with errors := s.errors ++ [errorsAdd s.count "" message] }

/-- the tab scan of `_readln`, phrased on the bytes that remain: the count of
leading tab bytes (the source walks an index forward over `self._parse`; the
walk visits exactly the leading tabs of the remaining buffer). -/
def countTabsFrom : Chunk → Nat
  | [] => 0
  | b :: rest => if b = tab then countTabsFrom rest + 1 else 0

/-- the line scan of `_readln`, phrased on the bytes that remain: starting
`off` bytes past the line start, advance to the next newline byte (or the end
of the buffer), recording the offset of the first `=` relative to the line
start.  Returns the line length and the `=` offset (−1 when absent). -/
def scanEol : Chunk → Nat → Int → Nat × Int
  | [], off, assign => (off, assign)
  | b :: rest, off, assign =>
    if b = nl then (off, assign)
    else scanEol rest (off + 1) (if b = 61 ∧ assign < 0 then (off : Int) else assign)

/-- Model of `Memory._readln`. -/
def readln (s : DSt) : DSt × Bool :=
  if s.next ≥ s.parse.length then
    if ¬ s.latched then
      ({ s with count := s.count + 1, latched := true, line := [],
                tabs := -1, assign := -1 }, false)
    else (s, false)
  else
    let tbs := countTabsFrom (s.parse.drop s.next)
    let fin := scanEol (s.parse.drop (s.next + tbs)) tbs (-1)
    ({ s with line := (s.parse.drop s.next).take fin.1,
              tabs := (tbs : Int),
              assign := fin.2,
              count := s.count + 1,
              next := s.next + fin.1 + 1,
              latched := false }, true)

theorem countTabsFrom_le (c : Chunk) : countTabsFrom c ≤ c.length := by
  induction c with
  | nil => simp [countTabsFrom]
  | cons b rest ih =>
    simp only [countTabsFrom, List.length_cons]
    split <;> omega

theorem scanEol_ge (c : Chunk) (off : Nat) (a : Int) : off ≤ (scanEol c off a).1 := by
  induction c generalizing off a with
  | nil => simp [scanEol]
  | cons b rest ih =>
    simp only [scanEol]
    split
    · simp
    · have := ih (off + 1) (if b = 61 ∧ a < 0 then (off : Int) else a)
      omega

theorem scanEol_le (c : Chunk) (off : Nat) (a : Int) :
    (scanEol c off a).1 ≤ off + c.length := by
  induction c generalizing off a with
  | nil => simp [scanEol]
  | cons b rest ih =>
    simp only [scanEol, List.length_cons]
    split
    · omega
    · have := ih (off + 1) (if b = 61 ∧ a < 0 then (off : Int) else a)
      omega

/-- when `_readln` consumes a line, the buffer is unchanged and the cursor
advances strictly, starting from inside the buffer. -/
theorem readln_true (s : DSt) (h : (readln s).2 = true) :
    (readln s).1.parse = s.parse ∧ s.next < (readln s).1.next ∧
    s.next < s.parse.length ∧ (readln s).1.next ≤ s.parse.length + 1 := by
  unfold readln at h ⊢
  by_cases hge : s.next ≥ s.parse.length
  · rw [if_pos hge] at h
    split at h <;> simp at h
  · rw [if_neg hge] at h ⊢
    refine ⟨rfl, by simp only []; omega, by omega, ?_⟩
    have h1 := countTabsFrom_le (s.parse.drop s.next)
    have h2 := scanEol_le (s.parse.drop (s.next + countTabsFrom (s.parse.drop s.next)))
      (countTabsFrom (s.parse.drop s.next)) (-1)
    simp only [List.length_drop] at h1 h2
    simp only []
    omega

/-- gas bound that always suffices for one run of a cursor-advancing loop:
each consumed line moves `_next` forward by at least one byte, and one final
`_readln` may be needed to latch the end-of-input sentinel. -/
def lineGas (s : DSt) : Nat := max 1 (s.parse.length + 2 - s.next)

/-- the shared collection loop of `_readComment` and `_readText` (gas-indexed
so that the recursion is structural; `readDeeperLines` supplies sufficient
gas, and `readDeeperLines_eq` recovers the loop equation of the source):
keep reading while the next line is indented strictly deeper than the current
level, collecting the slices past that indent. -/
def readDeeperGas : Nat → Nat → Seq → DSt → Seq × DSt
  | 0, _, acc, s => (acc, s)
  | gas + 1, depth, acc, s =>
    let t := readln s
    if t.2 = true ∧ t.1.tabs ≥ (depth : Int) + 1 then
      readDeeperGas gas depth (acc ++ [t.1.line.drop (depth + 1)]) t.1
    else (acc, t.1)

def readDeeperLines (depth : Nat) (acc : Seq) (s : DSt) : Seq × DSt :=
  readDeeperGas (lineGas s) depth acc s

/-- the skipping loop of `_readExcess` (gas-indexed like `readDeeperGas`),
counting the skipped lines. -/
def readExcessGas : Nat → Nat → Nat → DSt → Nat × DSt
  | 0, _, k, s => (k, s)
  | gas + 1, depth, k, s =>
    let t := readln s
    if t.2 = true ∧ t.1.tabs > (depth : Int) then
      readExcessGas gas depth (k + 1) t.1
    else (k, t.1)

def readExcessLoop (depth : Nat) (k : Nat) (s : DSt) : Nat × DSt :=
  readExcessGas (lineGas s) depth k s

theorem readDeeperGas_irrel (g1 : Nat) : ∀ (g2 depth : Nat) (acc : Seq) (s : DSt),
    s.parse.length + 2 - s.next ≤ g1 → s.parse.length + 2 - s.next ≤ g2 →
    1 ≤ g1 → 1 ≤ g2 →
    readDeeperGas g1 depth acc s = readDeeperGas g2 depth acc s := by
  induction g1 with
  | zero => intro g2 depth acc s _ _ hg1 _; omega
  | succ n ih =>
    intro g2 depth acc s hm1 hm2 hg1 hg2
    cases g2 with
    | zero => omega
    | succ m =>
      simp only [readDeeperGas]
      split
      · rename_i hcond
        obtain ⟨hp, hlt, hin, hle⟩ := readln_true s hcond.1
        have hmt : (readln s).1.parse.length + 2 - (readln s).1.next ≤ n := by
          rw [hp]; omega
        have hmt2 : (readln s).1.parse.length + 2 - (readln s).1.next ≤ m := by
          rw [hp]; omega
        have hone : 1 ≤ (readln s).1.parse.length + 2 - (readln s).1.next := by
          rw [hp]; omega
        exact ih m depth _ (readln s).1 hmt hmt2 (le_trans hone hmt) (le_trans hone hmt2)
      · rfl

theorem readDeeperLines_eq (depth : Nat) (acc : Seq) (s : DSt) :
    readDeeperLines depth acc s =
    (if (readln s).2 = true ∧ (readln s).1.tabs ≥ (depth : Int) + 1 then
       readDeeperLines depth (acc ++ [(readln s).1.line.drop (depth + 1)]) (readln s).1
     else (acc, (readln s).1)) := by
  unfold readDeeperLines
  unfold lineGas
  have hgas : 1 ≤ max 1 (s.parse.length + 2 - s.next) := le_max_left _ _
  obtain ⟨g, hg⟩ : ∃ g, max 1 (s.parse.length + 2 - s.next) = g + 1 :=
    ⟨max 1 (s.parse.length + 2 - s.next) - 1, by omega⟩
  rw [hg]
  simp only [readDeeperGas]
  split
  · rename_i hcond
    obtain ⟨hp, hlt, hin, hle⟩ := readln_true s hcond.1
    have hmx := le_max_right 1 (s.parse.length + 2 - s.next)
    have hmt : (readln s).1.parse.length + 2 - (readln s).1.next ≤ g := by
      rw [hp]; omega
    have hone : 1 ≤ (readln s).1.parse.length + 2 - (readln s).1.next := by
      rw [hp]; omega
    exact readDeeperGas_irrel g _ depth _ (readln s).1 hmt
      (le_max_right _ _) (le_trans hone hmt) (le_max_left _ _)
  · rfl

theorem readExcessGas_irrel (g1 : Nat) : ∀ (g2 depth k : Nat) (s : DSt),
    s.parse.length + 2 - s.next ≤ g1 → s.parse.length + 2 - s.next ≤ g2 →
    1 ≤ g1 → 1 ≤ g2 →
    readExcessGas g1 depth k s = readExcessGas g2 depth k s := by
  induction g1 with
  | zero => intro g2 depth k s _ _ hg1 _; omega
  | succ n ih =>
    intro g2 depth k s hm1 hm2 hg1 hg2
    cases g2 with
    | zero => omega
    | succ m =>
      simp only [readExcessGas]
      split
      · rename_i hcond
        obtain ⟨hp, hlt, hin, hle⟩ := readln_true s hcond.1
        have hmt : (readln s).1.parse.length + 2 - (readln s).1.next ≤ n := by
          rw [hp]; omega
        have hmt2 : (readln s).1.parse.length + 2 - (readln s).1.next ≤ m := by
          rw [hp]; omega
        have hone : 1 ≤ (readln s).1.parse.length + 2 - (readln s).1.next := by
          rw [hp]; omega
        exact ih m depth _ (readln s).1 hmt hmt2 (le_trans hone hmt) (le_trans hone hmt2)
      · rfl

theorem readExcessLoop_eq (depth k : Nat) (s : DSt) :
    readExcessLoop depth k s =
    (if (readln s).2 = true ∧ (readln s).1.tabs > (depth : Int) then
       readExcessLoop depth (k + 1) (readln s).1
     else (k, (readln s).1)) := by
  unfold readExcessLoop
  unfold lineGas
  have hgas : 1 ≤ max 1 (s.parse.length + 2 - s.next) := le_max_left _ _
  obtain ⟨g, hg⟩ : ∃ g, max 1 (s.parse.length + 2 - s.next) = g + 1 :=
    ⟨max 1 (s.parse.length + 2 - s.next) - 1, by omega⟩
  rw [hg]
  simp only [readExcessGas]
  split
  · rename_i hcond
    obtain ⟨hp, hlt, hin, hle⟩ := readln_true s hcond.1
    have hmx := le_max_right 1 (s.parse.length + 2 - s.next)
    have hmt : (readln s).1.parse.length + 2 - (readln s).1.next ≤ g := by
      rw [hp]; omega
    have hone : 1 ≤ (readln s).1.parse.length + 2 - (readln s).1.next := by
      rw [hp]; omega
    exact readExcessGas_irrel g _ depth _ (readln s).1 hmt
      (le_max_right _ _) (le_trans hone hmt) (le_max_left _ _)
  · rfl

/-- Model of `Memory._readComment`: the current line from `start` onwards,
then every following line indented at least one level deeper, stripped of
`depth + 1` leading tabs. -/
def readComment (depth start : Nat) (s : DSt) : Comment × DSt :=
  let first := s.line.drop start
  let sl := s.count
  let r := readDeeperLines depth [first] s
  ({ lines := r.1, startingLine := sl }, r.2)

/-- Model of `Memory._readText`: like the comment loop but starting empty,
with the singleton-empty collapse at the end. -/
def readText (depth : Nat) (s : DSt) : Seq × Nat × DSt :=
  let sl := s.count
  let r := readDeeperLines depth [] s
  let ls := if r.1 = [[]] then [] else r.1
  (ls, sl, r.2)

/-- Model of the `io.StringIO` buffer as `_readExcess` uses it: the
constructor leaves the cursor at position zero, so a later `write` overwrites
the front of the initial value instead of appending to it. -/
def stringIOWrite (buffer written : String) : String :=
  written ++ String.mk (buffer.data.drop written.length)

/-- Model of `Memory._readExcess`: on an over-indented line, build the
message in a `StringIO`, skip all consecutive deeper lines, overwrite the
front of the message with the plural marker when more than one line was
skipped, and record the result. -/
def readExcess (depth : Nat) (s : DSt) : DSt :=
  if s.tabs > (depth : Int) then
    let message := s!"#{s.count}: excess indentation"
    let r := readExcessLoop depth 1 s
    let message := if r.1 > 1 then stringIOWrite message s!" ({r.1} lines)" else message
    { r.2 with errors := r.2.errors ++ [errorsAdd r.2.count "" message] }
  else s

def Value.withCommentAfter : Value → Comment → Value
  | .text l sl _, c => .text l sl (some c)
  | .vlist i sl intro _, c => .vlist i sl intro (some c)
  | .vdict e sl intro _, c => .vdict e sl intro (some c)

/-- Rendering of key bytes inside the `duplicate key: {key}` diagnostic.  The
source holds keys as Python strings decoded from the input bytes; byte values
map through `Char.ofNat`, which agrees with the source on ASCII input. -/
def chunkToString (c : Chunk) : String := String.mk (c.map Char.ofNat)

/-- Python `dict` assignment `array[key] = value` on the association-list
model: assigning under an already-present key keeps the stored key object and
its position and replaces only the value; a fresh key is appended.  `newKey`
is the key object being assigned (whose annotations the source applies right
after the insertion, so they are visible only when the key was fresh). -/
def dictInsert (es : List (KeyA × Value)) (newKey : KeyA) (v : Value) :
    List (KeyA × Value) :=
  if es.any (fun e => e.1.name = newKey.name) then
    es.map (fun e => if e.1.name = newKey.name then (e.1, v) else e)
  else es ++ [(newKey, v)]

/-- the comment-after attachment shared by the two scope loops: when the line
after a freshly built value sits at exactly the scope's indent and starts
with `#`, it becomes the value's `comment_after`. -/
def attachAfter (depth : Nat) (v : Value) (s : DSt) : Value × DSt :=
  if s.tabs = (depth : Int) ∧ s.line.length > depth ∧ s.line.getD depth 0 = 35 then
    let r := readComment depth (depth + 1) s
    (v.withCommentAfter r.1, r.2)
  else (v, s)

mutual

/-- Model of `Memory._readList` (fuel-indexed: `none` means the loop of the
source has not finished within `fuel` iterations).  Returns the intro
comment, the collected items and the final state. -/
def readListBodyF : Nat → Nat → DSt → Option (Option Comment × List Value × DSt)
  | 0, _, _ => none
  | fuel + 1, depth, s0 =>
    let s := readExcess depth s0
    if s.tabs < (depth : Int) then some (none, [], s)
    else
      let intro :=
        if s.line.length > depth ∧ s.line.getD depth 0 = 35 then
          let r := readComment depth (depth + 1) s
          (some r.1, r.2)
        else (none, s)
      let s1 := readExcess depth intro.2
      match readListLoopF fuel depth [] s1 with
      | none => none
      | some (items, sF) => some (intro.1, items, sF)
termination_by structural fuel => fuel

/-- the `while self._tabs == indent` loop of `Memory._readList`. -/
def readListLoopF : Nat → Nat → List Value → DSt → Option (List Value × DSt)
  | 0, _, _, _ => none
  | fuel + 1, depth, acc, s =>
    if s.tabs = (depth : Int) then
      let size := s.line.length - depth
      let step : Option (Option Value × DSt) :=
        match (if size = 0 then nl else s.line.getD depth 0) with
        | 10 => some (some (.text [] 0 none), (readln s).1)
        | 35 =>
          let s1 := decErr s "unattached comment"
          some (none, (readComment depth depth s1).2)
        | 47 =>
          let s1 := decErr s "key comment in list context"
          some (none, (readComment depth depth s1).2)
        | 60 =>
          if size ≠ 2 ∨ s.line.getD (s.line.length - 1) 0 ≠ 62 then
            some (none, decErr s "malformed text opening")
          else
            let r := readText depth s
            some (some (.text r.1 r.2.1 none), r.2.2)
        | 91 =>
          if size ≠ 2 ∨ s.line.getD (s.line.length - 1) 0 ≠ 93 then
            some (none, decErr s "malformed linear array opening")
          else
            match readListBodyF fuel (depth + 1) (readln s).1 with
            | none => none
            | some (intro, items, s1) => some (some (.vlist items 0 intro none), s1)
        | 123 =>
          if size ≠ 2 ∨ s.line.getD (s.line.length - 1) 0 ≠ 125 then
            some (none, decErr s "malformed associative array opening")
          else
            match readDictBodyF fuel (depth + 1) (readln s).1 with
            | none => none
            | some (intro, es, s1) => some (some (.vdict es 0 intro none), s1)
        | _ => some (some (.text [s.line.drop depth] 0 none), (readln s).1)
      match step with
      | none => none
      | some (none, s1) => readListLoopF fuel depth acc (readExcess depth s1)
      | some (some v, s1) =>
        let r := attachAfter depth v s1
        readListLoopF fuel depth (acc ++ [r.1]) (readExcess depth r.2)
    else some (acc, s)
termination_by structural fuel => fuel

/-- Model of `Memory._readDict` (fuel-indexed).  Returns the intro comment,
the collected entries and the final state. -/
def readDictBodyF : Nat → Nat → DSt →
    Option (Option Comment × List (KeyA × Value) × DSt)
  | 0, _, _ => none
  | fuel + 1, depth, s0 =>
    let s := readExcess depth s0
    if s.tabs < (depth : Int) then some (none, [], s)
    else
      let intro :=
        if s.line.length > depth ∧ s.line.getD depth 0 = 35 then
          let r := readComment depth (depth + 1) s
          (some r.1, r.2)
        else (none, s)
      let s1 := readExcess depth intro.2
      match readDictLoopF fuel depth [] 0 0 none s1 with
      | none => none
      | some (es, blank, comment, sF) =>
        let sF :=
          if comment.isSome ∨ blank ≠ 0 then
            decErr sF "unclaimed key comment or blank line"
          else sF
        some (intro.1, es, sF)
termination_by structural fuel => fuel

/-- the `while self._tabs == indent` loop of `Memory._readDict`, carrying the
installed-entry counter, the pending-blank line number and the pending key
comment. -/
def readDictLoopF : Nat → Nat → List (KeyA × Value) → Nat → Nat → Option Comment →
    DSt → Option (List (KeyA × Value) × Nat × Option Comment × DSt)
  | 0, _, _, _, _, _, _ => none
  | fuel + 1, depth, acc, entriesCt, blank, comment, s =>
    if s.tabs = (depth : Int) then
      let size := s.line.length - depth
      if size = 0 then
        let s1 :=
          if comment.isSome then decErr s "blank line must precede key comment"
          else if blank ≠ 0 then decErr s "more than one blank line"
          else s
        let blank1 :=
          if comment.isSome then blank else if blank ≠ 0 then blank else s.count
        readDictLoopF fuel depth acc entriesCt blank1 comment (readln s1).1
      else
        let step : Option (Option (Chunk × Value) × Option Comment × DSt) :=
          match s.line.getD depth 0 with
          | 35 =>
            let s1 := decErr s "illegal position for comment"
            some (none, comment, (readComment depth (depth + 1) s1).2)
          | 47 =>
            if size < 2 ∨ s.line.getD (depth + 1) 0 ≠ 47 then
              let s1 := decErr s "malformed key comment"
              some (none, comment, (readComment depth depth s1).2)
            else if comment.isSome then
              some (none, comment, decErr s "more than one key comment")
            else
              let r := readComment depth (depth + 2) s
              some (none, some r.1, r.2)
          | 60 =>
            if size < 2 ∨ s.line.getD (s.line.length - 1) 0 ≠ 62 then
              some (none, comment, decErr s "malformed text opening")
            else
              let key := (s.line.drop (depth + 1)).dropLast
              let r := readText depth s
              some (some (key, .text r.1 r.2.1 none), comment, r.2.2)
          | 91 =>
            if size < 2 ∨ s.line.getD (s.line.length - 1) 0 ≠ 93 then
              some (none, comment, decErr s "malformed linear array opening")
            else
              let key := (s.line.drop (depth + 1)).dropLast
              match readListBodyF fuel (depth + 1) (readln s).1 with
              | none => none
              | some (intro, items, s1) =>
                some (some (key, .vlist items 0 intro none), comment, s1)
          | 123 =>
            if size < 2 ∨ s.line.getD (s.line.length - 1) 0 ≠ 125 then
              some (none, comment, decErr s "malformed associative array opening")
            else
              let key := (s.line.drop (depth + 1)).dropLast
              match readDictBodyF fuel (depth + 1) (readln s).1 with
              | none => none
              | some (intro, es, s1) =>
                some (some (key, .vdict es 0 intro none), comment, s1)
          | _ =>
            if s.assign < 0 then
              some (none, comment, decErr s "malformed `key=value` association")
            else
              let key := (s.line.drop depth).take (s.assign.toNat - depth)
              let v : Value := .text [s.line.drop (s.assign.toNat + 1)] 0 none
              some (some (key, v), comment, (readln s).1)
        match step with
        | none => none
        | some (none, comment1, s1) =>
          readDictLoopF fuel depth acc entriesCt blank comment1 (readExcess depth s1)
        | some (some (kname, v), comment1, s1) =>
          let r := attachAfter depth v s1
          let newKey : KeyA :=
            { name := kname, blankLineBefore := blank ≠ 0, commentBefore := comment1 }
          let acc1 := dictInsert acc newKey r.1
          let ct1 := entriesCt + 1
          let s2 :=
            if acc1.length ≠ ct1 then
              decErr r.2 s!"duplicate key: {chunkToString kname}"
            else r.2
          readDictLoopF fuel depth acc1 ct1 0 none (readExcess depth s2)
    else some (acc, blank, comment, s)
termination_by structural fuel => fuel

end

/-- Model of `Memory.decode` with the loop fuel made explicit: `none` means
the run has not finished within the budget, and otherwise the result is the
decoded `File` together with the recorded error list (the source raises the
aggregated `parse errors` exactly when that list is non-empty). -/
def decodeInit (input : Chunk) : DSt :=
  { parse := input, next := 0, latched := true, line := [],
    tabs := -1, assign := -1, count := 0, errors := [] }

def decodeF (fuel : Nat) (input : Chunk) : Option (FileT × List String) :=
  let s1 := (readln (decodeInit input)).1
  let hb :=
    if s1.line.length > 1 ∧ s1.line.getD 0 0 = 35 ∧ s1.line.getD 1 0 = 33 then
      let r := readComment 0 2 s1
      (some r.1, r.2)
    else (none, s1)
  match readDictBodyF fuel 0 hb.2 with
  | none => none
  | some (intro, es, s2) =>
    some ({ entries := es, hashbang := hb.1, commentIntro := intro }, s2.errors)

/-- C9: encoding a `File` holding the single entry `k` whose value is the
text with one empty line carrying an empty after-comment produces exactly the
bytes `k=\n#` (two lines, `k=` then a bare `#`). -/
theorem C9_encode_empty_text_empty_comment :
    encode { entries := [({ name := [107], blankLineBefore := false,
                            commentBefore := none },
                          Value.text [[]] 0 (some { lines := [[]], startingLine := 0 }))],
             hashbang := none, commentIntro := none } = [107, 61, 10, 35] := by
  rfl

/-! ## The plain-data bridge

`Memory.python` lowers a tree to plain Python data (strings, lists, dicts);
`Memory.file` lifts plain data back to a tree.  Plain data is modelled by
`PyVal`; Python strings and bytes are both represented by their byte runs
(the source's UTF-8 encode/decode round-trip is the identity on them). -/

inductive PyVal where
  | pynone
  | pystr (bytes : Chunk)
  | pylist (items : List PyVal)
  | pydict (entries : List (Chunk × PyVal))
deriving Repr

/-- the newline join `b"\n".join(...)` realized by `UTF8.__bytes__`, used by
`str()` on a `Text` in `Memory._python`. -/
def seqJoin : Seq → Chunk
  | [] => []
  | [c] => c
  | c :: rest => c ++ nl :: seqJoin rest

/-- Python `dict` assignment on plain string-keyed dicts (insertion order
kept, duplicate assignment replaces in place), as `result[str(key)] = ...`
does in `Memory._python`. -/
def pyInsert (es : List (Chunk × PyVal)) (k : Chunk) (v : PyVal) :
    List (Chunk × PyVal) :=
  if es.any (fun e => e.1 = k) then
    es.map (fun e => if e.1 = k then (k, v) else e)
  else es ++ [(k, v)]

mutual

/-- Model of `Memory._python` on a `Value` (the `Text`/`List`/`Dict` arms;
the error arms for foreign objects cannot arise on well-typed trees). -/
def pyOfValue : Value → PyVal
  | .text lines _ _ => .pystr (seqJoin lines)
  | .vlist items _ _ _ => .pylist (pyOfItems items)
  | .vdict es _ _ _ => .pydict (pyOfEntries [] es)

def pyOfItems : List Value → List PyVal
  | [] => []
  | v :: rest => pyOfValue v :: pyOfItems rest

def pyOfEntries (acc : List (Chunk × PyVal)) :
    List (KeyA × Value) → List (Chunk × PyVal)
  | [] => acc
  | (k, v) :: rest => pyOfEntries (pyInsert acc k.name (pyOfValue v)) rest

end

/-- Model of `Memory.python` applied to a `File`: the plain dictionary. -/
def pythonOfFile (f : FileT) : List (Chunk × PyVal) := pyOfEntries [] f.entries

mutual

/-- Model of `Memory._value`: `None` becomes the empty text, strings and
byte runs become a normalized `Text`, sequences become a `List`, mappings
become a `Dict` (non-string keys cannot arise on `PyVal`). -/
def valueOfPy : PyVal → Value
  | .pynone => .text [] 0 none
  | .pystr b => .text (normalize [b]) 0 none
  | .pylist its => .vlist (valuesOfPy its) 0 none none
  | .pydict es => .vdict (entriesOfPy [] es) 0 none none

def valuesOfPy : List PyVal → List Value
  | [] => []
  | v :: rest => valueOfPy v :: valuesOfPy rest

def entriesOfPy (acc : List (KeyA × Value)) :
    List (Chunk × PyVal) → List (KeyA × Value)
  | [] => acc
  | (k, v) :: rest =>
    entriesOfPy
      (dictInsert acc { name := k, blankLineBefore := false, commentBefore := none }
        (valueOfPy v)) rest

end

/-- Model of `Memory.file`: lift the mapping through `_value` and move the
resulting `Dict` into a fresh `File` (whose `comment_intro` is the fresh
dict's, i.e. `none`, and whose hashbang is `none`). -/
def filePlain (es : List (Chunk × PyVal)) : FileT :=
  { entries := entriesOfPy [] es, hashbang := none, commentIntro := none }

mutual

/-- well-formedness that every tree built by `decode` or `file` enjoys:
text lines are newline-free and every dictionary's key names are distinct. -/
def wfValue : Value → Bool
  | .text lines _ _ => lines.all (fun c => decide (nl ∉ c))
  | .vlist items _ _ _ => wfItems items
  | .vdict es _ _ _ =>
    decide ((es.map (fun e => e.1.name)).Nodup) && wfEntries es

def wfItems : List Value → Bool
  | [] => true
  | v :: rest => wfValue v && wfItems rest

def wfEntries : List (KeyA × Value) → Bool
  | [] => true
  | (_, v) :: rest => wfValue v && wfEntries rest

end

def wfFile (f : FileT) : Bool :=
  decide ((f.entries.map (fun e => e.1.name)).Nodup) && wfEntries f.entries

mutual

/-- a tree with every annotation erased (comments dropped, blank flags
cleared, starting lines zeroed) and every text sequence normalized: what the
round trip through plain data is expected to return. -/
def plainValue : Value → Value
  | .text lines _ _ => .text (normalize lines) 0 none
  | .vlist items _ _ _ => .vlist (plainItems items) 0 none none
  | .vdict es _ _ _ => .vdict (plainEntries es) 0 none none

def plainItems : List Value → List Value
  | [] => []
  | v :: rest => plainValue v :: plainItems rest

def plainEntries : List (KeyA × Value) → List (KeyA × Value)
  | [] => []
  | (k, v) :: rest =>
    ({ name := k.name, blankLineBefore := false, commentBefore := none },
     plainValue v) :: plainEntries rest

end

def plainFile (f : FileT) : FileT :=
  { entries := plainEntries f.entries, hashbang := none, commentIntro := none }

/-! ### The plain round trip: splitting a newline join recovers the lines -/

theorem splitNl_append_of_no_nl {c : Chunk} (h : nl ∉ c) :
    ∀ {u p : Chunk} {ps : List Chunk}, splitNl u = p :: ps →
      splitNl (c ++ u) = (c ++ p) :: ps := by
  induction c with
  | nil => intro u p ps hu; simpa using hu
  | cons b rest ih =>
    intro u p ps hu
    have hb : ¬ b = nl := fun hx => h (by simp [hx])
    have hrest : nl ∉ rest := fun hm => h (List.mem_cons_of_mem b hm)
    have ih' := @ih hrest u p ps hu
    simp only [List.cons_append, splitNl, List.append_eq]
    rw [if_neg hb, ih']

theorem splitNl_seqJoin {ls : Seq} (hne : ls ≠ []) (h : ∀ c ∈ ls, nl ∉ c) :
    splitNl (seqJoin ls) = ls := by
  induction ls with
  | nil => exact absurd rfl hne
  | cons c rest ih =>
    cases rest with
    | nil => exact splitNl_of_no_nl (h c (List.mem_cons_self c []))
    | cons d ds =>
      have hrest : splitNl (seqJoin (d :: ds)) = d :: ds :=
        ih (by simp) (fun x hx => h x (List.mem_cons_of_mem c hx))
      have hmid : splitNl (nl :: seqJoin (d :: ds)) = [] :: d :: ds := by
        simp [splitNl, hrest]
      have hc := splitNl_append_of_no_nl (h c (List.mem_cons_self c (d :: ds))) hmid
      simpa using hc

/-- joining a newline-free sequence into one chunk and normalizing that
single chunk recovers the normalized sequence: the `Text → str → Text` leg
of the plain round trip loses nothing but the line representation. -/
theorem normalize_seqJoin {ls : Seq} (h : ∀ c ∈ ls, nl ∉ c) :
    normalize [seqJoin ls] = normalize ls := by
  match ls with
  | [] => rfl
  | [c] => rfl
  | c :: d :: ds =>
    have hj : splitNl (seqJoin (c :: d :: ds)) = c :: d :: ds :=
      splitNl_seqJoin (by simp) h
    have hjoin_ne : seqJoin (c :: d :: ds) ≠ [] := by
      show c ++ nl :: seqJoin (d :: ds) ≠ []
      simp
    have h1 : normalize [seqJoin (c :: d :: ds)] = splitNl (seqJoin (c :: d :: ds)) := by
      unfold normalize
      rw [if_neg (by simpa using hjoin_ne), List.flatMap_cons, List.flatMap_nil,
        List.append_nil]
    rw [h1, hj, normalize_of_no_nl (by simp) h]

theorem pyInsert_fresh {es : List (Chunk × PyVal)} {k : Chunk}
    (h : ∀ e ∈ es, ¬ e.1 = k) (v : PyVal) : pyInsert es k v = es ++ [(k, v)] := by
  unfold pyInsert
  rw [if_neg]
  intro hc
  rcases List.any_eq_true.1 hc with ⟨e, he, hek⟩
  exact h e he (of_decide_eq_true hek)

theorem dictInsert_fresh {es : List (KeyA × Value)} {k : KeyA}
    (h : ∀ e ∈ es, ¬ e.1.name = k.name) (v : Value) :
    dictInsert es k v = es ++ [(k, v)] := by
  unfold dictInsert
  rw [if_neg]
  intro hc
  rcases List.any_eq_true.1 hc with ⟨e, he, hek⟩
  exact h e he (of_decide_eq_true hek)

/-- on a dict whose key names are distinct, `Memory._python`'s entry loop is
a plain map: every `result[str(key)] = ...` assignment appends. -/
theorem pyOfEntries_eq_map (es : List (KeyA × Value)) :
    ∀ acc : List (Chunk × PyVal),
      (es.map (fun e => e.1.name)).Nodup →
      (∀ a ∈ acc, ∀ e ∈ es, ¬ a.1 = e.1.name) →
      pyOfEntries acc es = acc ++ es.map (fun e => (e.1.name, pyOfValue e.2)) := by
  induction es with
  | nil => intro acc _ _; simp [pyOfEntries]
  | cons kv rest ih =>
    intro acc hnd hdisj
    obtain ⟨k, v⟩ := kv
    simp only [List.map_cons] at hnd
    have hk_not : k.name ∉ rest.map (fun e => e.1.name) := (List.nodup_cons.1 hnd).1
    have hnd' := (List.nodup_cons.1 hnd).2
    have hdisj' : ∀ a ∈ acc ++ [(k.name, pyOfValue v)], ∀ e ∈ rest, ¬ a.1 = e.1.name := by
      intro a ha e he
      rcases List.mem_append.1 ha with h1 | h1
      · exact hdisj a h1 e (List.mem_cons_of_mem _ he)
      · simp only [List.mem_singleton] at h1
        subst h1
        intro hEq
        simp only at hEq
        exact hk_not (hEq ▸ List.mem_map.2 ⟨e, he, rfl⟩)
    simp only [pyOfEntries]
    rw [pyInsert_fresh (fun a ha => hdisj a ha (k, v) (List.mem_cons_self _ _)) (pyOfValue v)]
    rw [ih (acc ++ [(k.name, pyOfValue v)]) hnd' hdisj']
    simp

/-- on a plain dict whose keys are distinct, `Memory._value`'s entry loop is
a plain map: every `result[Key(k)] = x` assignment appends. -/
theorem entriesOfPy_eq_map (es : List (Chunk × PyVal)) :
    ∀ acc : List (KeyA × Value),
      (es.map (fun e => e.1)).Nodup →
      (∀ a ∈ acc, ∀ e ∈ es, ¬ a.1.name = e.1) →
      entriesOfPy acc es =
        acc ++ es.map (fun e =>
          ({ name := e.1, blankLineBefore := false, commentBefore := none },
           valueOfPy e.2)) := by
  induction es with
  | nil => intro acc _ _; simp [entriesOfPy]
  | cons kv rest ih =>
    intro acc hnd hdisj
    obtain ⟨k, v⟩ := kv
    simp only [List.map_cons] at hnd
    have hk_not : k ∉ rest.map (fun e => e.1) := (List.nodup_cons.1 hnd).1
    have hnd' := (List.nodup_cons.1 hnd).2
    have hdisj' :
        ∀ a ∈ acc ++ [(({ name := k, blankLineBefore := false, commentBefore := none }
            : KeyA), valueOfPy v)],
          ∀ e ∈ rest, ¬ a.1.name = e.1 := by
      intro a ha e he
      rcases List.mem_append.1 ha with h1 | h1
      · exact hdisj a h1 e (List.mem_cons_of_mem _ he)
      · simp only [List.mem_singleton] at h1
        subst h1
        intro hEq
        simp only at hEq
        exact hk_not (hEq ▸ List.mem_map.2 ⟨e, he, rfl⟩)
    simp only [entriesOfPy]
    rw [dictInsert_fresh (fun a ha => hdisj a ha (k, v) (List.mem_cons_self _ _)) (valueOfPy v)]
    rw [ih _ hnd' hdisj']
    simp

mutual

/-- the value-level round trip through plain data: `_value ∘ _python` erases
the annotations and normalizes every text, keeping structure and content. -/
theorem valueRT : ∀ v : Value, wfValue v = true →
    valueOfPy (pyOfValue v) = plainValue v
  | .text lines _ _, h => by
    simp only [pyOfValue, valueOfPy, plainValue]
    have hnl : ∀ c ∈ lines, nl ∉ c := by
      simp only [wfValue, List.all_eq_true] at h
      intro c hc
      exact of_decide_eq_true (h c hc)
    rw [normalize_seqJoin hnl]
  | .vlist items _ _ _, h => by
    simp only [pyOfValue, valueOfPy, plainValue]
    rw [itemsRT items (by simpa [wfValue] using h)]
  | .vdict es _ _ _, h => by
    simp only [pyOfValue, valueOfPy, plainValue]
    have h2 : ((es.map (fun e => e.1.name)).Nodup) ∧ wfEntries es = true := by
      simpa [wfValue] using h
    rw [entriesRT es h2.1 h2.2]
termination_by v _ => (sizeOf v, 0)

theorem itemsRT : ∀ items : List Value, wfItems items = true →
    valuesOfPy (pyOfItems items) = plainItems items
  | [], _ => rfl
  | v :: rest, h => by
    simp only [pyOfItems, valuesOfPy, plainItems]
    have h1 : wfValue v = true ∧ wfItems rest = true := by
      simpa [wfItems] using h
    rw [valueRT v h1.1, itemsRT rest h1.2]
termination_by items _ => (sizeOf items, 0)

theorem entriesRT : ∀ es : List (KeyA × Value),
    (es.map (fun e => e.1.name)).Nodup → wfEntries es = true →
    entriesOfPy [] (pyOfEntries [] es) = plainEntries es
  | es, hnd, hwf => by
    rw [pyOfEntries_eq_map es [] hnd (by simp), List.nil_append]
    have hnd2 : ((es.map (fun e => (e.1.name, pyOfValue e.2))).map
        (fun e => e.1)).Nodup := by
      rw [List.map_map]
      exact hnd
    rw [entriesOfPy_eq_map _ [] hnd2 (by simp), List.nil_append]
    exact entriesPW es hwf
termination_by es _ _ => (sizeOf es, 1)

theorem entriesPW : ∀ es : List (KeyA × Value), wfEntries es = true →
    (es.map (fun e => (e.1.name, pyOfValue e.2))).map
        (fun e => ({ name := e.1, blankLineBefore := false, commentBefore := none },
          valueOfPy e.2))
      = plainEntries es
  | [], _ => rfl
  | (k, v) :: rest, h => by
    simp only [List.map_cons, plainEntries]
    have h1 : wfValue v = true ∧ wfEntries rest = true := by
      simpa [wfEntries] using h
    rw [valueRT v h1.1, entriesPW rest h1.2]
termination_by es _ => (sizeOf es, 0)

end

/-! ## Divergence of the decoder on malformed openers

In `_readDict` and `_readList`, the branches for an unterminated `<`, `[` or
`{` opener (and the missing-`=` branch of `_readDict`) record an error but
never call `_readln()`; the scope loop then re-examines the same line
forever.  The states below are the exact engine states in which those loops
sit; one iteration only appends one more copy of the diagnostic. -/

/-- the state of the engine at the start of every dict-loop iteration while
decoding the input `<`: the malformed line is still the current line. -/
def stuckDictSt (errs : List String) : DSt :=
  { parse := [60], next := 2, latched := false, line := [60], tabs := 0,
    assign := -1, count := 1, errors := errs }

theorem readDictLoopF_stuck_step (n : Nat) (acc : List (KeyA × Value))
    (ct blank : Nat) (comment : Option Comment) (errs : List String) :
    readDictLoopF (n+1) 0 acc ct blank comment (stuckDictSt errs) =
    readDictLoopF n 0 acc ct blank comment
      (stuckDictSt (errs ++ [errorsAdd 1 "" "malformed text opening"])) := rfl

theorem readDictLoopF_stuck (fuel : Nat) :
    ∀ acc ct blank comment errs,
      readDictLoopF fuel 0 acc ct blank comment (stuckDictSt errs) = none := by
  induction fuel with
  | zero => intro acc ct blank comment errs; rfl
  | succ n ih =>
    intro acc ct blank comment errs
    rw [readDictLoopF_stuck_step]
    exact ih acc ct blank comment _

/-- C3: refuted.  The claim says every engine operation terminates on every
input; but `decode` of the single byte `<` (a malformed text opening at dict
scope) never terminates: the malformed-opening branch records its error
without consuming the line, so the scope loop runs forever, whatever the
iteration budget. -/
theorem C3_decode_diverges_on_malformed_opener :
    ∀ fuel, decodeF fuel [60] = none := by
  intro fuel
  cases fuel with
  | zero => rfl
  | succ n =>
    show decodeF (n+1) [60] = none
    have h : decodeF (n+1) [60] =
        match (match readDictLoopF n 0 [] 0 0 none (stuckDictSt []) with
               | none => none
               | some (es, blank, comment, sF) =>
                 some ((none : Option Comment), es,
                   if comment.isSome ∨ blank ≠ 0 then
                     decErr sF "unclaimed key comment or blank line"
                   else sF)) with
        | none => none
        | some (intro, es, s2) =>
          some ({ entries := es, hashbang := none, commentIntro := intro },
                s2.errors) := rfl
    rw [h, readDictLoopF_stuck]

/-- the state of the engine at the start of every list-loop iteration while
decoding `[k]\n\t<a`: the malformed `<a` line at list scope stays current. -/
def stuckListSt (errs : List String) : DSt :=
  { parse := [91,107,93,10,9,60,97], next := 8, latched := false,
    line := [9,60,97], tabs := 1, assign := -1, count := 2, errors := errs }

theorem readListLoopF_stuck_step (n : Nat) (acc : List Value) (errs : List String) :
    readListLoopF (n+1) 1 acc (stuckListSt errs) =
    readListLoopF n 1 acc
      (stuckListSt (errs ++ [errorsAdd 2 "" "malformed text opening"])) := rfl

theorem readListLoopF_stuck (fuel : Nat) :
    ∀ acc errs, readListLoopF fuel 1 acc (stuckListSt errs) = none := by
  induction fuel with
  | zero => intro acc errs; rfl
  | succ n ih =>
    intro acc errs
    rw [readListLoopF_stuck_step]
    exact ih acc _

theorem readListBodyF_stuck (fuel : Nat) :
    readListBodyF fuel 1 (stuckListSt []) = none := by
  cases fuel with
  | zero => rfl
  | succ m =>
    have h : readListBodyF (m+1) 1 (stuckListSt []) =
        match readListLoopF m 1 [] (stuckListSt []) with
        | none => none
        | some (items, sF) => some ((none : Option Comment), items, sF) := rfl
    rw [h, readListLoopF_stuck]

/-- C4: refuted.  The claim says a malformed opening line is discarded (the
cursor advances past it and parsing continues), in both scopes.  In fact the
malformed-opening branches record the specific error and leave the cursor in
place: one list-loop iteration on the stuck state of `[k]\n\t<a` changes
nothing but the appended diagnostic, and the whole decode of that input (and
of the dict-scope input `<`, see the C3 theorem) never finishes. -/
theorem C4_malformed_opener_not_discarded :
    (∀ n acc errs,
       readListLoopF (n+1) 1 acc (stuckListSt errs) =
       readListLoopF n 1 acc
         (stuckListSt (errs ++ [errorsAdd 2 "" "malformed text opening"]))) ∧
    (∀ fuel, decodeF fuel [91,107,93,10,9,60,97] = none) := by
  refine ⟨readListLoopF_stuck_step, ?_⟩
  intro fuel
  match fuel with
  | 0 => rfl
  | 1 => rfl
  | (n+2) =>
    show decodeF (n+2) [91,107,93,10,9,60,97] = none
    have h : decodeF (n+2) [91,107,93,10,9,60,97] =
        (let step : Option (Option (Chunk × Value) × Option Comment × DSt) :=
           match readListBodyF n 1 (stuckListSt []) with
           | none => none
           | some (intro, items, s1) =>
             some (some (([107] : Chunk), Value.vlist items 0 intro none),
                   (none : Option Comment), s1)
         let loopRes : Option (List (KeyA × Value) × Nat × Option Comment × DSt) :=
           match step with
           | none => none
           | some (none, comment1, s1) =>
             readDictLoopF n 0 [] 0 0 comment1 (readExcess 0 s1)
           | some (some (kname, v), comment1, s1) =>
             let r := attachAfter 0 v s1
             let newKey : KeyA :=
               { name := kname, blankLineBefore := (0 : Nat) ≠ 0,
                 commentBefore := comment1 }
             let acc1 := dictInsert [] newKey r.1
             let ct1 := 0 + 1
             let s2 :=
               if acc1.length ≠ ct1 then
                 decErr r.2 s!"duplicate key: {chunkToString kname}"
               else r.2
             readDictLoopF n 0 acc1 ct1 0 none (readExcess 0 s2)
         let bodyRes : Option (Option Comment × List (KeyA × Value) × DSt) :=
           match loopRes with
           | none => none
           | some (es, blank, comment, sF) =>
             some ((none : Option Comment), es,
               if comment.isSome ∨ blank ≠ 0 then
                 decErr sF "unclaimed key comment or blank line"
               else sF)
         match bodyRes with
         | none => none
         | some (intro, es2, s2) =>
           some ({ entries := es2, hashbang := none, commentIntro := intro },
                 s2.errors)) := rfl
    rw [h, readListBodyF_stuck]

/-- C10: confirmed.  Decoding `a=1\na=2\nb=3` records a `duplicate key`
error for the fresh key `b` as well as for the duplicated `a`: after the
first duplicate, the dict size trails the per-scope entry counter forever. -/
theorem C10_duplicate_counter_never_resynced :
    (decodeF 60 [97,61,49,10,97,61,50,10,98,61,51]).map Prod.snd =
      some ["#3 : duplicate key: a", "#4 : duplicate key: b"] := by
  decide

/-- C8: the actual excess-indentation diagnostics.  One over-indented line
yields the message `#1: excess indentation` wrapped by `_errors_add` into
`#2 : #1: excess indentation`; two over-indented lines yield the garbled
`#3 :  (2 lines) indentation`, because `StringIO(initial)` leaves the write
cursor at position zero and the ` (2 lines)` suffix overwrites the head of
the message instead of following it. -/
theorem C8_excess_indentation_message_garbled :
    (decodeF 60 [9,97,61,49,10,9,98,61,50,10,107,61,118]).map Prod.snd =
      some ["#3 :  (2 lines) indentation"] ∧
    (decodeF 60 [9,120,61,49,10,107,61,118]).map Prod.snd =
      some ["#2 : #1: excess indentation"] := by
  constructor
  · decide
  · decide

/-- shape of every diagnostic the decoder can record: the `#<count> ` prefix
with a nonzero count, an empty path, and the message. -/
def ErrsOK (l : List String) : Prop :=
  ∀ e ∈ l, ∃ n msg, 1 ≤ n ∧ e = errorsAdd n "" msg

/-- invariant of the decoder state: recorded diagnostics have the standard
shape, and once a line has been read (`_tabs ≥ 0`) the line counter is
positive. -/
def GoodSt (s : DSt) : Prop :=
  ErrsOK s.errors ∧ (0 ≤ s.tabs → 1 ≤ s.count)

theorem readln_errors (s : DSt) : (readln s).1.errors = s.errors := by
  unfold readln
  split
  · split <;> rfl
  · rfl

theorem readln_count_le (s : DSt) : s.count ≤ (readln s).1.count := by
  unfold readln
  split
  · split
    · simp
    · simp
  · simp

theorem readln_good {s : DSt} (h : GoodSt s) : GoodSt (readln s).1 := by
  obtain ⟨he, hc⟩ := h
  unfold readln
  split
  · split
    · exact ⟨he, fun ht => False.elim ((by decide : ¬ (0:Int) ≤ -1) ht)⟩
    · exact ⟨he, hc⟩
  · exact ⟨he, fun _ => Nat.succ_le_succ (Nat.zero_le s.count)⟩

theorem readDeeperGas_errors (g : Nat) : ∀ (d : Nat) (acc : Seq) (s : DSt),
    (readDeeperGas g d acc s).2.errors = s.errors := by
  induction g with
  | zero => intro d acc s; rfl
  | succ n ih =>
    intro d acc s
    simp only [readDeeperGas]
    split
    · rw [ih, readln_errors]
    · rw [readln_errors]

theorem readDeeperGas_count_le (g : Nat) : ∀ (d : Nat) (acc : Seq) (s : DSt),
    s.count ≤ (readDeeperGas g d acc s).2.count := by
  induction g with
  | zero => intro d acc s; exact le_refl _
  | succ n ih =>
    intro d acc s
    simp only [readDeeperGas]
    split
    · exact le_trans (readln_count_le s) (ih d _ _)
    · exact readln_count_le s

theorem readDeeperGas_good (g : Nat) : ∀ (d : Nat) (acc : Seq) (s : DSt),
    GoodSt s → GoodSt (readDeeperGas g d acc s).2 := by
  induction g with
  | zero => intro d acc s h; exact h
  | succ n ih =>
    intro d acc s h
    simp only [readDeeperGas]
    split
    · exact ih d _ _ (readln_good h)
    · exact readln_good h

theorem readComment_errors (d st : Nat) (s : DSt) :
    (readComment d st s).2.errors = s.errors := readDeeperGas_errors _ _ _ _

theorem readComment_count_le (d st : Nat) (s : DSt) :
    s.count ≤ (readComment d st s).2.count := readDeeperGas_count_le _ _ _ _

theorem readComment_good (d st : Nat) {s : DSt} (h : GoodSt s) :
    GoodSt (readComment d st s).2 := readDeeperGas_good _ _ _ _ h

theorem readText_errors (d : Nat) (s : DSt) :
    (readText d s).2.2.errors = s.errors := readDeeperGas_errors _ _ _ _

theorem readText_count_le (d : Nat) (s : DSt) :
    s.count ≤ (readText d s).2.2.count := readDeeperGas_count_le _ _ _ _

theorem readText_good (d : Nat) {s : DSt} (h : GoodSt s) :
    GoodSt (readText d s).2.2 := readDeeperGas_good _ _ _ _ h

theorem readExcessGas_errors (g : Nat) : ∀ (d k : Nat) (s : DSt),
    (readExcessGas g d k s).2.errors = s.errors := by
  induction g with
  | zero => intro d k s; rfl
  | succ n ih =>
    intro d k s
    simp only [readExcessGas]
    split
    · rw [ih, readln_errors]
    · rw [readln_errors]

theorem readExcessGas_count_le (g : Nat) : ∀ (d k : Nat) (s : DSt),
    s.count ≤ (readExcessGas g d k s).2.count := by
  induction g with
  | zero => intro d k s; exact le_refl _
  | succ n ih =>
    intro d k s
    simp only [readExcessGas]
    split
    · exact le_trans (readln_count_le s) (ih d _ _)
    · exact readln_count_le s

theorem readExcessGas_good (g : Nat) : ∀ (d k : Nat) (s : DSt),
    GoodSt s → GoodSt (readExcessGas g d k s).2 := by
  induction g with
  | zero => intro d k s h; exact h
  | succ n ih =>
    intro d k s h
    simp only [readExcessGas]
    split
    · exact ih d _ _ (readln_good h)
    · exact readln_good h

theorem errsOK_append {l : List String} (h : ErrsOK l) {n : Nat} (hn : 1 ≤ n)
    (msg : String) : ErrsOK (l ++ [errorsAdd n "" msg]) := by
  intro e he
  rcases List.mem_append.1 he with h1 | h1
  · exact h e h1
  · simp only [List.mem_singleton] at h1
    exact ⟨n, msg, hn, h1⟩

theorem decErr_good {s : DSt} (h : GoodSt s) (hc : 1 ≤ s.count) (msg : String) :
    GoodSt (decErr s msg) :=
  ⟨errsOK_append h.1 hc msg, fun _ => hc⟩

theorem readExcess_good {s : DSt} (d : Nat) (h : GoodSt s) :
    GoodSt (readExcess d s) := by
  unfold readExcess
  split
  · rename_i ht
    have hc : 1 ≤ s.count := h.2 (by omega)
    have hgood := readExcessGas_good (lineGas s) d 1 s h
    have hle := readExcessGas_count_le (lineGas s) d 1 s
    refine ⟨errsOK_append hgood.1 (le_trans hc hle) _, fun _ => le_trans hc hle⟩
  · exact h

theorem readExcess_count_le (d : Nat) (s : DSt) :
    s.count ≤ (readExcess d s).count := by
  unfold readExcess
  split
  · exact readExcessGas_count_le _ _ _ _
  · exact le_refl _

theorem attachAfter_good (d : Nat) (v : Value) {s : DSt} (h : GoodSt s) :
    GoodSt (attachAfter d v s).2 := by
  unfold attachAfter
  split
  · exact readComment_good _ _ h
  · exact h

theorem attachAfter_count_le (d : Nat) (v : Value) (s : DSt) :
    s.count ≤ (attachAfter d v s).2.count := by
  unfold attachAfter
  split
  · exact readComment_count_le _ _ _
  · exact le_refl _




theorem decErr_count (s : DSt) (m : String) : (decErr s m).count = s.count := rfl

/-- the intro-comment step shared by `_readList` and `_readDict`: state
soundness and line-counter monotonicity. -/
theorem introPair_good (depth : Nat) (s : DSt) (hg : GoodSt s) :
    GoodSt (if s.line.length > depth ∧ s.line.getD depth 0 = 35 then
              (some (readComment depth (depth+1) s).1, (readComment depth (depth+1) s).2)
            else (none, s)).2 ∧
    s.count ≤ (if s.line.length > depth ∧ s.line.getD depth 0 = 35 then
              (some (readComment depth (depth+1) s).1, (readComment depth (depth+1) s).2)
            else (none, s)).2.count := by
  split
  · exact ⟨readComment_good _ _ hg, readComment_count_le _ _ _⟩
  · exact ⟨hg, le_refl _⟩

theorem decode_inv (fuel : Nat) :
    (∀ depth s r, readListBodyF fuel depth s = some r → GoodSt s →
       GoodSt r.2.2 ∧ s.count ≤ r.2.2.count) ∧
    (∀ depth acc s r, readListLoopF fuel depth acc s = some r → GoodSt s →
       GoodSt r.2 ∧ s.count ≤ r.2.count) ∧
    (∀ depth s r, readDictBodyF fuel depth s = some r → GoodSt s →
       GoodSt r.2.2 ∧ s.count ≤ r.2.2.count) ∧
    (∀ depth acc ct blank comment s r,
       readDictLoopF fuel depth acc ct blank comment s = some r → GoodSt s →
       ((blank ≠ 0 ∨ comment.isSome = true) → 1 ≤ s.count) →
       GoodSt r.2.2.2 ∧ ((r.2.1 ≠ 0 ∨ r.2.2.1.isSome = true) → 1 ≤ r.2.2.2.count) ∧
         s.count ≤ r.2.2.2.count) := by
  induction fuel with
  | zero =>
    refine ⟨?_, ?_, ?_, ?_⟩ <;> intros <;>
      simp_all [readListBodyF, readListLoopF, readDictBodyF, readDictLoopF]
  | succ n ih =>
    obtain ⟨ihLB, ihLL, ihDB, ihDL⟩ := ih
    refine ⟨?_, ?_, ?_, ?_⟩
    · -- readListBodyF
      intro depth s r h hg
      simp only [readListBodyF] at h
      split at h
      · cases h
        exact ⟨readExcess_good depth hg, readExcess_count_le depth s⟩
      · have hp := introPair_good depth (readExcess depth s) (readExcess_good depth hg)
        split at h
        · exact absurd h (by simp)
        · rename_i items sF heq
          cases h
          obtain ⟨hgl, hcl⟩ := ihLL depth [] _ _ heq (readExcess_good depth hp.1)
          exact ⟨hgl,
            le_trans (readExcess_count_le depth s)
              (le_trans hp.2 (le_trans (readExcess_count_le _ _) hcl))⟩
    · -- readListLoopF
      intro depth acc s r h hg
      simp only [readListLoopF] at h
      split at h
      · rename_i hcond
        have hcount : 1 ≤ s.count := hg.2 (by rw [hcond]; exact Int.natCast_nonneg depth)
        have goInstall : ∀ (v : Value) (s1 : DSt) (acc2 : List Value), GoodSt s1 →
            s.count ≤ s1.count →
            readListLoopF n depth acc2 (readExcess depth (attachAfter depth v s1).2) =
              some r → GoodSt r.2 ∧ s.count ≤ r.2.count := by
          intro v s1 acc2 hs1 hle heq
          obtain ⟨hgl, hcl⟩ := ihLL depth acc2 _ _ heq
            (readExcess_good depth (attachAfter_good depth v hs1))
          exact ⟨hgl, le_trans hle (le_trans (attachAfter_count_le depth v s1)
            (le_trans (readExcess_count_le _ _) hcl))⟩
        have goSkip : ∀ (s1 : DSt) (acc2 : List Value), GoodSt s1 →
            s.count ≤ s1.count →
            readListLoopF n depth acc2 (readExcess depth s1) = some r →
            GoodSt r.2 ∧ s.count ≤ r.2.count := by
          intro s1 acc2 hs1 hle heq
          obtain ⟨hgl, hcl⟩ := ihLL depth acc2 _ _ heq (readExcess_good depth hs1)
          exact ⟨hgl, le_trans hle (le_trans (readExcess_count_le _ _) hcl)⟩
        split at h
        · exact absurd h (by simp)
        · rename_i s1 heq
          split at heq
          · cases heq
          · cases heq
            exact goSkip _ _ (readComment_good _ _ (decErr_good hg hcount _))
              (readComment_count_le depth depth (decErr s "unattached comment")) h
          · cases heq
            exact goSkip _ _ (readComment_good _ _ (decErr_good hg hcount _))
              (readComment_count_le depth depth (decErr s "key comment in list context")) h
          · split at heq
            · cases heq
              exact goSkip _ _ (decErr_good hg hcount _) (le_refl _) h
            · cases heq
          · split at heq
            · cases heq
              exact goSkip _ _ (decErr_good hg hcount _) (le_refl _) h
            · split at heq
              · cases heq
              · cases heq
          · split at heq
            · cases heq
              exact goSkip _ _ (decErr_good hg hcount _) (le_refl _) h
            · split at heq
              · cases heq
              · cases heq
          · cases heq
        · rename_i v s1 heq
          split at heq
          · cases heq
            exact goInstall _ _ _ (readln_good hg) (readln_count_le s) h
          · cases heq
          · cases heq
          · split at heq
            · cases heq
            · cases heq
              exact goInstall _ _ _ (readText_good _ hg) (readText_count_le _ _) h
          · split at heq
            · cases heq
            · split at heq
              · cases heq
              · rename_i heq2
                cases heq
                obtain ⟨hgb, hcb⟩ := ihLB _ _ _ heq2 (readln_good hg)
                exact goInstall _ _ _ hgb (le_trans (readln_count_le s) hcb) h
          · split at heq
            · cases heq
            · split at heq
              · cases heq
              · rename_i heq2
                cases heq
                obtain ⟨hgb, hcb⟩ := ihDB _ _ _ heq2 (readln_good hg)
                exact goInstall _ _ _ hgb (le_trans (readln_count_le s) hcb) h
          · cases heq
            exact goInstall _ _ _ (readln_good hg) (readln_count_le s) h
      · cases h
        exact ⟨hg, le_refl _⟩
    · -- readDictBodyF
      intro depth s r h hg
      simp only [readDictBodyF] at h
      split at h
      · cases h
        exact ⟨readExcess_good depth hg, readExcess_count_le depth s⟩
      · have hp := introPair_good depth (readExcess depth s) (readExcess_good depth hg)
        split at h
        · exact absurd h (by simp)
        · rename_i es blank comment sF heq
          cases h
          obtain ⟨hgd, hpend, hcd⟩ := ihDL depth [] 0 0 none _ _ heq
            (readExcess_good depth hp.1) (by simp)
          have hcchain : s.count ≤ sF.count :=
            le_trans (readExcess_count_le depth s)
              (le_trans hp.2 (le_trans (readExcess_count_le _ _) hcd))
          have hite : GoodSt (if comment.isSome ∨ blank ≠ 0 then
                decErr sF "unclaimed key comment or blank line" else sF) ∧
              sF.count ≤ (if comment.isSome ∨ blank ≠ 0 then
                decErr sF "unclaimed key comment or blank line" else sF).count := by
            split
            · rename_i hpd
              refine ⟨decErr_good hgd (hpend ?_) _, le_of_eq rfl⟩
              rcases hpd with hc | hb
              · exact Or.inr hc
              · exact Or.inl hb
            · exact ⟨hgd, le_refl _⟩
          exact ⟨hite.1, le_trans hcchain hite.2⟩
    · -- readDictLoopF
      intro depth acc ct blank comment s r h hg hpre
      simp only [readDictLoopF] at h
      split at h
      · rename_i hcond
        have hcount : 1 ≤ s.count := hg.2 (by rw [hcond]; exact Int.natCast_nonneg depth)
        split at h
        · -- blank line
          have goBlank : ∀ (X : DSt) (b1 : Nat), GoodSt X → X.count = s.count →
              readDictLoopF n depth acc ct b1 comment (readln X).1 = some r →
              GoodSt r.2.2.2 ∧ ((r.2.1 ≠ 0 ∨ r.2.2.1.isSome = true) → 1 ≤ r.2.2.2.count) ∧
                s.count ≤ r.2.2.2.count := by
            intro X b1 hX hXc heq
            obtain ⟨hgd, hpend, hcd⟩ := ihDL depth acc ct b1 comment _ _ heq (readln_good hX)
              (fun _ => le_trans hcount (le_trans (le_of_eq hXc.symm) (readln_count_le X)))
            exact ⟨hgd, hpend,
              le_trans (le_of_eq hXc.symm) (le_trans (readln_count_le X) hcd)⟩
          refine goBlank _ _ ?_ ?_ h
          · split
            · exact decErr_good hg hcount _
            · split
              · exact decErr_good hg hcount _
              · exact hg
          · split
            · rfl
            · split
              · rfl
              · rfl
        · -- an entry line
          have goSkipD : ∀ (s1 : DSt) (comment1 : Option Comment), GoodSt s1 →
              s.count ≤ s1.count →
              readDictLoopF n depth acc ct blank comment1 (readExcess depth s1) = some r →
              GoodSt r.2.2.2 ∧ ((r.2.1 ≠ 0 ∨ r.2.2.1.isSome = true) → 1 ≤ r.2.2.2.count) ∧
                s.count ≤ r.2.2.2.count := by
            intro s1 comment1 hs1 hle heq
            obtain ⟨hgd, hpend, hcd⟩ := ihDL depth acc ct blank comment1 _ _ heq
              (readExcess_good depth hs1)
              (fun _ => le_trans hcount (le_trans hle (readExcess_count_le depth s1)))
            exact ⟨hgd, hpend, le_trans hle (le_trans (readExcess_count_le depth s1) hcd)⟩
          have goInstallD : ∀ (s2 : DSt) (acc2 : List (KeyA × Value)) (ct2 : Nat),
              GoodSt s2 → s.count ≤ s2.count →
              readDictLoopF n depth acc2 ct2 0 none (readExcess depth s2) = some r →
              GoodSt r.2.2.2 ∧ ((r.2.1 ≠ 0 ∨ r.2.2.1.isSome = true) → 1 ≤ r.2.2.2.count) ∧
                s.count ≤ r.2.2.2.count := by
            intro s2 acc2 ct2 hs2 hle heq
            obtain ⟨hgd, hpend, hcd⟩ := ihDL depth acc2 ct2 0 none _ _ heq
              (readExcess_good depth hs2) (by simp)
            exact ⟨hgd, hpend, le_trans hle (le_trans (readExcess_count_le depth s2) hcd)⟩
          have instState : ∀ (v : Value) (s1 : DSt) (kname : Chunk) (acc2 : List (KeyA × Value))
              (ct2 : Nat), GoodSt s1 → s.count ≤ s1.count →
              GoodSt (if acc2.length ≠ ct2 then
                  decErr (attachAfter depth v s1).2 s!"duplicate key: {chunkToString kname}"
                else (attachAfter depth v s1).2) ∧
              s.count ≤ (if acc2.length ≠ ct2 then
                  decErr (attachAfter depth v s1).2 s!"duplicate key: {chunkToString kname}"
                else (attachAfter depth v s1).2).count := by
            intro v s1 kname acc2 ct2 hs1 hle
            have hga := attachAfter_good depth v hs1
            have hca := le_trans hle (attachAfter_count_le depth v s1)
            split
            · exact ⟨decErr_good hga (le_trans hcount hca) _, hca⟩
            · exact ⟨hga, hca⟩
          split at h
          · exact absurd h (by simp)
          · rename_i comment1 s1 heq
            split at heq
            · cases heq
              exact goSkipD _ _ (readComment_good _ _
                  (decErr_good hg hcount "illegal position for comment"))
                (readComment_count_le depth (depth+1)
                  (decErr s "illegal position for comment")) h
            · split at heq
              · cases heq
                exact goSkipD _ _ (readComment_good _ _
                    (decErr_good hg hcount "malformed key comment"))
                  (readComment_count_le depth depth (decErr s "malformed key comment")) h
              · split at heq
                · cases heq
                  exact goSkipD _ _ (decErr_good hg hcount _) (le_refl _) h
                · cases heq
                  exact goSkipD _ _ (readComment_good _ _ hg)
                    (readComment_count_le _ _ _) h
            · split at heq
              · cases heq
                exact goSkipD _ _ (decErr_good hg hcount _) (le_refl _) h
              · cases heq
            · split at heq
              · cases heq
                exact goSkipD _ _ (decErr_good hg hcount _) (le_refl _) h
              · split at heq
                · cases heq
                · cases heq
            · split at heq
              · cases heq
                exact goSkipD _ _ (decErr_good hg hcount _) (le_refl _) h
              · split at heq
                · cases heq
                · cases heq
            · split at heq
              · cases heq
                exact goSkipD _ _ (decErr_good hg hcount _) (le_refl _) h
              · cases heq
          · rename_i kv comment1 s1 heq
            split at heq
            · cases heq
            · split at heq
              · cases heq
              · split at heq
                · cases heq
                · cases heq
            · split at heq
              · cases heq
              · cases heq
                obtain ⟨hgi, hci⟩ := instState _ _ _ _ _ (readText_good _ hg)
                  (readText_count_le _ _)
                exact goInstallD _ _ _ hgi hci h
            · split at heq
              · cases heq
              · split at heq
                · cases heq
                · rename_i heq2
                  cases heq
                  obtain ⟨hgb, hcb⟩ := ihLB _ _ _ heq2 (readln_good hg)
                  obtain ⟨hgi, hci⟩ := instState _ _ _ _ _ hgb
                    (le_trans (readln_count_le s) hcb)
                  exact goInstallD _ _ _ hgi hci h
            · split at heq
              · cases heq
              · split at heq
                · cases heq
                · rename_i heq2
                  cases heq
                  obtain ⟨hgb, hcb⟩ := ihDB _ _ _ heq2 (readln_good hg)
                  obtain ⟨hgi, hci⟩ := instState _ _ _ _ _ hgb
                    (le_trans (readln_count_le s) hcb)
                  exact goInstallD _ _ _ hgi hci h
            · split at heq
              · cases heq
              · cases heq
                obtain ⟨hgi, hci⟩ := instState _ _ _ _ _ (readln_good hg)
                  (readln_count_le s)
                exact goInstallD _ _ _ hgi hci h
      · cases h
        exact ⟨hg, fun hp => hpre hp, le_refl _⟩




theorem errorsAdd_shape (n : Nat) (msg : String) (hn : 1 ≤ n) :
    errorsAdd n "" msg = "#" ++ toString n ++ " " ++ ":" ++ " " ++ msg := by
  unfold errorsAdd
  rw [if_pos (by omega)]
  simp only [String.append_empty]
  rfl

theorem C7_amended_diagnostic_format_core (fuel : Nat) (input : Chunk)
    (r : FileT × List String) (h : decodeF fuel input = some r) :
    ∀ e ∈ r.2, ∃ n msg, 1 ≤ n ∧ e = errorsAdd n "" msg := by
  simp only [decodeF] at h
  split at h
  · exact absurd h (by simp)
  · rename_i intro es s2 heq
    cases h
    have hs0 : GoodSt (decodeInit input) :=
      ⟨fun e he => absurd he (List.not_mem_nil e),
       fun ht => False.elim ((by decide : ¬ (0:Int) ≤ -1) ht)⟩
    refine ((decode_inv fuel).2.2.1 0 _ _ heq ?_).1.1
    split
    · exact readComment_good _ _ (readln_good hs0)
    · exact readln_good hs0

/-- C7: the claim as stated is false.  Decoding `\n\nk=v` records exactly
one diagnostic, the string `#2 : more than one blank line`, which does not
have the claimed shape `#<line>: <message> @<path>` for any line number,
message and path (the recorded string contains no `@` at all, and the line
number is followed by a space rather than a colon). -/
theorem C7_counterexample_error_format :
    (decodeF 60 [10,10,107,61,118]).map Prod.snd =
      some ["#2 : more than one blank line"] ∧
    ∀ (n : Nat) (msg path : String),
      "#2 : more than one blank line" ≠
        "#" ++ toString n ++ ": " ++ msg ++ " @" ++ path := by
  refine ⟨by decide, ?_⟩
  intro n msg path h
  have hat : ('@' : Char) ∈ ("#" ++ toString n ++ ": " ++ msg ++ " @" ++ path).data := by
    simp only [String.data_append]
    simp
  rw [← h] at hat
  revert hat
  decide

/-- C7 amended: every diagnostic recorded during a terminating decode is
formatted `#<line> <path>: <message>` — the `#<line> ` prefix with a positive
line number, then the rendered key path, then a colon, a space and the
message — and during decoding the path is always empty, because the decoder
never assigns the `_key` cells of the indent chain (and `zero()` nulls them
on entry); there is no ` @<path>` suffix and no `~0`/`~1` escaping. -/
theorem C7_amended_diagnostic_format (fuel : Nat) (input : Chunk)
    (r : FileT × List String) (h : decodeF fuel input = some r) :
    ∀ e ∈ r.2, ∃ n msg, 1 ≤ n ∧ e = errorsAdd n "" msg ∧
      e = "#" ++ toString n ++ " " ++ ":" ++ " " ++ msg := by
  intro e he
  obtain ⟨n, msg, hn, hshape⟩ := C7_amended_diagnostic_format_core fuel input r h e he
  exact ⟨n, msg, hn, hshape, hshape.trans (errorsAdd_shape n msg hn)⟩

theorem C7_amended_diagnostic_format_witness :
    ∃ n msg, 1 ≤ n ∧
      ("#2 : more than one blank line" : String) = errorsAdd n "" msg ∧
      ("#2 : more than one blank line" : String) =
        "#" ++ toString n ++ " " ++ ":" ++ " " ++ msg :=
  C7_amended_diagnostic_format 60 [10,10,107,61,118]
    ({ entries := [({ name := [107], blankLineBefore := true, commentBefore := none },
        Value.text [[118]] 0 none)], hashbang := none, commentIntro := none },
     ["#2 : more than one blank line"]) rfl
    "#2 : more than one blank line" (List.mem_singleton.2 rfl)

/-- C5: for every well-formed tree — text lines newline-free and dictionary
key names distinct at every level, the invariants every tree built by
`decode` or `file` enjoys — lifting the plain data obtained from the tree
back to a tree (`file` composed with `python`) yields a tree equal to the
original on structure: same keys in the same insertion order, same list
items, same text content, with all comments and annotations erased. -/
theorem C5_plain_round_trip (T : FileT) (h : wfFile T = true) :
    filePlain (pythonOfFile T) = plainFile T := by
  have h2 : ((T.entries.map (fun e => e.1.name)).Nodup) ∧
      wfEntries T.entries = true := by
    simpa [wfFile] using h
  unfold filePlain pythonOfFile plainFile
  rw [entriesRT T.entries h2.1 h2.2]

/-- a sample well-formed tree exercising text, list, dict, comments and
blank flags, used to witness the round-trip theorem on a concrete input. -/
def wfSample : FileT :=
  ⟨[(⟨[97], true, some ⟨[[99]], 3⟩⟩, .text [[104], [105]] 1 none),
    (⟨[98], false, none⟩,
     .vdict [(⟨[97], false, none⟩,
       .vlist [.text [[120]] 0 none, .text [] 0 none] 0 none none)] 0 none none)],
   some ⟨[[47]], 0⟩, some ⟨[[105]], 0⟩⟩

theorem C5_plain_round_trip_witness :
    wfFile wfSample = true ∧
    filePlain (pythonOfFile wfSample) = plainFile wfSample :=
  ⟨by rfl, C5_plain_round_trip wfSample (by rfl)⟩

/-! ## The print-parse inversion

The encoder emits its output line by line; `fileLines` below computes the
emitted lines (each including its leading indent tabs) directly from the
tree, and the encoder is proved to produce exactly their newline join.  The
decoder is then walked over that line stream.  `canonFile` is the tree the
decoder rebuilds (up to the informational `starting_line` fields, which
`stripFile` erases): the same structure with texts and comments normalized,
a dict-scope empty text represented per the form its key admits, and an
intro comment whose first line starts `!` read back as a hashbang. -/

def tbs (d : Nat) : Chunk := List.replicate d tab

/-- the lines `_writeComment` emits for marker `marker` at depth `d`. -/
def commentLines (marker : Chunk) (c : Option Comment) (d : Nat) : List Chunk :=
  match c with
  | none => []
  | some com =>
    match normalize com.lines with
    | [] => [tbs d ++ marker]
    | l0 :: rest => (tbs d ++ marker ++ l0) :: rest.map (fun l => tbs (d + 1) ++ l)

mutual

/-- the lines a list item's value occupies at depth `d` (after-comment not
included). -/
def valueLinesL (d : Nat) : Value → List Chunk
  | .text lines _ _ =>
    let nls := normalize lines
    if shortList nls then
      [tbs d ++ (match nls with | [] => [] | l0 :: _ => l0)]
    else (tbs d ++ [60, 62]) :: nls.map (fun l => tbs (d + 1) ++ l)
  | .vlist its _ intro _ =>
    (tbs d ++ [91, 93]) :: (commentLines [35] intro (d + 1) ++ itemsLines (d + 1) its)
  | .vdict es _ intro _ =>
    (tbs d ++ [123, 125]) ::
      (commentLines [35] intro (d + 1) ++ entriesLines (d + 1) es)

/-- the lines a dict entry's value (with its key) occupies at depth `d`. -/
def valueLinesD (d : Nat) (kname : Chunk) : Value → List Chunk
  | .text lines _ _ =>
    let nls := normalize lines
    if shortDict kname nls then
      [tbs d ++ kname ++ [61] ++ (match nls with | [] => [] | l0 :: _ => l0)]
    else (tbs d ++ [60] ++ kname ++ [62]) :: nls.map (fun l => tbs (d + 1) ++ l)
  | .vlist its _ intro _ =>
    (tbs d ++ [91] ++ kname ++ [93]) ::
      (commentLines [35] intro (d + 1) ++ itemsLines (d + 1) its)
  | .vdict es _ intro _ =>
    (tbs d ++ [123] ++ kname ++ [125]) ::
      (commentLines [35] intro (d + 1) ++ entriesLines (d + 1) es)

def itemsLines (d : Nat) : List Value → List Chunk
  | [] => []
  | v :: rest =>
    valueLinesL d v ++ commentLines [35] v.commentAfter d ++ itemsLines d rest

def entriesLines (d : Nat) : List (KeyA × Value) → List Chunk
  | [] => []
  | (k, v) :: rest =>
    (if k.blankLineBefore then [tbs d] else []) ++
    commentLines [47, 47] k.commentBefore d ++
    valueLinesD d k.name v ++ commentLines [35] v.commentAfter d ++
    entriesLines d rest

end

def fileLines (f : FileT) : List Chunk :=
  commentLines [35, 33] f.hashbang 0 ++ commentLines [35] f.commentIntro 0 ++
  entriesLines 0 f.entries

/-- the byte rendering of a line list, each line preceded by its newline
separator (the leading newline of the very first line is not emitted, hence
the `.tail` in `encode_eq_fileLines`). -/
def linesBytes (lns : List Chunk) : Chunk := lns.flatMap (fun l => nl :: l)

/-! ### starting-line erasure, canonical trees, and the empty-text fix -/

def stripC (c : Comment) : Comment := { lines := c.lines, startingLine := 0 }

def stripOC : Option Comment → Option Comment := Option.map stripC

mutual

/-- the tree with every informational `starting_line` zeroed. -/
def stripValue : Value → Value
  | .text l _ a => .text l 0 (stripOC a)
  | .vlist its _ i a => .vlist (stripItems its) 0 (stripOC i) (stripOC a)
  | .vdict es _ i a => .vdict (stripEntries es) 0 (stripOC i) (stripOC a)

def stripItems : List Value → List Value
  | [] => []
  | v :: rest => stripValue v :: stripItems rest

def stripEntries : List (KeyA × Value) → List (KeyA × Value)
  | [] => []
  | (k, v) :: rest =>
    ({ name := k.name, blankLineBefore := k.blankLineBefore,
       commentBefore := stripOC k.commentBefore }, stripValue v) :: stripEntries rest

end

def stripFile (f : FileT) : FileT :=
  { entries := stripEntries f.entries, hashbang := stripOC f.hashbang,
    commentIntro := stripOC f.commentIntro }

/-- the comment the decoder reads back from an encoded comment: its
normalized lines, except that a comment that normalizes to nothing is written
as a bare marker and read back as one empty line. -/
def canonC (c : Comment) : Comment :=
  { lines := if normalize c.lines = [] then [[]] else normalize c.lines,
    startingLine := 0 }

def canonOC : Option Comment → Option Comment := Option.map canonC

mutual

/-- the value the decoder reads back from an encoded list item. -/
def canonValueL : Value → Value
  | .text l _ a => .text (normalize l) 0 (canonOC a)
  | .vlist its _ i a => .vlist (canonItems its) 0 (canonOC i) (canonOC a)
  | .vdict es _ i a => .vdict (canonEntries es) 0 (canonOC i) (canonOC a)

/-- the value the decoder reads back from an encoded dict entry under key
`kname`: an empty text reappears as one empty line when the key admits the
short `key=` form and as no lines when it forces the `<key>` block form. -/
def canonValueD (kname : Chunk) : Value → Value
  | .text l _ a =>
    .text (if normalize l = [] then (if shortDict kname [] then [[]] else [])
           else normalize l) 0 (canonOC a)
  | .vlist its _ i a => .vlist (canonItems its) 0 (canonOC i) (canonOC a)
  | .vdict es _ i a => .vdict (canonEntries es) 0 (canonOC i) (canonOC a)

def canonItems : List Value → List Value
  | [] => []
  | v :: rest => canonValueL v :: canonItems rest

def canonEntries : List (KeyA × Value) → List (KeyA × Value)
  | [] => []
  | (k, v) :: rest =>
    ({ name := k.name, blankLineBefore := k.blankLineBefore,
       commentBefore := canonOC k.commentBefore }, canonValueD k.name v) ::
      canonEntries rest

end

/-- the tree the decoder rebuilds from `encode f` (`starting_line` fields
zeroed): entries canonicalized, and a top-level intro comment whose first
normalized line starts with `!` (with no hashbang present) read back as the
hashbang comment, since its first emitted line then starts `#!`. -/
def canonFile (f : FileT) : FileT :=
  match f.hashbang with
  | some c =>
    { entries := canonEntries f.entries, hashbang := some (canonC c),
      commentIntro := canonOC f.commentIntro }
  | none =>
    match f.commentIntro with
    | none => { entries := canonEntries f.entries, hashbang := none,
                commentIntro := none }
    | some c =>
      match normalize c.lines with
      | [] => { entries := canonEntries f.entries, hashbang := none,
                commentIntro := some { lines := [[]], startingLine := 0 } }
      | l0 :: rest =>
        if l0.getD 0 0 = 33 ∧ l0 ≠ [] then
          { entries := canonEntries f.entries,
            hashbang := some { lines := l0.drop 1 :: rest, startingLine := 0 },
            commentIntro := none }
        else
          { entries := canonEntries f.entries, hashbang := none,
            commentIntro := some { lines := l0 :: rest, startingLine := 0 } }

mutual

/-- the class invariants of Python `File`/`Dict` trees: every key (a `Key`,
a `str` subclass whose constructor rejects newlines) is newline-free, and
the keys of each dict level are distinct (they are `dict` keys). -/
def legalValue : Value → Bool
  | .text _ _ _ => true
  | .vlist its _ _ _ => legalItems its
  | .vdict es _ _ _ =>
    decide ((es.map (fun e => e.1.name)).Nodup) && legalEntries es

def legalItems : List Value → Bool
  | [] => true
  | v :: rest => legalValue v && legalItems rest

def legalEntries : List (KeyA × Value) → Bool
  | [] => true
  | (k, v) :: rest =>
    decide (nl ∉ k.name) && legalValue v && legalEntries rest

end

def legalFile (f : FileT) : Bool :=
  decide ((f.entries.map (fun e => e.1.name)).Nodup) && legalEntries f.entries

def wfComment (c : Comment) : Bool :=
  decide (c.lines ≠ []) && c.lines.all (fun l => decide (nl ∉ l))

def wfOC : Option Comment → Bool
  | none => true
  | some c => wfComment c

mutual

/-- the invariants of every value the decoder or `file` places in a list:
text lines newline-free and never the single empty line, comments nonempty
and newline-free, keys legal, dict keys distinct. -/
def wfPValueL : Value → Bool
  | .text l _ a => l.all (fun x => decide (nl ∉ x)) && decide (l ≠ [[]]) && wfOC a
  | .vlist its _ i a => wfPItems its && wfOC i && wfOC a
  | .vdict es _ i a =>
    decide ((es.map (fun e => e.1.name)).Nodup) && wfPEntries es &&
      wfOC i && wfOC a

/-- like `wfPValueL`, but a dict-scope text may also be the single empty
line (the short `key=` form decodes to it). -/
def wfPValueD : Value → Bool
  | .text l _ a => l.all (fun x => decide (nl ∉ x)) && wfOC a
  | .vlist its _ i a => wfPItems its && wfOC i && wfOC a
  | .vdict es _ i a =>
    decide ((es.map (fun e => e.1.name)).Nodup) && wfPEntries es &&
      wfOC i && wfOC a

def wfPItems : List Value → Bool
  | [] => true
  | v :: rest => wfPValueL v && wfPItems rest

def wfPEntries : List (KeyA × Value) → Bool
  | [] => true
  | (k, v) :: rest =>
    decide (nl ∉ k.name) && wfOC k.commentBefore && wfPValueD v &&
      wfPEntries rest

end

/-- the invariants of every tree the engine itself produced, including the
top-level rule that with no hashbang the intro comment's first line cannot
begin with `!` (the decoder would have read it as a hashbang). -/
def wfPFile (f : FileT) : Bool :=
  decide ((f.entries.map (fun e => e.1.name)).Nodup) && wfPEntries f.entries &&
  wfOC f.hashbang && wfOC f.commentIntro &&
  (match f.hashbang, f.commentIntro with
   | none, some c =>
     (match normalize c.lines with
      | [] => true
      | l0 :: _ => !(decide (l0.getD 0 0 = 33) && decide (l0 ≠ [])))
   | _, _ => true)

mutual

/-- the representation shift of the amended round-trip claim: a dict-scope
empty text (no lines, or one empty line) reappears with one empty line when
its key admits the short `key=` form, and with no lines otherwise; nothing
else changes. -/
def fixValueD (kname : Chunk) : Value → Value
  | .text l sl a =>
    .text (if l = [] ∨ l = [[]] then (if shortDict kname [] then [[]] else [])
           else l) sl a
  | .vlist its sl i a => .vlist (fixItems its) sl i a
  | .vdict es sl i a => .vdict (fixEntries es) sl i a

def fixValueL : Value → Value
  | .text l sl a => .text l sl a
  | .vlist its sl i a => .vlist (fixItems its) sl i a
  | .vdict es sl i a => .vdict (fixEntries es) sl i a

def fixItems : List Value → List Value
  | [] => []
  | v :: rest => fixValueL v :: fixItems rest

def fixEntries : List (KeyA × Value) → List (KeyA × Value)
  | [] => []
  | (k, v) :: rest => (k, fixValueD k.name v) :: fixEntries rest

end

def fixFile (f : FileT) : FileT :=
  { entries := fixEntries f.entries, hashbang := f.hashbang,
    commentIntro := f.commentIntro }

/-! ### The encoder emits exactly the modelled lines -/

theorem linesBytes_nil : linesBytes [] = [] := rfl

theorem linesBytes_cons (l : Chunk) (ls : List Chunk) :
    linesBytes (l :: ls) = nl :: (l ++ linesBytes ls) := by
  simp [linesBytes]

theorem linesBytes_append (A B : List Chunk) :
    linesBytes (A ++ B) = linesBytes A ++ linesBytes B := by
  simp [linesBytes]

theorem linesBytes_tail_append {A : List Chunk} (B : List Chunk) (hA : A ≠ []) :
    (linesBytes (A ++ B)).tail = (linesBytes A).tail ++ linesBytes B := by
  cases A with
  | nil => exact absurd rfl hA
  | cons l A' =>
    rw [List.cons_append, linesBytes_cons, linesBytes_cons]
    simp [linesBytes_append]

theorem commentLines_ne_nil (m : Chunk) (com : Comment) (d : Nat) :
    commentLines m (some com) d ≠ [] := by
  simp only [commentLines]
  cases hn : normalize com.lines <;> simp

/-- the continuation-line fold of `_writeComment` and the block-text arms. -/
theorem foldl_writeLines (ls : Seq) : ∀ (o : Chunk) (c d : Nat), 1 ≤ c →
    ls.foldl (fun t line => writeBytes (writeIndent t) line) ⟨o, c, d⟩ =
      ⟨o ++ ls.flatMap (fun l => nl :: (tbs d ++ l)), c + ls.length, d⟩ := by
  induction ls with
  | nil => intro o c d h; simp
  | cons l rest ih =>
    intro o c d h
    have hstep : writeBytes (writeIndent ⟨o, c, d⟩) l =
        ⟨o ++ nl :: (tbs d ++ l), c + 1, d⟩ := by
      unfold writeBytes writeIndent
      rw [if_pos (show c ≠ 0 by omega)]
      simp [tbs]
    rw [List.foldl_cons, hstep, ih (o ++ nl :: (tbs d ++ l)) (c + 1) d (by omega)]
    simp [ESt.mk.injEq]
    omega

theorem writeComment_lines (m : Chunk) (c : Option Comment) (o : Chunk)
    (ct d : Nat) (h : 1 ≤ ct) :
    writeComment m c ⟨o, ct, d⟩ =
      ⟨o ++ linesBytes (commentLines m c d), ct + (commentLines m c d).length, d⟩ := by
  match c with
  | none => simp [writeComment, commentLines, linesBytes]
  | some com =>
    simp only [writeComment, commentLines]
    have hind : writeBytes (writeIndent ⟨o, ct, d⟩) m =
        ⟨o ++ nl :: (tbs d ++ m), ct + 1, d⟩ := by
      unfold writeBytes writeIndent
      rw [if_pos (show ct ≠ 0 by omega)]
      simp [tbs]
    cases hn : normalize com.lines with
    | nil =>
      simp only [hind]
      simp [linesBytes_cons, linesBytes_nil]
    | cons l0 rest =>
      simp only [hind]
      have hb : writeBytes (⟨o ++ nl :: (tbs d ++ m), ct + 1, d⟩ : ESt) l0 =
          ⟨(o ++ nl :: (tbs d ++ m)) ++ l0, ct + 1, d⟩ := by
        simp [writeBytes]
      simp only [hb]
      have hf := foldl_writeLines rest ((o ++ nl :: (tbs d ++ m)) ++ l0)
        (ct + 1) (d + 1) (by omega)
      simp only [hf]
      simp only [linesBytes_cons, linesBytes]
      simp [ESt.mk.injEq]
      refine ⟨?_, by omega⟩
      rw [List.flatMap_map]

theorem writeIndent_pos (o : Chunk) (c d : Nat) (h : 1 ≤ c) :
    writeIndent ⟨o, c, d⟩ = ⟨o ++ nl :: tbs d, c + 1, d⟩ := by
  unfold writeIndent
  rw [if_pos (show c ≠ 0 by omega)]
  simp [tbs]

theorem writeBytes_mk (o : Chunk) (c d : Nat) (x : Chunk) :
    writeBytes ⟨o, c, d⟩ x = ⟨o ++ x, c, d⟩ := rfl

mutual

/-- `_writeList`'s per-item `match value` body, run right after the item's
`_writeIndent`, emits exactly the item's modelled lines. -/
theorem writeListValue_lines : ∀ (v : Value) (o : Chunk) (c d : Nat), 1 ≤ c →
    writeListValue v (writeIndent ⟨o, c, d⟩) =
      ⟨o ++ linesBytes (valueLinesL d v), c + (valueLinesL d v).length, d⟩
  | .text lines sl a, o, c, d, h => by
    rw [writeIndent_pos o c d h]
    simp only [writeListValue, valueLinesL]
    by_cases hs : shortList (normalize lines) = true
    · rw [if_pos hs, if_pos hs]
      cases hn : normalize lines with
      | nil => simp [linesBytes_cons, linesBytes_nil]
      | cons l0 rest => simp [writeBytes_mk, linesBytes_cons, linesBytes_nil]
    · rw [if_neg hs, if_neg hs]
      rw [writeBytes_mk]
      have hf := foldl_writeLines (normalize lines)
        ((o ++ nl :: tbs d) ++ [60, 62]) (c + 1) (d + 1) (by omega)
      simp only []
      simp only [hf]
      simp [linesBytes_cons, linesBytes, List.flatMap_map, ESt.mk.injEq]
      omega
  | .vlist its sl intro a, o, c, d, h => by
    rw [writeIndent_pos o c d h]
    simp only [writeListValue, valueLinesL, writeBytes_mk]
    rw [writeComment_lines [35] intro ((o ++ nl :: tbs d) ++ [91, 93])
      (c + 1) (d + 1) (by omega)]
    rw [writeListItems_lines its _ _ _ (by omega)]
    simp [linesBytes_cons, linesBytes_append, ESt.mk.injEq]
    omega
  | .vdict es sl intro a, o, c, d, h => by
    rw [writeIndent_pos o c d h]
    simp only [writeListValue, valueLinesL, writeBytes_mk]
    rw [writeComment_lines [35] intro ((o ++ nl :: tbs d) ++ [123, 125])
      (c + 1) (d + 1) (by omega)]
    rw [writeDictEntries_lines es _ _ _ (by omega)]
    simp [linesBytes_cons, linesBytes_append, ESt.mk.injEq]
    omega

/-- `_writeDict`'s per-entry `match value` body, run right after the entry's
`_writeIndent`, emits exactly the entry's modelled lines. -/
theorem writeDictValue_lines : ∀ (kname : Chunk) (v : Value) (o : Chunk)
      (c d : Nat), 1 ≤ c →
    writeDictValue kname v (writeIndent ⟨o, c, d⟩) =
      ⟨o ++ linesBytes (valueLinesD d kname v),
       c + (valueLinesD d kname v).length, d⟩
  | kname, .text lines sl a, o, c, d, h => by
    rw [writeIndent_pos o c d h]
    simp only [writeDictValue, valueLinesD]
    by_cases hs : shortDict kname (normalize lines) = true
    · rw [if_pos hs, if_pos hs]
      cases hn : normalize lines with
      | nil => simp [writeBytes_mk, linesBytes_cons, linesBytes_nil]
      | cons l0 rest => simp [writeBytes_mk, linesBytes_cons, linesBytes_nil]
    · rw [if_neg hs, if_neg hs]
      simp only [writeBytes_mk]
      have hf := foldl_writeLines (normalize lines)
        (((o ++ nl :: tbs d) ++ [60]) ++ kname ++ [62]) (c + 1) (d + 1) (by omega)
      simp only [hf]
      simp [linesBytes_cons, linesBytes, List.flatMap_map, ESt.mk.injEq]
      omega
  | kname, .vlist its sl intro a, o, c, d, h => by
    rw [writeIndent_pos o c d h]
    simp only [writeDictValue, writeBytes_mk, valueLinesD]
    rw [writeComment_lines [35] intro _ (c + 1) (d + 1) (by omega)]
    rw [writeListItems_lines its _ _ _ (by omega)]
    simp [linesBytes_cons, linesBytes_append, ESt.mk.injEq]
    omega
  | kname, .vdict es sl intro a, o, c, d, h => by
    rw [writeIndent_pos o c d h]
    simp only [writeDictValue, writeBytes_mk, valueLinesD]
    rw [writeComment_lines [35] intro _ (c + 1) (d + 1) (by omega)]
    rw [writeDictEntries_lines es _ _ _ (by omega)]
    simp [linesBytes_cons, linesBytes_append, ESt.mk.injEq]
    omega

/-- the item loop of `_writeList` emits exactly the modelled item lines. -/
theorem writeListItems_lines : ∀ (its : List Value) (o : Chunk) (c d : Nat),
      1 ≤ c →
    writeListItems its ⟨o, c, d⟩ =
      ⟨o ++ linesBytes (itemsLines d its), c + (itemsLines d its).length, d⟩
  | [], o, c, d, h => by simp [writeListItems, itemsLines, linesBytes_nil]
  | v :: rest, o, c, d, h => by
    simp only [writeListItems, itemsLines]
    rw [writeListValue_lines v o c d h]
    rw [writeComment_lines [35] v.commentAfter _ _ _ (by omega)]
    rw [writeListItems_lines rest _ _ _ (by omega)]
    simp [linesBytes_append, ESt.mk.injEq]
    omega

/-- the entry loop of `_writeDict` emits exactly the modelled entry lines. -/
theorem writeDictEntries_lines : ∀ (es : List (KeyA × Value)) (o : Chunk)
      (c d : Nat), 1 ≤ c →
    writeDictEntries es ⟨o, c, d⟩ =
      ⟨o ++ linesBytes (entriesLines d es), c + (entriesLines d es).length, d⟩
  | [], o, c, d, h => by simp [writeDictEntries, entriesLines, linesBytes_nil]
  | (k, v) :: rest, o, c, d, h => by
    simp only [writeDictEntries, entriesLines]
    by_cases hb : k.blankLineBefore = true
    · rw [if_pos hb, if_pos hb, writeIndent_pos o c d h]
      rw [writeComment_lines [47, 47] k.commentBefore _ _ _ (by omega)]
      rw [writeDictValue_lines k.name v _ _ _ (by omega)]
      rw [writeComment_lines [35] v.commentAfter _ _ _ (by omega)]
      rw [writeDictEntries_lines rest _ _ _ (by omega)]
      simp [linesBytes_append, linesBytes_cons, linesBytes_nil, ESt.mk.injEq]
      omega
    · rw [if_neg hb, if_neg hb]
      rw [writeComment_lines [47, 47] k.commentBefore o c d h]
      rw [writeDictValue_lines k.name v _ _ _ (by omega)]
      rw [writeComment_lines [35] v.commentAfter _ _ _ (by omega)]
      rw [writeDictEntries_lines rest _ _ _ (by omega)]
      simp [linesBytes_append, linesBytes_cons, linesBytes_nil, ESt.mk.injEq]
      omega

end

theorem valueLinesD_ne_nil (d : Nat) (kname : Chunk) (v : Value) :
    valueLinesD d kname v ≠ [] := by
  match v with
  | .text lines sl a =>
    simp only [valueLinesD]
    by_cases hs : shortDict kname (normalize lines) = true
    · rw [if_pos hs]; simp
    · rw [if_neg hs]; simp
  | .vlist its sl intro a => simp [valueLinesD]
  | .vdict es sl intro a => simp [valueLinesD]

theorem valueLinesL_ne_nil (d : Nat) (v : Value) : valueLinesL d v ≠ [] := by
  match v with
  | .text lines sl a =>
    simp only [valueLinesL]
    by_cases hs : shortList (normalize lines) = true
    · rw [if_pos hs]; simp
    · rw [if_neg hs]; simp
  | .vlist its sl intro a => simp [valueLinesL]
  | .vdict es sl intro a => simp [valueLinesL]

theorem writeIndent_zero (o : Chunk) (d : Nat) :
    writeIndent ⟨o, 0, d⟩ = ⟨o ++ tbs d, 1, d⟩ := by
  unfold writeIndent
  rw [if_neg (by simp)]
  simp [tbs]

theorem commentLines_length_pos (m : Chunk) (com : Comment) (d : Nat) :
    1 ≤ (commentLines m (some com) d).length := by
  have h := commentLines_ne_nil m com d
  cases hc : commentLines m (some com) d with
  | nil => exact absurd hc h
  | cons a b => simp

/-- `_writeComment` on the still-empty buffer: the very first line carries no
leading newline. -/
theorem writeComment_lines0 (m : Chunk) (com : Comment) (o : Chunk) (d : Nat) :
    writeComment m (some com) ⟨o, 0, d⟩ =
      ⟨o ++ (linesBytes (commentLines m (some com) d)).tail,
       (commentLines m (some com) d).length, d⟩ := by
  simp only [writeComment, commentLines]
  have hind : writeBytes (writeIndent ⟨o, 0, d⟩) m = ⟨(o ++ tbs d) ++ m, 1, d⟩ := by
    rw [writeIndent_zero, writeBytes_mk]
  cases hn : normalize com.lines with
  | nil =>
    simp only [hind]
    simp [linesBytes_cons, linesBytes_nil]
  | cons l0 rest =>
    simp only [hind, writeBytes_mk]
    have hf := foldl_writeLines rest (((o ++ tbs d) ++ m) ++ l0) 1 (d + 1)
      (by omega)
    simp only [hf]
    simp only [linesBytes_cons, linesBytes]
    simp [ESt.mk.injEq]
    rw [List.flatMap_map]
    exact ⟨rfl, by omega⟩

/-- the entry-value writer on the still-empty buffer (reached when the first
entry has no blank line and no key comment before it). -/
theorem writeDictValue_lines0 (kname : Chunk) (v : Value) (o : Chunk) (d : Nat) :
    writeDictValue kname v (writeIndent ⟨o, 0, d⟩) =
      ⟨o ++ (linesBytes (valueLinesD d kname v)).tail,
       (valueLinesD d kname v).length, d⟩ := by
  rw [writeIndent_zero o d]
  match v with
  | .text lines sl a =>
    simp only [writeDictValue, valueLinesD]
    by_cases hs : shortDict kname (normalize lines) = true
    · rw [if_pos hs, if_pos hs]
      cases hn : normalize lines with
      | nil => simp [writeBytes_mk, linesBytes_cons, linesBytes_nil]
      | cons l0 rest => simp [writeBytes_mk, linesBytes_cons, linesBytes_nil]
    · rw [if_neg hs, if_neg hs]
      simp only [writeBytes_mk]
      have hf := foldl_writeLines (normalize lines)
        (((o ++ tbs d) ++ [60]) ++ kname ++ [62]) 1 (d + 1) (by omega)
      simp only [hf]
      simp [linesBytes_cons, linesBytes, List.flatMap_map, ESt.mk.injEq]
      omega
  | .vlist its sl intro a =>
    simp only [writeDictValue, writeBytes_mk, valueLinesD]
    rw [writeComment_lines [35] intro _ 1 (d + 1) (by omega)]
    rw [writeListItems_lines its _ _ _ (by omega)]
    simp [linesBytes_cons, linesBytes_append, ESt.mk.injEq]
    omega
  | .vdict es sl intro a =>
    simp only [writeDictValue, writeBytes_mk, valueLinesD]
    rw [writeComment_lines [35] intro _ 1 (d + 1) (by omega)]
    rw [writeDictEntries_lines es _ _ _ (by omega)]
    simp [linesBytes_cons, linesBytes_append, ESt.mk.injEq]
    omega

/-- the entry loop on the still-empty buffer. -/
theorem writeDictEntries_lines0 (es : List (KeyA × Value)) (o : Chunk) (d : Nat) :
    writeDictEntries es ⟨o, 0, d⟩ =
      ⟨o ++ (linesBytes (entriesLines d es)).tail, (entriesLines d es).length, d⟩ := by
  match es with
  | [] => simp [writeDictEntries, entriesLines, linesBytes_nil]
  | (k, v) :: rest =>
    simp only [writeDictEntries, entriesLines]
    by_cases hb : k.blankLineBefore = true
    · rw [if_pos hb, if_pos hb, writeIndent_zero]
      rw [writeComment_lines [47, 47] k.commentBefore _ _ _ (by omega)]
      rw [writeDictValue_lines k.name v _ _ _ (by omega)]
      rw [writeComment_lines [35] v.commentAfter _ _ _ (by omega)]
      rw [writeDictEntries_lines rest _ _ _ (by omega)]
      rw [linesBytes_tail_append _ (by simp)]
      simp [linesBytes_append, linesBytes_cons, linesBytes_nil, ESt.mk.injEq]
      omega
    · rw [if_neg hb, if_neg hb]
      match hc : k.commentBefore with
      | some com =>
        rw [writeComment_lines0 [47, 47] com o d]
        rw [writeDictValue_lines k.name v _ _ _ (commentLines_length_pos _ _ _)]
        rw [writeComment_lines [35] v.commentAfter _ _ _
          (le_trans (commentLines_length_pos [47, 47] com d) (by omega))]
        rw [writeDictEntries_lines rest _ _ _
          (le_trans (commentLines_length_pos [47, 47] com d) (by omega))]
        simp only [List.nil_append, List.append_assoc]
        rw [linesBytes_tail_append _ (commentLines_ne_nil [47, 47] com d)]
        simp [linesBytes_append, ESt.mk.injEq]
        omega
      | none =>
        have hcnone : writeComment [47, 47] none (⟨o, 0, d⟩ : ESt) = ⟨o, 0, d⟩ := rfl
        rw [hcnone]
        rw [writeDictValue_lines0 k.name v o d]
        have hpos : 1 ≤ (valueLinesD d k.name v).length := by
          have := valueLinesD_ne_nil d k.name v
          cases hv : valueLinesD d k.name v with
          | nil => exact absurd hv this
          | cons a b => simp
        rw [writeComment_lines [35] v.commentAfter _ _ _ hpos]
        rw [writeDictEntries_lines rest _ _ _ (le_trans hpos (Nat.le_add_right _ _))]
        simp only [commentLines, List.nil_append, List.append_assoc]
        rw [linesBytes_tail_append _ (valueLinesD_ne_nil d k.name v)]
        simp [linesBytes_append, ESt.mk.injEq]
        omega

theorem writeComment_none (m : Chunk) (s : ESt) : writeComment m none s = s := rfl

theorem commentLines_none (m : Chunk) (d : Nat) : commentLines m none d = [] := rfl

/-- `Memory.encode` emits exactly the modelled line list, joined by newlines
(the `.tail` drops the leading separator of the first line). -/
theorem encode_eq_fileLines (f : FileT) :
    encode f = (linesBytes (fileLines f)).tail := by
  simp only [encode, writeDictBody, fileLines]
  cases hh : f.hashbang with
  | none =>
    cases hi : f.commentIntro with
    | none =>
      rw [writeComment_none, writeComment_none, commentLines_none, commentLines_none]
      rw [writeDictEntries_lines0 f.entries [] 0]
      simp
    | some ci =>
      rw [writeComment_none, commentLines_none]
      rw [writeComment_lines0 [35] ci [] 0]
      rw [writeDictEntries_lines _ _ _ _ (commentLines_length_pos [35] ci 0)]
      simp only [List.nil_append]
      rw [linesBytes_tail_append _ (commentLines_ne_nil [35] ci 0)]
  | some hb =>
    rw [writeComment_lines0 [35, 33] hb [] 0]
    rw [writeComment_lines [35] f.commentIntro _ _ _
      (commentLines_length_pos [35, 33] hb 0)]
    rw [writeDictEntries_lines _ _ _ _
      (le_trans (commentLines_length_pos [35, 33] hb 0) (Nat.le_add_right _ _))]
    simp only [List.append_assoc]
    rw [linesBytes_tail_append _ (commentLines_ne_nil [35, 33] hb 0)]
    simp [linesBytes_append]

/-! ### Walking the decoder over a line stream

`At s cur lns` says the decoder state `s` holds `cur` as its current line
(with `_tabs`/`_assign` as `_readln` left them) while the bytes still to be
consumed render the lines `lns`; `EndSt` is the state after the end-of-input
sentinel latched. -/

def lineAssign (l : Chunk) : Int :=
  (scanEol (l.drop (countTabsFrom l)) (countTabsFrom l) (-1)).2

/-- the encoder never emits a final empty line (an empty line is a top-level
blank, which always precedes its entry): streams with that property never
lose a line to the end-of-input check of `_readln`. -/
def okStream : List Chunk → Prop
  | [] => True
  | [l] => l ≠ []
  | _ :: rest => okStream rest

def EndSt (s : DSt) : Prop :=
  s.latched = true ∧ s.tabs = -1 ∧ s.line = [] ∧ s.assign = -1 ∧
  s.parse.length ≤ s.next ∧ 1 ≤ s.count

def At (s : DSt) (cur : Chunk) (lns : List Chunk) : Prop :=
  s.line = cur ∧ s.tabs = (countTabsFrom cur : Int) ∧ s.assign = lineAssign cur ∧
  s.latched = false ∧ s.parse.drop s.next = (linesBytes lns).tail ∧
  1 ≤ s.count ∧ nl ∉ cur ∧ (∀ l ∈ lns, nl ∉ l) ∧ okStream lns

def AtStream (s : DSt) : List Chunk → Prop
  | [] => EndSt s
  | l :: ls => At s l ls

theorem countTabsFrom_append_nl (l r : Chunk) :
    countTabsFrom (l ++ nl :: r) = countTabsFrom l := by
  induction l with
  | nil => simp [countTabsFrom, nl, tab]
  | cons b rest ih =>
    simp only [List.cons_append, countTabsFrom, List.append_eq]
    by_cases hb : b = tab
    · rw [if_pos hb, if_pos hb, ih]
    · rw [if_neg hb, if_neg hb]

theorem countTabsFrom_append_lb (l : Chunk) (lns : List Chunk) :
    countTabsFrom (l ++ linesBytes lns) = countTabsFrom l := by
  cases lns with
  | nil => simp [linesBytes_nil]
  | cons x xs => rw [linesBytes_cons, countTabsFrom_append_nl]

theorem scanEol_append_nl {x : Chunk} (h : nl ∉ x) (r : Chunk) :
    ∀ (off : Nat) (a : Int), scanEol (x ++ nl :: r) off a = scanEol x off a := by
  induction x with
  | nil => intro off a; simp [scanEol]
  | cons b rest ih =>
    intro off a
    have hb : ¬ b = nl := fun hx => h (by simp [hx])
    simp only [List.cons_append, scanEol, List.append_eq]
    rw [if_neg hb, if_neg hb,
      ih (fun hm => h (List.mem_cons_of_mem b hm)) (off + 1) _]

theorem scanEol_append_lb {x : Chunk} (h : nl ∉ x) (lns : List Chunk)
    (off : Nat) (a : Int) :
    scanEol (x ++ linesBytes lns) off a = scanEol x off a := by
  cases lns with
  | nil => simp [linesBytes_nil]
  | cons y ys => rw [linesBytes_cons, scanEol_append_nl h]

theorem scanEol_full {x : Chunk} (h : nl ∉ x) :
    ∀ (off : Nat) (a : Int), (scanEol x off a).1 = off + x.length := by
  induction x with
  | nil => intro off a; simp [scanEol]
  | cons b rest ih =>
    intro off a
    have hb : ¬ b = nl := fun hx => h (by simp [hx])
    simp only [scanEol]
    rw [if_neg hb, ih (fun hm => h (List.mem_cons_of_mem b hm))]
    simp
    omega

/-- `_readln` under `At`: the head of the stream becomes the current line. -/
theorem okStream_tail {l : Chunk} {ls : List Chunk} (h : okStream (l :: ls)) :
    okStream ls := by
  cases ls with
  | nil => trivial
  | cons a b => exact h

theorem okStream_head {l : Chunk} {ls : List Chunk} (h : okStream (l :: ls)) :
    l ≠ [] ∨ ls ≠ [] := by
  cases ls with
  | nil => exact Or.inl h
  | cons a b => exact Or.inr (by simp)

theorem readln_at {s : DSt} {cur l : Chunk} {lns : List Chunk}
    (h : At s cur (l :: lns)) :
    (readln s).2 = true ∧ At (readln s).1 l lns ∧
    (readln s).1.errors = s.errors ∧ (readln s).1.parse = s.parse ∧
    (readln s).1.count = s.count + 1 := by
  obtain ⟨hline, htabs, hassign, hlatch, hdrop, hcount, hnlcur, hnlns, hok⟩ := h
  have hne : l ≠ [] ∨ lns ≠ [] := okStream_head hok
  have hnl_l : nl ∉ l := hnlns l (List.mem_cons_self l lns)
  have hnlns' : ∀ x ∈ lns, nl ∉ x := fun x hx => hnlns x (List.mem_cons_of_mem l hx)
  rw [linesBytes_cons] at hdrop
  simp only [List.tail_cons] at hdrop
  have hDne : l ++ linesBytes lns ≠ [] := by
    cases hne with
    | inl h1 => cases l with
      | nil => exact absurd rfl h1
      | cons a b => simp
    | inr h2 => cases lns with
      | nil => exact absurd rfl h2
      | cons x xs => rw [linesBytes_cons]; simp
  have hlt : s.next < s.parse.length := by
    by_contra hge
    rw [List.drop_eq_nil_of_le (by omega)] at hdrop
    exact hDne hdrop.symm
  have hT := countTabsFrom_le l
  have hdrop2 : s.parse.drop (s.next + countTabsFrom l) =
      l.drop (countTabsFrom l) ++ linesBytes lns := by
    rw [← List.drop_drop, hdrop, List.drop_append_of_le_length hT]
  unfold readln
  rw [if_neg (by omega)]
  simp only [hdrop, countTabsFrom_append_lb]
  rw [hdrop2]
  rw [scanEol_append_lb (fun hm => hnl_l (List.mem_of_mem_drop hm)) lns]
  have hfin1 : (scanEol (l.drop (countTabsFrom l)) (countTabsFrom l) (-1)).1 =
      l.length := by
    rw [scanEol_full (fun hm => hnl_l (List.mem_of_mem_drop hm))]
    simp
    omega
  refine ⟨trivial, ?_, trivial, trivial, trivial⟩
  refine ⟨?_, ?_, ?_, rfl, ?_, by simp, hnl_l, hnlns', okStream_tail hok⟩
  · simp only [hfin1, hdrop]
    exact List.take_left l (linesBytes lns)
  · simp [hfin1]
  · simp [hfin1, lineAssign]
  · simp only [hfin1]
    rw [show s.next + l.length + 1 = s.next + (l.length + 1) by omega]
    rw [← List.drop_drop, hdrop]
    rw [show l.length + 1 = l.length + 1 by rfl]
    cases lns with
    | nil =>
      rw [linesBytes_nil]
      simp [List.drop_eq_nil_of_le]
    | cons x xs =>
      rw [linesBytes_cons]
      rw [show (l ++ nl :: (x ++ linesBytes xs)).drop (l.length + 1) =
        ((l ++ [nl]) ++ (x ++ linesBytes xs)).drop ((l ++ [nl]).length) by simp]
      rw [List.drop_left]
      simp

/-- `_readln` at the last line: the end-of-input sentinel latches. -/
theorem readln_eofstep {s : DSt} {cur : Chunk} (h : At s cur []) :
    (readln s).2 = false ∧ EndSt (readln s).1 ∧
    (readln s).1.errors = s.errors ∧ (readln s).1.parse = s.parse := by
  obtain ⟨hline, htabs, hassign, hlatch, hdrop, hcount, hnlcur, _, _⟩ := h
  have hge : s.parse.length ≤ s.next := by
    rw [linesBytes_nil] at hdrop
    exact List.drop_eq_nil_iff.1 hdrop
  unfold readln
  rw [if_pos (by omega), if_pos (by rw [hlatch]; simp)]
  exact ⟨rfl, ⟨rfl, rfl, rfl, rfl, by simpa using hge, by simp⟩, rfl, rfl⟩

/-- `_readln` after the sentinel latched: a no-op returning `False`. -/
theorem readln_end {s : DSt} (h : EndSt s) : readln s = (s, false) := by
  obtain ⟨hlatch, _, _, _, hge, _⟩ := h
  unfold readln
  rw [if_pos (by omega), if_neg (by rw [hlatch]; simp)]

/-! ### Shapes of the emitted lines -/

theorem countTabsFrom_tbs_append (d : Nat) (x : Chunk) :
    countTabsFrom (tbs d ++ x) = d + countTabsFrom x := by
  induction d with
  | zero => simp [tbs]
  | succ n ih =>
    show countTabsFrom (List.replicate (n + 1) tab ++ x) = n + 1 + countTabsFrom x
    rw [List.replicate_succ, List.cons_append]
    show (if tab = tab then countTabsFrom (List.replicate n tab ++ x) + 1 else 0) = _
    rw [if_pos rfl]
    have := ih
    rw [show tbs n = List.replicate n tab from rfl] at this
    omega

theorem countTabsFrom_tbs (d : Nat) : countTabsFrom (tbs d) = d := by
  have h := countTabsFrom_tbs_append d []
  simpa [countTabsFrom] using h

theorem tbs_length (d : Nat) : (tbs d).length = d := by simp [tbs]

theorem drop_tbs_append (d : Nat) (x : Chunk) : (tbs d ++ x).drop d = x := by
  have h := List.drop_left (tbs d) x
  rwa [tbs_length] at h

theorem drop_tbs_append_succ (d : Nat) (b : Byte) (x : Chunk) :
    (tbs d ++ b :: x).drop (d + 1) = x := by
  rw [← List.drop_drop, drop_tbs_append]
  simp

theorem getD_tbs_append (d : Nat) (x : Chunk) :
    (tbs d ++ x).getD d 0 = x.getD 0 0 := by
  induction d with
  | zero => simp [tbs]
  | succ n ih =>
    show List.getD (List.replicate (n + 1) tab ++ x) (n + 1) 0 = x.getD 0 0
    rw [List.replicate_succ, List.cons_append]
    simpa [List.getD_cons_succ] using ih

theorem length_tbs_append (d : Nat) (x : Chunk) :
    (tbs d ++ x).length = d + x.length := by simp [tbs]

theorem nl_not_mem_tbs_append {x : Chunk} (h : nl ∉ x) (d : Nat) :
    nl ∉ tbs d ++ x := by
  intro hm
  rcases List.mem_append.1 hm with h1 | h1
  · have := List.eq_of_mem_replicate h1
    simp [nl, tab] at this
  · exact h h1

/-- on a normalized sequence, `normalize` never returns the single empty
line. -/
theorem map_drop_tbs (d : Nat) (r : List Chunk) :
    (r.map (fun l => tbs d ++ l)).map (fun l => l.drop d) = r := by
  induction r with
  | nil => rfl
  | cons x xs ih => simp only [List.map_cons, drop_tbs_append, ih]

theorem normalize_ne_singleton_nil (X : Seq) : normalize X ≠ [[]] := by
  unfold normalize
  split
  · simp
  · intro hc
    rename_i hX
    exact hX (flatMap_splitNl_eq_singleton_nil hc)

theorem readExcess_noop {s : DSt} {d : Nat} (h : s.tabs ≤ (d : Int)) :
    readExcess d s = s := by
  unfold readExcess
  rw [if_neg (by omega)]

def headLow (d : Nat) : List Chunk → Prop
  | [] => True
  | l :: _ => countTabsFrom l ≤ d

def headLT (d : Nat) : List Chunk → Prop
  | [] => True
  | l :: _ => countTabsFrom l < d

/-- no line that the comment-after check could claim heads the stream. -/
def headNotAfter (d : Nat) : List Chunk → Prop
  | [] => True
  | l :: _ => ¬ (countTabsFrom l = d ∧ l.length > d ∧ l.getD d 0 = 35)

theorem headLow_of_headLT {d : Nat} {rest : List Chunk} (h : headLT d rest) :
    headLow d rest := by
  cases rest with
  | nil => trivial
  | cons l ls => exact Nat.le_of_lt h

theorem headNotAfter_of_headLT {d : Nat} {rest : List Chunk} (h : headLT d rest) :
    headNotAfter d rest := by
  cases rest with
  | nil => trivial
  | cons l ls => exact fun hc => absurd hc.1 (by have : countTabsFrom l < d := h; omega)

/-! ### The deeper-line collectors over a stream -/

theorem readDeeper_sim (d : Nat) (cls : List Chunk) :
    ∀ (acc : Seq) (s : DSt) (cur : Chunk) (rest : List Chunk),
      At s cur (cls ++ rest) →
      (∀ l ∈ cls, d + 1 ≤ countTabsFrom l) →
      headLow d rest →
      ∃ s', readDeeperLines d acc s =
          (acc ++ cls.map (fun l => l.drop (d + 1)), s') ∧
        AtStream s' rest ∧ s'.errors = s.errors ∧ s'.parse = s.parse ∧
        s.count ≤ s'.count := by
  induction cls with
  | nil =>
    intro acc s cur rest hAt _ hlow
    rw [readDeeperLines_eq]
    cases rest with
    | nil =>
      obtain ⟨hfalse, hend, herr, hpar⟩ := readln_eofstep hAt
      refine ⟨(readln s).1, ?_, hend, herr, hpar, readln_count_le s⟩
      rw [if_neg (by rw [hfalse]; simp)]
      simp
    | cons r rs =>
      obtain ⟨htrue, hAt', herr, hpar, _⟩ := readln_at hAt
      refine ⟨(readln s).1, ?_, hAt', herr, hpar, readln_count_le s⟩
      rw [if_neg ?_]
      · simp
      · intro hcond
        rw [hAt'.2.1] at hcond
        have h2 := hcond.2
        have h3 : countTabsFrom r ≤ d := hlow
        omega
  | cons c cls' ih =>
    intro acc s cur rest hAt hdeep hlow
    obtain ⟨htrue, hAt', herr, hpar, _⟩ := readln_at hAt
    rw [readDeeperLines_eq]
    rw [if_pos ⟨htrue, by
      rw [hAt'.2.1]
      have := hdeep c (List.mem_cons_self c cls')
      omega⟩]
    rw [hAt'.1]
    obtain ⟨s', heq, hS, herr', hpar', hct⟩ :=
      ih (acc ++ [c.drop (d + 1)]) (readln s).1 c rest hAt'
        (fun l hl => hdeep l (List.mem_cons_of_mem c hl)) hlow
    refine ⟨s', ?_, hS, by rw [herr', herr], by rw [hpar', hpar],
      le_trans (readln_count_le s) hct⟩
    rw [heq]
    simp

theorem readComment_sim (d start : Nat) (cls : List Chunk)
    {s : DSt} {cur : Chunk} {rest : List Chunk}
    (hAt : At s cur (cls ++ rest))
    (hdeep : ∀ l ∈ cls, d + 1 ≤ countTabsFrom l) (hlow : headLow d rest) :
    ∃ s', readComment d start s =
        ({ lines := cur.drop start :: cls.map (fun l => l.drop (d + 1)),
           startingLine := s.count }, s') ∧
      AtStream s' rest ∧ s'.errors = s.errors ∧ s'.parse = s.parse ∧
      s.count ≤ s'.count := by
  obtain ⟨s', heq, hS, herr, hpar, hct⟩ :=
    readDeeper_sim d cls [s.line.drop start] s cur rest hAt hdeep hlow
  refine ⟨s', ?_, hS, herr, hpar, hct⟩
  rw [hAt.1] at heq
  unfold readComment
  simp only [heq, hAt.1]
  simp

theorem readText_sim (d : Nat) (nls : Seq) {s : DSt} {cur : Chunk}
    {rest : List Chunk}
    (hAt : At s cur (nls.map (fun l => tbs (d + 1) ++ l) ++ rest))
    (hne : nls ≠ [[]]) (hlow : headLow d rest) :
    ∃ s', readText d s = (nls, s.count, s') ∧
      AtStream s' rest ∧ s'.errors = s.errors ∧ s'.parse = s.parse ∧
      s.count ≤ s'.count := by
  obtain ⟨s', heq, hS, herr, hpar, hct⟩ :=
    readDeeper_sim d (nls.map (fun l => tbs (d + 1) ++ l)) [] s cur rest hAt
      (fun l hl => by
        obtain ⟨x, _, hx⟩ := List.mem_map.1 hl
        rw [← hx, countTabsFrom_tbs_append]
        omega)
      hlow
  have hmap : (nls.map (fun l => tbs (d + 1) ++ l)).map (fun l => l.drop (d + 1)) =
      nls := map_drop_tbs (d + 1) nls
  refine ⟨s', ?_, hS, herr, hpar, hct⟩
  unfold readText
  rw [heq]
  simp only [List.nil_append, hmap]
  rw [if_neg hne]

/-- the comment the decoder attaches, anchored at a given line. -/
def canonCAt (c : Comment) (n : Nat) : Comment :=
  { lines := if normalize c.lines = [] then [[]] else normalize c.lines,
    startingLine := n }

theorem stripC_canonCAt (c : Comment) (n : Nat) :
    stripC (canonCAt c n) = canonC c := rfl

/-- the value as the decoder leaves it after the comment-after check, with
its starting line erased. -/
def withCanonAfter (v0 : Value) : Option Comment → Value
  | none => v0
  | some c => v0.withCommentAfter (canonCAt c 0)

/-- the comment-after attachment over a stream: with an after-comment's lines
heading the stream it is read and attached; otherwise nothing happens. -/
theorem attach_sim (d : Nat) (v0 : Value) (ac : Option Comment) {s : DSt}
    {rest : List Chunk}
    (hS : AtStream s (commentLines [35] ac d ++ rest))
    (hna : headNotAfter d rest) (hlow : headLow d rest) :
    ∃ s' res, attachAfter d v0 s = (res, s') ∧
      stripValue res = stripValue (withCanonAfter v0 ac) ∧
      AtStream s' rest ∧ s'.errors = s.errors ∧ s'.parse = s.parse ∧
      s.count ≤ s'.count := by
  match ac with
  | none =>
    refine ⟨s, v0, ?_, rfl, by simpa using hS, rfl, rfl, le_refl _⟩
    unfold attachAfter
    rw [if_neg ?_]
    simp only [commentLines, List.nil_append] at hS
    cases rest with
    | nil =>
      obtain ⟨_, htabs, _⟩ := hS
      intro hc
      rw [htabs] at hc
      have := hc.1
      omega
    | cons r rs =>
      obtain ⟨hline, htabs, _⟩ := hS
      intro hc
      rw [htabs, hline] at hc
      exact hna ⟨by exact_mod_cast hc.1, hc.2.1, hc.2.2⟩
  | some c =>
    have hcl : commentLines [35] (some c) d =
        (tbs d ++ 35 ::
          (match normalize c.lines with | [] => [] | l0 :: _ => l0)) ::
        (match normalize c.lines with
         | [] => []
         | _ :: rest => rest.map (fun l => tbs (d + 1) ++ l)) := by
      simp only [commentLines]
      cases hn : normalize c.lines with
      | nil => simp
      | cons l0 r => simp
    rw [hcl] at hS
    simp only [List.cons_append] at hS
    obtain ⟨hline, htabs, hassign, hlatch, hdrop, hcount, hnlcur, hnlns, hok⟩ := hS
    have hcurtabs : countTabsFrom (tbs d ++ 35 ::
        (match normalize c.lines with | [] => [] | l0 :: _ => l0)) = d := by
      rw [countTabsFrom_tbs_append]
      simp [countTabsFrom, tab]
    unfold attachAfter
    rw [if_pos ?cond]
    case cond =>
      refine ⟨by rw [htabs, hcurtabs], ?_, ?_⟩
      · rw [hline, length_tbs_append]
        simp
      · rw [hline, getD_tbs_append]
        simp
    obtain ⟨s', heq, hS', herr, hpar, hct⟩ := readComment_sim d (d + 1)
      (match normalize c.lines with
       | [] => []
       | _ :: rest => rest.map (fun l => tbs (d + 1) ++ l))
      ⟨hline, htabs, hassign, hlatch, hdrop, hcount, hnlcur, hnlns, hok⟩
      (fun l hl => by
        cases hn : normalize c.lines with
        | nil => rw [hn] at hl; simp at hl
        | cons l0 r =>
          rw [hn] at hl
          obtain ⟨x, _, hx⟩ := List.mem_map.1 hl
          rw [← hx, countTabsFrom_tbs_append]
          omega)
      hlow
    have hcomm : Comment.mk
        ((tbs d ++ 35 ::
          (match normalize c.lines with | [] => [] | l0 :: _ => l0)).drop (d + 1) ::
          (match normalize c.lines with
           | [] => []
           | _ :: rest => rest.map (fun l => tbs (d + 1) ++ l)).map
            (fun (l : Chunk) => l.drop (d + 1)))
        s.count = canonCAt c s.count := by
      rw [drop_tbs_append_succ]
      simp only [canonCAt, Comment.mk.injEq, and_true]
      cases hn : normalize c.lines with
      | nil => simp
      | cons l0 r =>
        rw [if_neg (by simp)]
        simp only [List.cons.injEq, true_and]
        exact map_drop_tbs (d + 1) r
    rw [hcomm] at heq
    refine ⟨s', v0.withCommentAfter (canonCAt c s.count), ?_, ?_, hS', herr, hpar, hct⟩
    · simp only [heq]
    · cases v0 <;>
        simp [Value.withCommentAfter, stripValue, stripOC, canonCAt, stripC,
          withCanonAfter]

/-! ### Dispatch facts for the emitted line shapes -/

theorem drop_tbs_append_at (d i : Nat) (x : Chunk) :
    (tbs d ++ x).drop (d + i) = x.drop i := by
  rw [← List.drop_drop, drop_tbs_append]

theorem getD_append_last (x : Chunk) (b : Byte) :
    (x ++ [b]).getD x.length 0 = b := by
  induction x with
  | nil => rfl
  | cons a y ih => simp [ih]

theorem getD_tbs_append_at (d i : Nat) (x : Chunk) :
    (tbs d ++ x).getD (d + i) 0 = x.getD i 0 := by
  induction d with
  | zero => simp [tbs]
  | succ n ih =>
    show List.getD (List.replicate (n + 1) tab ++ x) (n + 1 + i) 0 = x.getD i 0
    rw [List.replicate_succ, List.cons_append,
      show n + 1 + i = (n + i) + 1 by omega]
    simpa [List.getD_cons_succ] using ih

/-- on a byte run holding no `=`, the first-`=` scan passes through. -/
theorem scanEol_no_eq {k : Chunk} (hk61 : (61 : Byte) ∉ k) (hknl : nl ∉ k) :
    ∀ (t : Chunk) (off : Nat),
      scanEol (k ++ t) off (-1) = scanEol t (off + k.length) (-1) := by
  induction k with
  | nil => intro t off; simp
  | cons b kr ih =>
    intro t off
    have hb61 : ¬ b = 61 := fun hx => hk61 (by simp [hx])
    have hbnl : ¬ b = nl := fun hx => hknl (by simp [hx])
    simp only [List.cons_append, scanEol, List.append_eq]
    rw [if_neg hbnl, if_neg (by simp [hb61]),
      ih (fun hm => hk61 (List.mem_cons_of_mem b hm))
        (fun hm => hknl (List.mem_cons_of_mem b hm)) t (off + 1)]
    have : off + 1 + kr.length = off + (kr.length + 1) := by omega
    rw [this]
    rfl

theorem scanEol_assign_stays {a : Int} (ha : 0 ≤ a) :
    ∀ (x : Chunk) (off : Nat), (scanEol x off a).2 = a := by
  intro x
  induction x with
  | nil => intro off; rfl
  | cons b rest ih =>
    intro off
    simp only [scanEol]
    split
    · rfl
    · rw [if_neg (by rintro ⟨_, hlt⟩; omega)]
      exact ih (off + 1)

/-- the key line `⟨tabs⟩key=content`: the recorded first-`=` offset is the
key separator. -/
theorem lineAssign_key (d : Nat) {k : Chunk} (c : Chunk)
    (hk61 : (61 : Byte) ∉ k) (hknl : nl ∉ k)
    (htabs : countTabsFrom (k ++ 61 :: c) = 0) :
    lineAssign (tbs d ++ k ++ 61 :: c) = ((d + k.length : Nat) : Int) := by
  unfold lineAssign
  rw [List.append_assoc, countTabsFrom_tbs_append, htabs, Nat.add_zero,
    drop_tbs_append, scanEol_no_eq hk61 hknl]
  show (scanEol (61 :: c) (d + k.length) (-1)).2 = _
  simp only [scanEol]
  rw [if_neg (by simp [nl]), if_pos (by constructor <;> simp)]
  rw [scanEol_assign_stays (by omega)]

theorem countTabsFrom_tbs_line (d : Nat) {x : Chunk}
    (hx : x = [] ∨ x.getD 0 0 ≠ tab) :
    countTabsFrom (tbs d ++ x) = d := by
  rw [countTabsFrom_tbs_append]
  cases hx with
  | inl h => simp [h, countTabsFrom]
  | inr h =>
    cases x with
    | nil => simp [countTabsFrom]
    | cons b y =>
      simp only [List.getD_cons_zero] at h
      simp [countTabsFrom, if_neg h]

/-- no line that the body-intro check could claim heads the stream. -/
def headNC (d : Nat) : List Chunk → Prop
  | [] => True
  | l :: _ => ¬ (l.length > d ∧ l.getD d 0 = 35)

theorem headNotAfter_of_headNC {d : Nat} {X : List Chunk} (h : headNC d X) :
    headNotAfter d X := by
  cases X with
  | nil => trivial
  | cons l ls => exact fun hc => h ⟨hc.2.1, hc.2.2⟩

theorem headLow_append {d : Nat} {X R : List Chunk} (hX : headLow d X)
    (hR : headLow d R) : headLow d (X ++ R) := by
  cases X with
  | nil => simpa using hR
  | cons l ls => exact hX

theorem headNC_append {d : Nat} {X R : List Chunk} (hX : headNC d X)
    (hR : headNC d R) : headNC d (X ++ R) := by
  cases X with
  | nil => simpa using hR
  | cons l ls => exact hX

theorem headNotAfter_append {d : Nat} {X R : List Chunk} (hX : headNotAfter d X)
    (hR : headNotAfter d R) : headNotAfter d (X ++ R) := by
  cases X with
  | nil => simpa using hR
  | cons l ls => exact hX

theorem headLT_low {d : Nat} {X : List Chunk} (h : headLT d X) : headLow d X :=
  headLow_of_headLT h

theorem commentLines_headLow {m : Chunk} (hm : m.getD 0 0 ≠ tab ∧ m ≠ [])
    (c : Option Comment) (d : Nat) : headLow d (commentLines m c d) := by
  match c with
  | none => trivial
  | some com =>
    obtain ⟨b, x, hbx⟩ : ∃ b x, m = b :: x := by
      cases m with
      | nil => exact absurd rfl hm.2
      | cons b x => exact ⟨b, x, rfl⟩
    have hb : b ≠ tab := by
      rw [hbx] at hm
      simpa using hm.1
    simp only [commentLines]
    cases hn : normalize com.lines with
    | nil =>
      show countTabsFrom (tbs d ++ m) ≤ d
      rw [countTabsFrom_tbs_line d (Or.inr (by rw [hbx]; simpa using hb))]
    | cons l0 r =>
      show countTabsFrom ((tbs d ++ m) ++ l0) ≤ d
      rw [List.append_assoc]
      rw [countTabsFrom_tbs_line d (Or.inr (by rw [hbx]; simpa using hb))]

theorem commentLines_headNC {m : Chunk} (hm : m.getD 0 0 ≠ 35 ∧ m ≠ [])
    (c : Option Comment) (d : Nat) : headNC d (commentLines m c d) := by
  match c with
  | none => trivial
  | some com =>
    obtain ⟨b, x, hbx⟩ : ∃ b x, m = b :: x := by
      cases m with
      | nil => exact absurd rfl hm.2
      | cons b x => exact ⟨b, x, rfl⟩
    have hb : b ≠ 35 := by
      rw [hbx] at hm
      simpa using hm.1
    simp only [commentLines]
    cases hn : normalize com.lines with
    | nil =>
      intro hc
      rw [getD_tbs_append, hbx] at hc
      exact hb (by simpa using hc.2)
    | cons l0 r =>
      intro hc
      rw [List.append_assoc, getD_tbs_append, hbx] at hc
      exact hb (by simpa using hc.2)

theorem headLow_append2 {d : Nat} {X R : List Chunk} (hX : headLow d X)
    (hR : X = [] → headLow d R) : headLow d (X ++ R) := by
  cases X with
  | nil => simpa using hR rfl
  | cons l ls => exact hX

theorem headNC_append2 {d : Nat} {X R : List Chunk} (hX : headNC d X)
    (hR : X = [] → headNC d R) : headNC d (X ++ R) := by
  cases X with
  | nil => simpa using hR rfl
  | cons l ls => exact hX

theorem shortList_facts {l0 : Chunk} {r : Seq}
    (h : shortList (l0 :: r) = true) :
    r = [] ∧ (l0 = [] ∨ l0.getD 0 0 ∉ shortListSet) := by
  cases r with
  | nil =>
    refine ⟨rfl, ?_⟩
    cases l0 with
    | nil => exact Or.inl rfl
    | cons b x =>
      by_cases hbs : b ∈ shortListSet
      · simp [shortList, hbs] at h
      · exact Or.inr (by simpa using hbs)
  | cons y ys => simp [shortList] at h

theorem shortDict_facts {key : Chunk} {nls : Seq} (h : shortDict key nls = true) :
    ¬ nls.length > 1 ∧
    (key = [] ∨ (key.getD 0 0 ∉ shortDictSet ∧ (61 : Byte) ∉ key)) := by
  unfold shortDict at h
  by_cases hl : nls.length > 1
  · rw [if_pos hl] at h; simp at h
  · refine ⟨hl, ?_⟩
    rw [if_neg hl] at h
    cases key with
    | nil => exact Or.inl rfl
    | cons b k' =>
      right
      by_cases hbs : b ∈ shortDictSet
      · simp [hbs] at h
      · by_cases h61 : (61 : Byte) ∈ b :: k'
        · simp [hbs, h61] at h
        · exact ⟨by simpa using hbs, h61⟩

theorem head_tbs_body {d : Nat} {x : Chunk} (ls : List Chunk)
    (hx : x = [] ∨ (x.getD 0 0 ≠ tab ∧ x.getD 0 0 ≠ 35)) :
    headLow d ((tbs d ++ x) :: ls) ∧ headNC d ((tbs d ++ x) :: ls) := by
  constructor
  · show countTabsFrom (tbs d ++ x) ≤ d
    rw [countTabsFrom_tbs_line d (by
      cases hx with
      | inl h => exact Or.inl h
      | inr h => exact Or.inr h.1)]
  · intro hc
    rw [getD_tbs_append] at hc
    cases hx with
    | inl h =>
      rw [h, length_tbs_append] at hc
      simp at hc
    | inr h => exact h.2 hc.2

theorem valueLinesL_head (d : Nat) (v : Value) :
    headLow d (valueLinesL d v) ∧ headNC d (valueLinesL d v) := by
  match v with
  | .text lines sl a =>
    simp only [valueLinesL]
    by_cases hs : shortList (normalize lines) = true
    · rw [if_pos hs]
      cases hn : normalize lines with
      | nil => exact head_tbs_body [] (Or.inl rfl)
      | cons l0 r =>
        rw [hn] at hs
        obtain ⟨hr, hl0⟩ := shortList_facts hs
        refine head_tbs_body [] ?_
        cases hl0 with
        | inl h => exact Or.inl h
        | inr h =>
          exact Or.inr ⟨fun hc => h (by rw [hc]; simp [shortListSet, tab]),
            fun hc => h (by rw [hc]; simp [shortListSet])⟩
    · rw [if_neg hs]
      exact head_tbs_body _ (Or.inr (by simp [tab]))
  | .vlist its sl intro a =>
    simp only [valueLinesL]
    exact head_tbs_body _ (Or.inr (by simp [tab]))
  | .vdict es sl intro a =>
    simp only [valueLinesL]
    exact head_tbs_body _ (Or.inr (by simp [tab]))

theorem valueLinesD_head (d : Nat) (kname : Chunk) (v : Value) :
    headLow d (valueLinesD d kname v) ∧ headNC d (valueLinesD d kname v) := by
  match v with
  | .text lines sl a =>
    simp only [valueLinesD]
    by_cases hs : shortDict kname (normalize lines) = true
    · rw [if_pos hs]
      obtain ⟨hlen, hk⟩ := shortDict_facts hs
      simp only [List.append_assoc]
      refine head_tbs_body [] (Or.inr ?_)
      cases hk with
      | inl h =>
        rw [h]
        constructor <;> intro hc <;> simp [tab] at hc
      | inr h =>
        cases kname with
        | nil => constructor <;> intro hc <;> simp [tab] at hc
        | cons b k' =>
          have hb := h.1
          simp only [List.cons_append, List.getD_cons_zero]
          exact ⟨fun hc => hb (by rw [hc]; simp [shortDictSet, tab]),
            fun hc => hb (by rw [hc]; simp [shortDictSet])⟩
    · rw [if_neg hs]
      simp only [List.append_assoc]
      exact head_tbs_body _ (Or.inr (by constructor <;> simp [tab]))
  | .vlist its sl intro a =>
    simp only [valueLinesD]
    simp only [List.append_assoc]
    exact head_tbs_body _ (Or.inr (by constructor <;> simp [tab]))
  | .vdict es sl intro a =>
    simp only [valueLinesD]
    simp only [List.append_assoc]
    exact head_tbs_body _ (Or.inr (by constructor <;> simp [tab]))

theorem itemsLines_head (d : Nat) (its : List Value) :
    headLow d (itemsLines d its) ∧ headNC d (itemsLines d its) := by
  match its with
  | [] => exact ⟨trivial, trivial⟩
  | v :: rest =>
    simp only [itemsLines, List.append_assoc]
    have hv := valueLinesL_head d v
    refine ⟨headLow_append2 hv.1 (fun hc => absurd hc (valueLinesL_ne_nil d v)),
      headNC_append2 hv.2 (fun hc => absurd hc (valueLinesL_ne_nil d v))⟩

theorem entriesLines_head (d : Nat) (es : List (KeyA × Value)) :
    headLow d (entriesLines d es) ∧ headNC d (entriesLines d es) := by
  match es with
  | [] => exact ⟨trivial, trivial⟩
  | (k, v) :: rest =>
    simp only [entriesLines]
    have hv := valueLinesD_head d k.name v
    have hvK : ¬ valueLinesD d k.name v = [] := valueLinesD_ne_nil d k.name v
    have hC : headLow d (commentLines [47, 47] k.commentBefore d) ∧
        headNC d (commentLines [47, 47] k.commentBefore d) :=
      ⟨commentLines_headLow (by simp [tab]) _ _,
       commentLines_headNC (by simp) _ _⟩
    have htail : headLow d (commentLines [47, 47] k.commentBefore d ++
          (valueLinesD d k.name v ++ (commentLines [35] v.commentAfter d ++
            entriesLines d rest))) ∧
        headNC d (commentLines [47, 47] k.commentBefore d ++
          (valueLinesD d k.name v ++ (commentLines [35] v.commentAfter d ++
            entriesLines d rest))) := by
      refine ⟨headLow_append2 hC.1 (fun _ => headLow_append2 hv.1
          (fun hc => absurd hc hvK)),
        headNC_append2 hC.2 (fun _ => headNC_append2 hv.2
          (fun hc => absurd hc hvK))⟩
    by_cases hb : k.blankLineBefore = true
    · rw [if_pos hb]
      simp only [List.append_assoc]
      constructor
      · show countTabsFrom (tbs d) ≤ d
        rw [countTabsFrom_tbs]
      · intro hc
        rw [tbs_length] at hc
        omega
    · rw [if_neg hb]
      simp only [List.nil_append, List.append_assoc]
      exact htail

theorem atStream_tabs_le {s : DSt} {X : List Chunk} {d : Nat}
    (hS : AtStream s X) (hlow : headLow d X) : s.tabs ≤ (d : Int) := by
  cases X with
  | nil =>
    rw [hS.2.1]
    omega
  | cons l ls =>
    rw [hS.2.1]
    have : countTabsFrom l ≤ d := hlow
    exact_mod_cast this

theorem atStream_tabs_lt {s : DSt} {X : List Chunk} {d : Nat}
    (hS : AtStream s X) (hlt : headLT d X) : s.tabs < (d : Int) ∨ s.tabs = -1 := by
  cases X with
  | nil => exact Or.inr hS.2.1
  | cons l ls =>
    left
    rw [hS.2.1]
    have : countTabsFrom l < d := hlt
    exact_mod_cast this

theorem readExcess_noop_stream {s : DSt} {X : List Chunk} {d : Nat}
    (hS : AtStream s X) (hlow : headLow d X) : readExcess d s = s :=
  readExcess_noop (atStream_tabs_le hS hlow)

theorem stripValue_withCA (x : Value) (c : Comment) :
    stripValue (x.withCommentAfter c) =
      (stripValue x).withCommentAfter (stripC c) := by
  cases x <;> rfl

theorem stripOC_some_canonCAt (c : Comment) (n : Nat) :
    stripOC (some (canonCAt c n)) = canonOC (some c) := by
  simp [stripOC, canonOC, stripC_canonCAt]

/-- reading a marker-led comment whose lines head the stream: `_readComment`
started just past the marker collects exactly the canonical comment. -/
theorem comment_sim (d : Nat) (mk : Chunk) (c : Comment) {s : DSt}
    {rest : List Chunk}
    (hS : AtStream s (commentLines mk (some c) d ++ rest))
    (hlow : headLow d rest) :
    ∃ s', readComment d (d + mk.length) s = (canonCAt c s.count, s') ∧
      AtStream s' rest ∧ s'.errors = s.errors ∧ s'.parse = s.parse ∧
      s.count ≤ s'.count := by
  have hcl : commentLines mk (some c) d =
      (tbs d ++ (mk ++
        (match normalize c.lines with | [] => [] | l0 :: _ => l0))) ::
      (match normalize c.lines with
       | [] => []
       | _ :: rest => rest.map (fun l => tbs (d + 1) ++ l)) := by
    simp only [commentLines]
    cases hn : normalize c.lines with
    | nil => simp
    | cons l0 r => simp
  rw [hcl] at hS
  simp only [List.cons_append] at hS
  obtain ⟨s', heq, hS', herr, hpar, hct⟩ := readComment_sim d (d + mk.length)
    (match normalize c.lines with
     | [] => []
     | _ :: rest => rest.map (fun l => tbs (d + 1) ++ l))
    hS
    (fun l hl => by
      cases hn : normalize c.lines with
      | nil => rw [hn] at hl; simp at hl
      | cons l0 r =>
        rw [hn] at hl
        obtain ⟨x, _, hx⟩ := List.mem_map.1 hl
        rw [← hx, countTabsFrom_tbs_append]
        omega)
    hlow
  refine ⟨s', ?_, hS', herr, hpar, hct⟩
  rw [heq]
  have hfirst : (tbs d ++ (mk ++
      (match normalize c.lines with | [] => [] | l0 :: _ => l0))).drop
        (d + mk.length) =
      (match normalize c.lines with | [] => [] | l0 :: _ => l0) := by
    rw [drop_tbs_append_at]
    have h2 := List.drop_left mk
      (match normalize c.lines with | [] => [] | l0 :: _ => l0)
    exact h2
  rw [hfirst]
  simp only [canonCAt, Comment.mk.injEq, and_true]
  cases hn : normalize c.lines with
  | nil => simp
  | cons l0 r =>
    rw [if_neg (by simp)]
    rw [map_drop_tbs (d + 1) r]

theorem headLT_succ_of_headLow {d : Nat} {X : List Chunk} (h : headLow d X) :
    headLT (d + 1) X := by
  cases X with
  | nil => trivial
  | cons l ls => exact Nat.lt_succ_of_le h

/-- one `_readln`, landing on the rest of the stream (or the sentinel). -/
theorem readln_stream {s : DSt} {cur : Chunk} {lns : List Chunk}
    (h : At s cur lns) :
    AtStream (readln s).1 lns ∧ (readln s).1.errors = s.errors ∧
    (readln s).1.parse = s.parse := by
  cases lns with
  | nil =>
    obtain ⟨_, he, herr, hpar⟩ := readln_eofstep h
    exact ⟨he, herr, hpar⟩
  | cons l ls =>
    obtain ⟨_, hAt, herr, hpar, _⟩ := readln_at h
    exact ⟨hAt, herr, hpar⟩

theorem headNotAfter_append2 {d : Nat} {X R : List Chunk}
    (hX : headNotAfter d X) (hR : X = [] → headNotAfter d R) :
    headNotAfter d (X ++ R) := by
  cases X with
  | nil => simpa using hR rfl
  | cons l ls => exact hX

theorem valueLinesL_expose (d : Nat) (v : Value) :
    ∃ x t, valueLinesL d v = (tbs d ++ x) :: t ∧
      (x = [] ∨ (x.getD 0 0 ≠ tab ∧ x.getD 0 0 ≠ 35)) := by
  match v with
  | .text lines sl a =>
    simp only [valueLinesL]
    by_cases hs : shortList (normalize lines) = true
    · rw [if_pos hs]
      cases hn : normalize lines with
      | nil => exact ⟨[], [], rfl, Or.inl rfl⟩
      | cons l0 r =>
        rw [hn] at hs
        obtain ⟨hr, hl0⟩ := shortList_facts hs
        refine ⟨l0, [], rfl, ?_⟩
        cases hl0 with
        | inl h => exact Or.inl h
        | inr h =>
          exact Or.inr ⟨fun hc => h (by rw [hc]; simp [shortListSet, tab]),
            fun hc => h (by rw [hc]; simp [shortListSet])⟩
    · rw [if_neg hs]
      exact ⟨[60, 62], _, rfl, Or.inr (by constructor <;> simp [tab])⟩
  | .vlist its sl intro a =>
    simp only [valueLinesL]
    exact ⟨[91, 93], _, rfl, Or.inr (by constructor <;> simp [tab])⟩
  | .vdict es sl intro a =>
    simp only [valueLinesL]
    exact ⟨[123, 125], _, rfl, Or.inr (by constructor <;> simp [tab])⟩

theorem valueLinesD_expose (d : Nat) (kname : Chunk) (v : Value) :
    ∃ x t, valueLinesD d kname v = (tbs d ++ x) :: t ∧
      (x = [] ∨ (x.getD 0 0 ≠ tab ∧ x.getD 0 0 ≠ 35)) := by
  match v with
  | .text lines sl a =>
    simp only [valueLinesD]
    by_cases hs : shortDict kname (normalize lines) = true
    · rw [if_pos hs]
      obtain ⟨hlen, hk⟩ := shortDict_facts hs
      simp only [List.append_assoc]
      refine ⟨kname ++ ([61] ++
        (match normalize lines with | [] => [] | l0 :: _ => l0)), [], rfl,
        Or.inr ?_⟩
      cases hk with
      | inl h =>
        rw [h]
        constructor <;> intro hc <;> simp [tab] at hc
      | inr h =>
        cases kname with
        | nil => constructor <;> intro hc <;> simp [tab] at hc
        | cons b k2 =>
          have hb := h.1
          simp only [List.cons_append, List.getD_cons_zero]
          exact ⟨fun hc => hb (by rw [hc]; simp [shortDictSet, tab]),
            fun hc => hb (by rw [hc]; simp [shortDictSet])⟩
    · rw [if_neg hs]
      simp only [List.append_assoc]
      exact ⟨60 :: (kname ++ [62]), _, rfl,
        Or.inr (by constructor <;> simp [tab])⟩
  | .vlist its sl intro a =>
    simp only [valueLinesD, List.append_assoc]
    exact ⟨91 :: (kname ++ [93]), _, rfl,
      Or.inr (by constructor <;> simp [tab])⟩
  | .vdict es sl intro a =>
    simp only [valueLinesD, List.append_assoc]
    exact ⟨123 :: (kname ++ [125]), _, rfl,
      Or.inr (by constructor <;> simp [tab])⟩

theorem commentLines_expose (m : Chunk) (c : Comment) (d : Nat) :
    commentLines m (some c) d =
      (tbs d ++ (m ++ (match normalize c.lines with | [] => [] | l0 :: _ => l0))) ::
      (match normalize c.lines with
       | [] => []
       | _ :: r => r.map (fun l => tbs (d + 1) ++ l)) := by
  simp only [commentLines]
  cases hn : normalize c.lines with
  | nil => simp
  | cons l0 r => simp

theorem drop_key_succ (k : Chunk) (b : Byte) (c : Chunk) :
    (k ++ b :: c).drop (k.length + 1) = c := by
  induction k with
  | nil => simp
  | cons x y ih => simp

theorem entriesLines_expose (d : Nat) (k : KeyA) (v : Value)
    (restE : List (KeyA × Value)) :
    ∃ x t, entriesLines d ((k, v) :: restE) = (tbs d ++ x) :: t ∧
      (x = [] ∨ (x.getD 0 0 ≠ tab ∧ x.getD 0 0 ≠ 35)) := by
  simp only [entriesLines]
  by_cases hb : k.blankLineBefore = true
  · rw [if_pos hb]
    refine ⟨[], commentLines [47, 47] k.commentBefore d ++
      (valueLinesD d k.name v ++ (commentLines [35] v.commentAfter d ++
        entriesLines d restE)), by simp [List.append_assoc], Or.inl rfl⟩
  · rw [if_neg hb]
    match hc : k.commentBefore with
    | some c =>
      rw [commentLines_expose]
      refine ⟨47 :: 47 ::
        (match normalize c.lines with | [] => [] | l0 :: _ => l0),
        (match normalize c.lines with
         | [] => []
         | _ :: r => r.map (fun l => tbs (d + 1) ++ l)) ++
        (valueLinesD d k.name v ++ (commentLines [35] v.commentAfter d ++
          entriesLines d restE)),
        by simp [List.append_assoc], Or.inr (by constructor <;> simp [tab])⟩
    | none =>
      simp only [commentLines_none, List.nil_append]
      obtain ⟨x, t, hexp, hx⟩ := valueLinesD_expose d k.name v
      exact ⟨x, t ++ (commentLines [35] v.commentAfter d ++ entriesLines d restE),
        by rw [hexp]; simp [List.append_assoc], hx⟩


mutual

/-- the item loop of `_readList` over the lines of the remaining items:
it collects exactly the canonical items and stops at the first shallower
line. -/
theorem sim_listLoop : ∀ (its : List Value) (d : Nat) (acc : List Value)
      (s : DSt) (rest : List Chunk),
    legalItems its = true →
    AtStream s (itemsLines d its ++ rest) →
    headLT d rest →
    ∃ (F : Nat) (its2 : List Value) (s2 : DSt),
      (∀ fuel, F ≤ fuel → readListLoopF fuel d acc s = some (acc ++ its2, s2)) ∧
      stripItems its2 = canonItems its ∧
      AtStream s2 rest ∧ s2.errors = s.errors ∧ s2.parse = s.parse
  | its, d, acc, s, rest => by
    intro hleg hS hlt
    match its with
    | [] =>
      simp only [itemsLines, List.nil_append] at hS
      have hne : ¬ s.tabs = (d : Int) := by
        rcases atStream_tabs_lt hS hlt with h | h
        · omega
        · rw [h]; omega
      refine ⟨1, [], s, ?_, rfl, hS, rfl, rfl⟩
      intro fuel hf
      obtain ⟨m, rfl⟩ : ∃ m, fuel = m + 1 := ⟨fuel - 1, by omega⟩
      simp only [readListLoopF, if_neg hne, List.append_nil]
    | v :: restI =>
      have hlegs : legalValue v = true ∧ legalItems restI = true := by
        simpa [legalItems, Bool.and_eq_true] using hleg
      have hstream : itemsLines d (v :: restI) ++ rest =
          valueLinesL d v ++ (commentLines [35] v.commentAfter d ++
            (itemsLines d restI ++ rest)) := by
        simp only [itemsLines]
        simp [List.append_assoc]
      rw [hstream] at hS
      have hlowR : headLow d (itemsLines d restI ++ rest) :=
        headLow_append2 (itemsLines_head d restI).1 (fun _ => headLT_low hlt)
      have hnaR : headNotAfter d (itemsLines d restI ++ rest) :=
        headNotAfter_append2 (headNotAfter_of_headNC (itemsLines_head d restI).2)
          (fun _ => headNotAfter_of_headLT hlt)
      have hlowA : headLow d (commentLines [35] v.commentAfter d ++
          (itemsLines d restI ++ rest)) :=
        headLow_append2 (commentLines_headLow (by simp [tab]) _ _)
          (fun _ => hlowR)
      have hltA : headLT (d + 1) (commentLines [35] v.commentAfter d ++
          (itemsLines d restI ++ rest)) := headLT_succ_of_headLow hlowA
      have go : ∀ (v0 : Value) (s1 : DSt),
          AtStream s1 (commentLines [35] v.commentAfter d ++
            (itemsLines d restI ++ rest)) →
          s1.errors = s.errors → s1.parse = s.parse →
          stripValue (withCanonAfter v0 v.commentAfter) = canonValueL v →
          ∃ (F : Nat) (itsG : List Value) (s2 : DSt),
            (∀ fuel, F ≤ fuel →
              readListLoopF fuel d (acc ++ [(attachAfter d v0 s1).1])
                (readExcess d (attachAfter d v0 s1).2) =
                some (acc ++ itsG, s2)) ∧
            stripItems itsG = canonItems (v :: restI) ∧
            AtStream s2 rest ∧ s2.errors = s.errors ∧ s2.parse = s.parse := by
        intro v0 s1 hS1 herr1 hpar1 hv0
        obtain ⟨sA, res, hAeq, hAstrip, hAS, hAerr, hApar, _⟩ :=
          attach_sim d v0 v.commentAfter hS1 hnaR hlowR
        have hnoopA : readExcess d sA = sA := readExcess_noop_stream hAS hlowR
        obtain ⟨FR, its3, s3, hReq, hRstrip, hRS, hRerr, hRpar⟩ :=
          sim_listLoop restI d (acc ++ [res]) sA rest hlegs.2 hAS hlt
        refine ⟨FR, res :: its3, s3, ?_, ?_, hRS,
          by rw [hRerr, hAerr, herr1], by rw [hRpar, hApar, hpar1]⟩
        · intro fuel hf
          simp only [hAeq, hnoopA]
          rw [hReq fuel hf]
          simp
        · simp only [stripItems, canonItems, hRstrip, hAstrip, hv0]
      cases v with
      | text lines sl a =>
        simp only [Value.commentAfter] at hS go hlowA hltA
        by_cases hshort : shortList (normalize lines) = true
        · cases hn : normalize lines with
          | nil =>
            have hval : valueLinesL d (.text lines sl a) = [tbs d] := by
              simp only [valueLinesL, hn]
              simp [shortList]
            rw [hval] at hS
            simp only [List.cons_append, List.nil_append] at hS
            have hline : s.line = tbs d := hS.1
            have htabs : s.tabs = (d : Int) := by
              have h := hS.2.1
              rwa [countTabsFrom_tbs] at h
            obtain ⟨hSnext, herrN, hparN⟩ := readln_stream hS
            have hv0 : stripValue (withCanonAfter (Value.text [] 0 none) a) =
                canonValueL (.text lines sl a) := by
              cases a with
              | none =>
                show Value.text [] 0 none =
                  Value.text (normalize lines) 0 (canonOC none)
                rw [hn]
                rfl
              | some c =>
                show Value.text [] 0 (stripOC (some (canonCAt c 0))) =
                  Value.text (normalize lines) 0 (canonOC (some c))
                rw [hn, stripOC_some_canonCAt]
            obtain ⟨F, itsG, s2, hgo, hstrip2, hS2, herr2, hpar2⟩ :=
              go (.text [] 0 none) (readln s).1 hSnext herrN hparN hv0
            refine ⟨F + 1, itsG, s2, ?_, hstrip2, hS2, herr2, hpar2⟩
            intro fuel hf
            obtain ⟨m, rfl⟩ : ∃ m, fuel = m + 1 := ⟨fuel - 1, by omega⟩
            have hszEq : s.line.length - d = 0 := by
              rw [hline, tbs_length]
              omega
            simp only [readListLoopF, if_pos htabs, if_pos hszEq, nl]
            exact hgo m (by omega)
          | cons l0 r0 =>
            rw [hn] at hshort
            obtain ⟨hr0, hl0⟩ := shortList_facts hshort
            subst hr0
            have hl0ne : l0 ≠ [] := by
              intro hc
              subst hc
              exact normalize_ne_singleton_nil lines hn
            have hb : l0.getD 0 0 ∉ shortListSet := by
              cases hl0 with
              | inl h => exact absurd h hl0ne
              | inr h => exact h
            have hval : valueLinesL d (.text lines sl a) = [tbs d ++ l0] := by
              simp only [valueLinesL, hn, if_pos hshort]
            rw [hval] at hS
            simp only [List.cons_append, List.nil_append] at hS
            have hline : s.line = tbs d ++ l0 := hS.1
            have hb9 : l0.getD 0 0 ≠ tab := fun hc =>
              hb (by rw [hc]; simp [shortListSet, tab])
            have htabs : s.tabs = (d : Int) := by
              have h := hS.2.1
              rwa [countTabsFrom_tbs_line d (Or.inr hb9)] at h
            obtain ⟨hSnext, herrN, hparN⟩ := readln_stream hS
            have hnlcur : nl ∉ tbs d ++ l0 := hS.2.2.2.2.2.2.1
            have h10 : s.line.getD d 0 ≠ 10 := by
              rw [hline, getD_tbs_append]
              cases l0 with
              | nil => exact absurd rfl hl0ne
              | cons b t =>
                intro hc
                simp only [List.getD_cons_zero] at hc
                subst hc
                exact hnlcur (by simp [nl])
            have h35 : s.line.getD d 0 ≠ 35 := by
              rw [hline, getD_tbs_append]
              exact fun hc => hb (by rw [hc]; simp [shortListSet])
            have h47 : s.line.getD d 0 ≠ 47 := by
              rw [hline, getD_tbs_append]
              exact fun hc => hb (by rw [hc]; simp [shortListSet])
            have h60 : s.line.getD d 0 ≠ 60 := by
              rw [hline, getD_tbs_append]
              exact fun hc => hb (by rw [hc]; simp [shortListSet])
            have h91 : s.line.getD d 0 ≠ 91 := by
              rw [hline, getD_tbs_append]
              exact fun hc => hb (by rw [hc]; simp [shortListSet])
            have h123 : s.line.getD d 0 ≠ 123 := by
              rw [hline, getD_tbs_append]
              exact fun hc => hb (by rw [hc]; simp [shortListSet])
            have hsz : ¬ (s.line.length - d = 0) := by
              rw [hline, length_tbs_append]
              cases l0 with
              | nil => exact absurd rfl hl0ne
              | cons b t => simp
            have hdropl : s.line.drop d = l0 := by
              rw [hline, drop_tbs_append]
            have hv0 : stripValue (withCanonAfter (Value.text [l0] 0 none) a) =
                canonValueL (.text lines sl a) := by
              cases a with
              | none =>
                show Value.text [l0] 0 none =
                  Value.text (normalize lines) 0 (canonOC none)
                rw [hn]
                rfl
              | some c =>
                show Value.text [l0] 0 (stripOC (some (canonCAt c 0))) =
                  Value.text (normalize lines) 0 (canonOC (some c))
                rw [hn, stripOC_some_canonCAt]
            obtain ⟨F, itsG, s2, hgo, hstrip2, hS2, herr2, hpar2⟩ :=
              go (.text [l0] 0 none) (readln s).1 hSnext herrN hparN hv0
            refine ⟨F + 1, itsG, s2, ?_, hstrip2, hS2, herr2, hpar2⟩
            intro fuel hf
            obtain ⟨m, rfl⟩ : ∃ m, fuel = m + 1 := ⟨fuel - 1, by omega⟩
            simp only [readListLoopF, if_pos htabs, if_neg hsz, hdropl]
            exact hgo m (by omega)
        · have hval : valueLinesL d (.text lines sl a) =
              (tbs d ++ [60, 62]) ::
                (normalize lines).map (fun l => tbs (d + 1) ++ l) := by
            simp only [valueLinesL, if_neg hshort]
          rw [hval] at hS
          simp only [List.cons_append, List.append_assoc] at hS
          have hline : s.line = tbs d ++ [60, 62] := hS.1
          have htabs : s.tabs = (d : Int) := by
            have h := hS.2.1
            rwa [countTabsFrom_tbs_line d (Or.inr (by simp [tab]))] at h
          have hne2 : normalize lines ≠ [[]] := normalize_ne_singleton_nil lines
          obtain ⟨sT, hTeq, hTS, hTerr, hTpar, _⟩ :=
            readText_sim d (normalize lines) hS hne2 hlowA
          have hv0 : stripValue
              (withCanonAfter (Value.text (normalize lines) s.count none) a) =
              canonValueL (.text lines sl a) := by
            cases a with
            | none =>
              show Value.text (normalize lines) 0 none =
                Value.text (normalize lines) 0 (canonOC none)
              rfl
            | some c =>
              show Value.text (normalize lines) 0 (stripOC (some (canonCAt c 0))) =
                Value.text (normalize lines) 0 (canonOC (some c))
              rw [stripOC_some_canonCAt]
          obtain ⟨F, itsG, s2, hgo, hstrip2, hS2, herr2, hpar2⟩ :=
            go (.text (normalize lines) s.count none) sT hTS hTerr hTpar hv0
          refine ⟨F + 1, itsG, s2, ?_, hstrip2, hS2, herr2, hpar2⟩
          intro fuel hf
          obtain ⟨m, rfl⟩ : ∃ m, fuel = m + 1 := ⟨fuel - 1, by omega⟩
          have hsz : ¬ (s.line.length - d = 0) := by
            rw [hline, length_tbs_append]
            simp
          have h60 : s.line.getD d 0 = 60 := by
            rw [hline, getD_tbs_append]
            rfl
          have hsz2 : s.line.length - d = 2 := by
            rw [hline, length_tbs_append]
            simp
          have hlast : s.line.getD (s.line.length - 1) 0 = 62 := by
            have hx : s.line = (tbs d ++ [60]) ++ [62] := by
              rw [hline]
              simp
            have hlen : s.line.length - 1 = ((tbs d ++ [60]) : Chunk).length := by
              rw [hline, length_tbs_append, length_tbs_append]
              simp
            rw [hlen, hx]
            exact getD_append_last _ _
          have hcond : ¬ (s.line.length - d ≠ 2 ∨
              s.line.getD (s.line.length - 1) 0 ≠ 62) := by
            rw [hsz2, hlast]
            simp
          simp only [readListLoopF, if_pos htabs, if_neg hsz, h60, if_neg hcond,
            hTeq]
          exact hgo m (by omega)
      | vlist itsN slN introN aN =>
        simp only [Value.commentAfter] at hS go hlowA hltA
        have hlegV : legalItems itsN = true := by
          have h := hlegs.1
          simpa [legalValue] using h
        have hval : valueLinesL d (.vlist itsN slN introN aN) =
            (tbs d ++ [91, 93]) ::
              (commentLines [35] introN (d + 1) ++ itemsLines (d + 1) itsN) := by
          simp only [valueLinesL]
        rw [hval] at hS
        simp only [List.cons_append, List.append_assoc] at hS
        have hline : s.line = tbs d ++ [91, 93] := hS.1
        have htabs : s.tabs = (d : Int) := by
          have h := hS.2.1
          rwa [countTabsFrom_tbs_line d (Or.inr (by simp [tab]))] at h
        obtain ⟨hSn, herrN, hparN⟩ := readln_stream hS
        obtain ⟨FB, intro3, its3, sB, hBeq, hBintro, hBstrip, hBS, hBerr, hBpar⟩ :=
          sim_listBody itsN introN (d + 1) (readln s).1
            (commentLines [35] aN d ++ (itemsLines d restI ++ rest))
            hlegV hSn hltA
        have hv0 : stripValue (withCanonAfter (Value.vlist its3 0 intro3 none) aN) =
            canonValueL (.vlist itsN slN introN aN) := by
          cases aN with
          | none =>
            show Value.vlist (stripItems its3) 0 (stripOC intro3) none =
              Value.vlist (canonItems itsN) 0 (canonOC introN) (canonOC none)
            rw [hBstrip, hBintro]
            rfl
          | some c =>
            show Value.vlist (stripItems its3) 0 (stripOC intro3)
                (stripOC (some (canonCAt c 0))) =
              Value.vlist (canonItems itsN) 0 (canonOC introN) (canonOC (some c))
            rw [hBstrip, hBintro, stripOC_some_canonCAt]
        obtain ⟨F, itsG, s2, hgo, hstrip2, hS2, herr2, hpar2⟩ :=
          go (.vlist its3 0 intro3 none) sB hBS
            (by rw [hBerr, herrN]) (by rw [hBpar, hparN]) hv0
        refine ⟨FB + F + 1, itsG, s2, ?_, hstrip2, hS2, herr2, hpar2⟩
        intro fuel hf
        obtain ⟨m, rfl⟩ : ∃ m, fuel = m + 1 := ⟨fuel - 1, by omega⟩
        have hsz : ¬ (s.line.length - d = 0) := by
          rw [hline, length_tbs_append]
          simp
        have h91 : s.line.getD d 0 = 91 := by
          rw [hline, getD_tbs_append]
          rfl
        have hsz2 : s.line.length - d = 2 := by
          rw [hline, length_tbs_append]
          simp
        have hlast : s.line.getD (s.line.length - 1) 0 = 93 := by
          have hx : s.line = (tbs d ++ [91]) ++ [93] := by
            rw [hline]
            simp
          have hlen : s.line.length - 1 = ((tbs d ++ [91]) : Chunk).length := by
            rw [hline, length_tbs_append, length_tbs_append]
            simp
          rw [hlen, hx]
          exact getD_append_last _ _
        have hcond : ¬ (s.line.length - d ≠ 2 ∨
            s.line.getD (s.line.length - 1) 0 ≠ 93) := by
          rw [hsz2, hlast]
          simp
        simp only [readListLoopF, if_pos htabs, if_neg hsz, h91, if_neg hcond,
          hBeq m (by omega)]
        exact hgo m (by omega)
      | vdict esN slN introN aN =>
        simp only [Value.commentAfter] at hS go hlowA hltA
        have hle : (esN.map (fun e => e.1.name)).Nodup ∧
            legalEntries esN = true := by
          have h := hlegs.1
          simpa [legalValue, Bool.and_eq_true, decide_eq_true_eq] using h
        have hval : valueLinesL d (.vdict esN slN introN aN) =
            (tbs d ++ [123, 125]) ::
              (commentLines [35] introN (d + 1) ++ entriesLines (d + 1) esN) := by
          simp only [valueLinesL]
        rw [hval] at hS
        simp only [List.cons_append, List.append_assoc] at hS
        have hline : s.line = tbs d ++ [123, 125] := hS.1
        have htabs : s.tabs = (d : Int) := by
          have h := hS.2.1
          rwa [countTabsFrom_tbs_line d (Or.inr (by simp [tab]))] at h
        obtain ⟨hSn, herrN, hparN⟩ := readln_stream hS
        obtain ⟨FB, intro3, es3, sB, hBeq, hBintro, hBstrip, hBS, hBerr, hBpar⟩ :=
          sim_dictBody esN introN (d + 1) (readln s).1
            (commentLines [35] aN d ++ (itemsLines d restI ++ rest))
            hle.2 hle.1 hSn hltA
        have hv0 : stripValue (withCanonAfter (Value.vdict es3 0 intro3 none) aN) =
            canonValueL (.vdict esN slN introN aN) := by
          cases aN with
          | none =>
            show Value.vdict (stripEntries es3) 0 (stripOC intro3) none =
              Value.vdict (canonEntries esN) 0 (canonOC introN) (canonOC none)
            rw [hBstrip, hBintro]
            rfl
          | some c =>
            show Value.vdict (stripEntries es3) 0 (stripOC intro3)
                (stripOC (some (canonCAt c 0))) =
              Value.vdict (canonEntries esN) 0 (canonOC introN) (canonOC (some c))
            rw [hBstrip, hBintro, stripOC_some_canonCAt]
        obtain ⟨F, itsG, s2, hgo, hstrip2, hS2, herr2, hpar2⟩ :=
          go (.vdict es3 0 intro3 none) sB hBS
            (by rw [hBerr, herrN]) (by rw [hBpar, hparN]) hv0
        refine ⟨FB + F + 1, itsG, s2, ?_, hstrip2, hS2, herr2, hpar2⟩
        intro fuel hf
        obtain ⟨m, rfl⟩ : ∃ m, fuel = m + 1 := ⟨fuel - 1, by omega⟩
        have hsz : ¬ (s.line.length - d = 0) := by
          rw [hline, length_tbs_append]
          simp
        have h123 : s.line.getD d 0 = 123 := by
          rw [hline, getD_tbs_append]
          rfl
        have hsz2 : s.line.length - d = 2 := by
          rw [hline, length_tbs_append]
          simp
        have hlast : s.line.getD (s.line.length - 1) 0 = 125 := by
          have hx : s.line = (tbs d ++ [123]) ++ [125] := by
            rw [hline]
            simp
          have hlen : s.line.length - 1 = ((tbs d ++ [123]) : Chunk).length := by
            rw [hline, length_tbs_append, length_tbs_append]
            simp
          rw [hlen, hx]
          exact getD_append_last _ _
        have hcond : ¬ (s.line.length - d ≠ 2 ∨
            s.line.getD (s.line.length - 1) 0 ≠ 125) := by
          rw [hsz2, hlast]
          simp
        simp only [readListLoopF, if_pos htabs, if_neg hsz, h123, if_neg hcond,
          hBeq m (by omega)]
        exact hgo m (by omega)
termination_by its _ _ _ _ => (sizeOf its, 0)

/-- `_readList` over an encoded list body: intro comment, items, exit. -/
theorem sim_listBody : ∀ (its : List Value) (intro : Option Comment) (d : Nat)
      (s : DSt) (rest : List Chunk),
    legalItems its = true →
    AtStream s (commentLines [35] intro d ++ (itemsLines d its ++ rest)) →
    headLT d rest →
    ∃ (F : Nat) (intro2 : Option Comment) (its2 : List Value) (s2 : DSt),
      (∀ fuel, F ≤ fuel → readListBodyF fuel d s = some (intro2, its2, s2)) ∧
      stripOC intro2 = canonOC intro ∧
      stripItems its2 = canonItems its ∧
      AtStream s2 rest ∧ s2.errors = s.errors ∧ s2.parse = s.parse
  | its, intro, d, s, rest => by
    intro hleg hS hlt
    have hlowI : headLow d (itemsLines d its ++ rest) :=
      headLow_append2 (itemsLines_head d its).1 (fun _ => headLT_low hlt)
    match intro with
    | some c =>
      obtain ⟨sC, hCeq, hCS, hCerr, hCpar, _⟩ := comment_sim d [35] c hS hlowI
      have hCeq1 : readComment d (d + 1) s = (canonCAt c s.count, sC) := hCeq
      obtain ⟨FL, its2, s2, hLeq, hLstrip, hLS, hLerr, hLpar⟩ :=
        sim_listLoop its d [] sC rest hleg hCS hlt
      rw [commentLines_expose] at hS
      simp only [List.cons_append, List.nil_append] at hS
      have hline := hS.1
      have htabs := hS.2.1
      have hcurtabs : countTabsFrom (tbs d ++ 35 ::
          (match normalize c.lines with | [] => [] | l0 :: _ => l0)) = d := by
        rw [countTabsFrom_tbs_line d (Or.inr (by simp [tab]))]
      have hnoop : readExcess d s = s :=
        readExcess_noop (by rw [htabs, hcurtabs])
      have hc1 : ¬ s.tabs < (d : Int) := by rw [htabs, hcurtabs]; omega
      have hc2 : s.line.length > d ∧ s.line.getD d 0 = 35 := by
        rw [hline]
        constructor
        · rw [length_tbs_append]
          simp
        · rw [getD_tbs_append]
          simp
      have hnoop2 : readExcess d sC = sC := readExcess_noop_stream hCS hlowI
      refine ⟨FL + 1, some (canonCAt c s.count), its2, s2, ?_,
        stripOC_some_canonCAt c s.count, hLstrip, hLS,
        by rw [hLerr, hCerr], by rw [hLpar, hCpar]⟩
      intro fuel hf
      obtain ⟨m, rfl⟩ : ∃ m, fuel = m + 1 := ⟨fuel - 1, by omega⟩
      simp only [readListBodyF, hnoop, if_neg hc1, if_pos hc2, hCeq1, hnoop2,
        hLeq m (by omega), List.nil_append]
    | none =>
      simp only [commentLines_none, List.nil_append] at hS ⊢
      match its with
      | [] =>
        have hnoop : readExcess d s = s := readExcess_noop_stream hS (headLT_low hlt)
        have hlt2 : s.tabs < (d : Int) := by
          rcases atStream_tabs_lt hS hlt with h | h
          · exact h
          · rw [h]; omega
        refine ⟨1, none, [], s, ?_, rfl, rfl, hS, rfl, rfl⟩
        intro fuel hf
        obtain ⟨m, rfl⟩ : ∃ m, fuel = m + 1 := ⟨fuel - 1, by omega⟩
        simp only [readListBodyF, hnoop, if_pos hlt2]
      | v :: restI =>
        obtain ⟨FL, its2, s2, hLeq, hLstrip, hLS, hLerr, hLpar⟩ :=
          sim_listLoop (v :: restI) d [] s rest hleg hS hlt
        obtain ⟨x, t, hexp, hx⟩ := valueLinesL_expose d v
        have hitems : itemsLines d (v :: restI) ++ rest = (tbs d ++ x) ::
            (t ++ (commentLines [35] v.commentAfter d ++
              (itemsLines d restI ++ rest))) := by
          simp only [itemsLines, hexp]
          simp [List.append_assoc]
        rw [hitems] at hS
        have hline := hS.1
        have htabs := hS.2.1
        have hcurtabs : countTabsFrom (tbs d ++ x) = d := by
          rw [countTabsFrom_tbs_line d (by
            cases hx with
            | inl h => exact Or.inl h
            | inr h => exact Or.inr h.1)]
        have hnoop : readExcess d s = s := readExcess_noop (by rw [htabs, hcurtabs])
        have hc1 : ¬ s.tabs < (d : Int) := by rw [htabs, hcurtabs]; omega
        have hc2 : ¬ (s.line.length > d ∧ s.line.getD d 0 = 35) := by
          rw [hline]
          intro hc
          rw [getD_tbs_append] at hc
          cases hx with
          | inl h =>
            rw [h, length_tbs_append] at hc
            simp at hc
          | inr h => exact h.2 hc.2
        refine ⟨FL + 1, none, its2, s2, ?_, rfl, hLstrip, hLS, hLerr, hLpar⟩
        intro fuel hf
        obtain ⟨m, rfl⟩ : ∃ m, fuel = m + 1 := ⟨fuel - 1, by omega⟩
        simp only [readListBodyF, hnoop, if_neg hc1, if_neg hc2,
          hLeq m (by omega), List.nil_append]
termination_by its _ _ _ _ => (sizeOf its, 1)

/-- the entry loop of `_readDict` over the lines of the remaining entries. -/
theorem sim_dictLoop : ∀ (es : List (KeyA × Value)) (d : Nat)
      (acc : List (KeyA × Value)) (s : DSt) (rest : List Chunk),
    legalEntries es = true →
    (es.map (fun e => e.1.name)).Nodup →
    (∀ a ∈ acc, ∀ e ∈ es, ¬ a.1.name = e.1.name) →
    AtStream s (entriesLines d es ++ rest) →
    headLT d rest →
    ∃ (F : Nat) (es2 : List (KeyA × Value)) (s2 : DSt),
      (∀ fuel, F ≤ fuel →
        readDictLoopF fuel d acc acc.length 0 none s =
          some (acc ++ es2, 0, none, s2)) ∧
      stripEntries es2 = canonEntries es ∧
      AtStream s2 rest ∧ s2.errors = s.errors ∧ s2.parse = s.parse
  | es, d, acc, s, rest => by
    intro hleg hnd hdisj hS hlt
    match es with
    | [] =>
      simp only [entriesLines, List.nil_append] at hS
      have hne : ¬ s.tabs = (d : Int) := by
        rcases atStream_tabs_lt hS hlt with h | h
        · omega
        · rw [h]; omega
      refine ⟨1, [], s, ?_, rfl, hS, rfl, rfl⟩
      intro fuel hf
      obtain ⟨m, rfl⟩ : ∃ m, fuel = m + 1 := ⟨fuel - 1, by omega⟩
      simp only [readDictLoopF, if_neg hne, List.append_nil]
    | (k, v) :: restE =>
      obtain ⟨⟨hknl, hlegV⟩, hlegR⟩ : ((nl ∉ k.name) ∧ legalValue v = true) ∧
          legalEntries restE = true := by
        simpa [legalEntries, Bool.and_eq_true, decide_eq_true_eq] using hleg
      rw [List.map_cons, List.nodup_cons] at hnd
      have hstream : entriesLines d ((k, v) :: restE) ++ rest =
          (if k.blankLineBefore = true then [tbs d] else []) ++
          (commentLines [47, 47] k.commentBefore d ++
            (valueLinesD d k.name v ++ (commentLines [35] v.commentAfter d ++
              (entriesLines d restE ++ rest)))) := by
        simp only [entriesLines]
        simp [List.append_assoc]
      rw [hstream] at hS
      have hlowR : headLow d (entriesLines d restE ++ rest) :=
        headLow_append2 (entriesLines_head d restE).1 (fun _ => headLT_low hlt)
      have hnaR : headNotAfter d (entriesLines d restE ++ rest) :=
        headNotAfter_append2 (headNotAfter_of_headNC (entriesLines_head d restE).2)
          (fun _ => headNotAfter_of_headLT hlt)
      have hlowA : headLow d (commentLines [35] v.commentAfter d ++
          (entriesLines d restE ++ rest)) :=
        headLow_append2 (commentLines_headLow (by simp [tab]) _ _)
          (fun _ => hlowR)
      have hltA : headLT (d + 1) (commentLines [35] v.commentAfter d ++
          (entriesLines d restE ++ rest)) := headLT_succ_of_headLow hlowA
      have hlowV : headLow d (valueLinesD d k.name v ++
          (commentLines [35] v.commentAfter d ++
            (entriesLines d restE ++ rest))) :=
        headLow_append2 (valueLinesD_head d k.name v).1
          (fun hc => absurd hc (valueLinesD_ne_nil d k.name v))
      have hfreshAcc : ∀ x ∈ acc, ¬ x.1.name = k.name := fun x hx =>
        hdisj x hx (k, v) (List.mem_cons_self _ _)
      have goV : ∀ (bl : Nat) (cm : Option Comment) (sV : DSt),
          decide (bl ≠ 0) = k.blankLineBefore →
          stripOC cm = canonOC k.commentBefore →
          AtStream sV (valueLinesD d k.name v ++
            (commentLines [35] v.commentAfter d ++
              (entriesLines d restE ++ rest))) →
          sV.errors = s.errors → sV.parse = s.parse →
          ∃ (F : Nat) (esG : List (KeyA × Value)) (s2 : DSt),
            (∀ fuel, F ≤ fuel →
              readDictLoopF fuel d acc acc.length bl cm sV =
                some (acc ++ esG, 0, none, s2)) ∧
            stripEntries esG = canonEntries ((k, v) :: restE) ∧
            AtStream s2 rest ∧ s2.errors = s.errors ∧ s2.parse = s.parse := by
        intro bl cm sV hbl hcm hSV herrV hparV
        have hIns : ∀ x : Value,
            dictInsert acc (KeyA.mk k.name (decide (bl ≠ 0)) cm) x =
              acc ++ [((KeyA.mk k.name (decide (bl ≠ 0)) cm), x)] :=
          fun x => @dictInsert_fresh acc (KeyA.mk k.name (decide (bl ≠ 0)) cm)
            (fun e he => hfreshAcc e he) x
        have hIfDup : ∀ (x : Value) (t : DSt),
            (if (acc ++ [((KeyA.mk k.name (decide (bl ≠ 0)) cm), x)] : List (KeyA × Value)).length ≠
                acc.length + 1
             then decErr t (s!"duplicate key: {chunkToString k.name}")
             else t) = t := by
          intro x t
          have hc : ¬ ((acc ++ [((KeyA.mk k.name (decide (bl ≠ 0)) cm), x)] : List (KeyA × Value)).length ≠
              acc.length + 1) := by
            simp
          rw [if_neg hc]
        have goI : ∀ (v0 : Value) (s1 : DSt),
            AtStream s1 (commentLines [35] v.commentAfter d ++
              (entriesLines d restE ++ rest)) →
            s1.errors = s.errors → s1.parse = s.parse →
            stripValue (withCanonAfter v0 v.commentAfter) = canonValueD k.name v →
            ∃ (F : Nat) (esG : List (KeyA × Value)) (s2 : DSt),
              (∀ fuel, F ≤ fuel →
                readDictLoopF fuel d
                  (acc ++ [((KeyA.mk k.name (decide (bl ≠ 0)) cm), (attachAfter d v0 s1).1)])
                  (acc.length + 1) 0 none
                  (readExcess d (attachAfter d v0 s1).2) =
                  some (acc ++ esG, 0, none, s2)) ∧
              stripEntries esG = canonEntries ((k, v) :: restE) ∧
              AtStream s2 rest ∧ s2.errors = s.errors ∧ s2.parse = s.parse := by
          intro v0 s1 hS1 herr1 hpar1 hv0
          obtain ⟨sA, res, hAeq, hAstrip, hAS, hAerr, hApar, _⟩ :=
            attach_sim d v0 v.commentAfter hS1 hnaR hlowR
          have hnoopA : readExcess d sA = sA := readExcess_noop_stream hAS hlowR
          have hdisj2 : ∀ x ∈ acc ++ [((KeyA.mk k.name (decide (bl ≠ 0)) cm), res)],
              ∀ e ∈ restE, ¬ x.1.name = e.1.name := by
            intro x hx e he
            rcases List.mem_append.1 hx with hx1 | hx2
            · exact hdisj x hx1 e (List.mem_cons_of_mem _ he)
            · have hxe : x = ((KeyA.mk k.name (decide (bl ≠ 0)) cm), res) := by simpa using hx2
              subst hxe
              intro hcname
              have hkn : k.name = e.1.name := hcname
              refine hnd.1 ?_
              rw [hkn]
              exact List.mem_map_of_mem _ he
          obtain ⟨FR, esR, s3, hReq, hRstrip, hRS, hRerr, hRpar⟩ :=
            sim_dictLoop restE d (acc ++ [((KeyA.mk k.name (decide (bl ≠ 0)) cm), res)])
              sA rest hlegR hnd.2 hdisj2 hAS hlt
          refine ⟨FR, ((KeyA.mk k.name (decide (bl ≠ 0)) cm), res) :: esR, s3, ?_, ?_, hRS,
            by rw [hRerr, hAerr, herr1], by rw [hRpar, hApar, hpar1]⟩
          · intro fuel hf
            simp only [hAeq, hnoopA]
            have hl : ((acc ++ [((KeyA.mk k.name (decide (bl ≠ 0)) cm), res)]) : List (KeyA × Value)).length =
                acc.length + 1 := by simp
            rw [← hl, hReq fuel hf]
            simp
          · simp only [stripEntries, canonEntries, hRstrip, hAstrip, hv0]
            rw [hbl, hcm]
        cases v with
        | text lines sl a =>
          simp only [Value.commentAfter] at hSV goI hlowA hltA
          by_cases hshort : shortDict k.name (normalize lines) = true
          · have hkf : k.name = [] ∨
                (k.name.getD 0 0 ∉ shortDictSet ∧ (61 : Byte) ∉ k.name) :=
              (shortDict_facts hshort).2
            have hlen1 : ¬ (normalize lines).length > 1 :=
              (shortDict_facts hshort).1
            have hk61 : (61 : Byte) ∉ k.name := by
              cases hkf with
              | inl h => rw [h]; simp
              | inr h => exact h.2
            have hbne : ∀ (content : Chunk) (bad : Byte), bad ∈ shortDictSet →
                (k.name ++ 61 :: content).getD 0 0 ≠ bad := by
              intro content bad hbad
              cases hk2 : k.name with
              | nil =>
                simp only [List.nil_append, List.getD_cons_zero]
                intro hc
                rw [← hc] at hbad
                simp [shortDictSet] at hbad
              | cons b t =>
                simp only [List.cons_append, List.getD_cons_zero]
                cases hkf with
                | inl h =>
                  rw [h] at hk2
                  simp at hk2
                | inr h =>
                  intro hc
                  apply h.1
                  rw [hk2]
                  simp only [List.getD_cons_zero]
                  rw [hc]
                  exact hbad
            have hctf0 : ∀ content : Chunk,
                countTabsFrom (k.name ++ 61 :: content) = 0 := by
              intro content
              have hne0 : (k.name ++ 61 :: content).getD 0 0 ≠ tab :=
                hbne content tab (by simp [shortDictSet, tab])
              cases hk2 : k.name with
              | nil => simp [countTabsFrom, tab]
              | cons b t =>
                rw [hk2] at hne0
                simp only [List.cons_append, List.getD_cons_zero] at hne0
                simp [countTabsFrom, hne0]
            have hLA : ∀ content : Chunk,
                lineAssign (tbs d ++ (k.name ++ 61 :: content)) =
                  ((d + k.name.length : Nat) : Int) := by
              intro content
              rw [← List.append_assoc]
              exact lineAssign_key d content hk61 hknl (hctf0 content)
            cases hn : normalize lines with
            | nil =>
              have hsT : shortDict k.name [] = true := by
                rw [← hn]
                exact hshort
              have hval : valueLinesD d k.name (.text lines sl a) =
                  [tbs d ++ (k.name ++ 61 :: [])] := by
                simp only [valueLinesD]
                rw [if_pos hshort, hn]
                simp [List.append_assoc]
              rw [hval] at hSV
              simp only [List.cons_append, List.nil_append] at hSV
              have hline2 : sV.line = tbs d ++ (k.name ++ 61 :: []) := hSV.1
              have htabs : sV.tabs = (d : Int) := by
                have h := hSV.2.1
                rw [countTabsFrom_tbs_append, hctf0 []] at h
                simpa using h
              have hassign : sV.assign = ((d + k.name.length : Nat) : Int) := by
                have h := hSV.2.2.1
                rw [hLA []] at h
                exact h
              obtain ⟨hSnext, herrN, hparN⟩ := readln_stream hSV
              have hnneg : ¬ sV.assign < 0 := by
                rw [hassign]
                omega
              have htoNat : sV.assign.toNat = d + k.name.length := by
                rw [hassign]
                omega
              have hkeyT : (sV.line.drop d).take (sV.assign.toNat - d) = k.name := by
                rw [hline2, drop_tbs_append, htoNat,
                  show d + k.name.length - d = k.name.length from by omega]
                exact List.take_left _ _
              have hcontT : sV.line.drop (sV.assign.toNat + 1) = ([] : Chunk) := by
                rw [htoNat, hline2,
                  show d + k.name.length + 1 = d + (k.name.length + 1) from by omega,
                  drop_tbs_append_at, drop_key_succ]
              have h35 : sV.line.getD d 0 ≠ 35 := by
                rw [hline2, getD_tbs_append]
                exact hbne [] 35 (by simp [shortDictSet])
              have h47 : sV.line.getD d 0 ≠ 47 := by
                rw [hline2, getD_tbs_append]
                exact hbne [] 47 (by simp [shortDictSet])
              have h60 : sV.line.getD d 0 ≠ 60 := by
                rw [hline2, getD_tbs_append]
                exact hbne [] 60 (by simp [shortDictSet])
              have h91 : sV.line.getD d 0 ≠ 91 := by
                rw [hline2, getD_tbs_append]
                exact hbne [] 91 (by simp [shortDictSet])
              have h123 : sV.line.getD d 0 ≠ 123 := by
                rw [hline2, getD_tbs_append]
                exact hbne [] 123 (by simp [shortDictSet])
              have hsz : ¬ (sV.line.length - d = 0) := by
                rw [hline2, length_tbs_append]
                have h1 : (k.name ++ 61 :: ([] : Chunk)).length =
                    k.name.length + 1 := by simp
                omega
              have hv0 : stripValue (withCanonAfter (Value.text [[]] 0 none) a) =
                  canonValueD k.name (.text lines sl a) := by
                cases a with
                | none =>
                  show Value.text [[]] 0 none = Value.text
                    (if normalize lines = [] then
                      (if shortDict k.name [] = true then [[]] else [])
                    else normalize lines) 0 (canonOC none)
                  simp [hn, hsT, canonOC]
                | some c =>
                  show Value.text [[]] 0 (stripOC (some (canonCAt c 0))) =
                    Value.text (if normalize lines = [] then
                      (if shortDict k.name [] = true then [[]] else [])
                    else normalize lines) 0 (canonOC (some c))
                  rw [stripOC_some_canonCAt]
                  simp [hn, hsT]
              obtain ⟨F, esG, s2, hgoI, hstrip2, hS2, herr2, hpar2⟩ :=
                goI (.text [[]] 0 none) (readln sV).1 hSnext
                  (by rw [herrN, herrV]) (by rw [hparN, hparV]) hv0
              refine ⟨F + 1, esG, s2, ?_, hstrip2, hS2, herr2, hpar2⟩
              intro fuel hf
              obtain ⟨m, rfl⟩ : ∃ m, fuel = m + 1 := ⟨fuel - 1, by omega⟩
              simp only [readDictLoopF, if_pos htabs, if_neg hsz, if_neg hnneg,
                hkeyT, hcontT, hIns, hIfDup]
              exact hgoI m (by omega)
            | cons l0 r0 =>
              have hr0 : r0 = [] := by
                rw [hn] at hlen1
                cases r0 with
                | nil => rfl
                | cons x y => simp at hlen1
              subst hr0
              have hval : valueLinesD d k.name (.text lines sl a) =
                  [tbs d ++ (k.name ++ 61 :: l0)] := by
                simp only [valueLinesD]
                rw [if_pos hshort, hn]
                simp [List.append_assoc]
              rw [hval] at hSV
              simp only [List.cons_append, List.nil_append] at hSV
              have hline2 : sV.line = tbs d ++ (k.name ++ 61 :: l0) := hSV.1
              have htabs : sV.tabs = (d : Int) := by
                have h := hSV.2.1
                rw [countTabsFrom_tbs_append, hctf0 l0] at h
                simpa using h
              have hassign : sV.assign = ((d + k.name.length : Nat) : Int) := by
                have h := hSV.2.2.1
                rw [hLA l0] at h
                exact h
              obtain ⟨hSnext, herrN, hparN⟩ := readln_stream hSV
              have hnneg : ¬ sV.assign < 0 := by
                rw [hassign]
                omega
              have htoNat : sV.assign.toNat = d + k.name.length := by
                rw [hassign]
                omega
              have hkeyT : (sV.line.drop d).take (sV.assign.toNat - d) = k.name := by
                rw [hline2, drop_tbs_append, htoNat,
                  show d + k.name.length - d = k.name.length from by omega]
                exact List.take_left _ _
              have hcontT : sV.line.drop (sV.assign.toNat + 1) = l0 := by
                rw [htoNat, hline2,
                  show d + k.name.length + 1 = d + (k.name.length + 1) from by omega,
                  drop_tbs_append_at, drop_key_succ]
              have h35 : sV.line.getD d 0 ≠ 35 := by
                rw [hline2, getD_tbs_append]
                exact hbne l0 35 (by simp [shortDictSet])
              have h47 : sV.line.getD d 0 ≠ 47 := by
                rw [hline2, getD_tbs_append]
                exact hbne l0 47 (by simp [shortDictSet])
              have h60 : sV.line.getD d 0 ≠ 60 := by
                rw [hline2, getD_tbs_append]
                exact hbne l0 60 (by simp [shortDictSet])
              have h91 : sV.line.getD d 0 ≠ 91 := by
                rw [hline2, getD_tbs_append]
                exact hbne l0 91 (by simp [shortDictSet])
              have h123 : sV.line.getD d 0 ≠ 123 := by
                rw [hline2, getD_tbs_append]
                exact hbne l0 123 (by simp [shortDictSet])
              have hsz : ¬ (sV.line.length - d = 0) := by
                rw [hline2, length_tbs_append]
                have h1 : (k.name ++ 61 :: l0).length =
                    k.name.length + (l0.length + 1) := by simp
                omega
              have hv0 : stripValue (withCanonAfter (Value.text [l0] 0 none) a) =
                  canonValueD k.name (.text lines sl a) := by
                cases a with
                | none =>
                  show Value.text [l0] 0 none = Value.text
                    (if normalize lines = [] then
                      (if shortDict k.name [] = true then [[]] else [])
                    else normalize lines) 0 (canonOC none)
                  simp [hn, canonOC]
                | some c =>
                  show Value.text [l0] 0 (stripOC (some (canonCAt c 0))) =
                    Value.text (if normalize lines = [] then
                      (if shortDict k.name [] = true then [[]] else [])
                    else normalize lines) 0 (canonOC (some c))
                  rw [stripOC_some_canonCAt]
                  simp [hn]
              obtain ⟨F, esG, s2, hgoI, hstrip2, hS2, herr2, hpar2⟩ :=
                goI (.text [l0] 0 none) (readln sV).1 hSnext
                  (by rw [herrN, herrV]) (by rw [hparN, hparV]) hv0
              refine ⟨F + 1, esG, s2, ?_, hstrip2, hS2, herr2, hpar2⟩
              intro fuel hf
              obtain ⟨m, rfl⟩ : ∃ m, fuel = m + 1 := ⟨fuel - 1, by omega⟩
              simp only [readDictLoopF, if_pos htabs, if_neg hsz, if_neg hnneg,
                hkeyT, hcontT, hIns, hIfDup]
              exact hgoI m (by omega)
          · have hF : shortDict k.name (normalize lines) = false := by
              have h2 := hshort
              rwa [Bool.not_eq_true] at h2
            have hval : valueLinesD d k.name (.text lines sl a) =
                (tbs d ++ (60 :: (k.name ++ [62]))) ::
                  (normalize lines).map (fun l => tbs (d + 1) ++ l) := by
              simp only [valueLinesD, if_neg hshort]
              simp [List.append_assoc]
            rw [hval] at hSV
            simp only [List.cons_append, List.append_assoc] at hSV
            have hline2 : sV.line = tbs d ++ (60 :: (k.name ++ [62])) := hSV.1
            have htabs : sV.tabs = (d : Int) := by
              have h := hSV.2.1
              rwa [countTabsFrom_tbs_line d (Or.inr (by simp [tab]))] at h
            have hne2 : normalize lines ≠ [[]] := normalize_ne_singleton_nil lines
            obtain ⟨sT, hTeq, hTS, hTerr, hTpar, _⟩ :=
              readText_sim d (normalize lines) hSV hne2 hlowA
            have hsz : ¬ (sV.line.length - d = 0) := by
              rw [hline2, length_tbs_append]
              have h1 : (60 :: (k.name ++ [62]) : Chunk).length =
                  k.name.length + 2 := by simp
              omega
            have hget60 : sV.line.getD d 0 = 60 := by
              rw [hline2, getD_tbs_append]
              rfl
            have hlast : sV.line.getD (sV.line.length - 1) 0 = 62 := by
              have hx : sV.line = (tbs d ++ 60 :: k.name) ++ [62] := by
                rw [hline2]
                simp
              have hlen : sV.line.length - 1 =
                  ((tbs d ++ 60 :: k.name) : Chunk).length := by
                rw [hx]
                simp
              rw [hlen, hx]
              exact getD_append_last _ _
            have hcond : ¬ (sV.line.length - d < 2 ∨
                sV.line.getD (sV.line.length - 1) 0 ≠ 62) := by
              intro hc
              rcases hc with hc | hc
              · have h1 : (60 :: (k.name ++ [62]) : Chunk).length =
                    k.name.length + 2 := by simp
                rw [hline2, length_tbs_append, h1] at hc
                omega
              · exact hc hlast
            have hkeyB : (sV.line.drop (d + 1)).dropLast = k.name := by
              rw [hline2, drop_tbs_append_succ]
              simp
            have hv0 : stripValue (withCanonAfter
                (Value.text (normalize lines) sV.count none) a) =
                canonValueD k.name (.text lines sl a) := by
              cases a with
              | none =>
                show Value.text (normalize lines) 0 none = Value.text
                  (if normalize lines = [] then
                    (if shortDict k.name [] = true then [[]] else [])
                  else normalize lines) 0 (canonOC none)
                cases hnn : normalize lines with
                | nil =>
                  have hF2 : shortDict k.name [] = false := by
                    rw [← hnn]
                    exact hF
                  simp [hF2, canonOC]
                | cons x y => simp [canonOC]
              | some c =>
                show Value.text (normalize lines) 0
                    (stripOC (some (canonCAt c 0))) = Value.text
                  (if normalize lines = [] then
                    (if shortDict k.name [] = true then [[]] else [])
                  else normalize lines) 0 (canonOC (some c))
                rw [stripOC_some_canonCAt]
                cases hnn : normalize lines with
                | nil =>
                  have hF2 : shortDict k.name [] = false := by
                    rw [← hnn]
                    exact hF
                  simp [hF2]
                | cons x y => simp
            obtain ⟨F, esG, s2, hgoI, hstrip2, hS2, herr2, hpar2⟩ :=
              goI (.text (normalize lines) sV.count none) sT hTS
                (by rw [hTerr, herrV]) (by rw [hTpar, hparV]) hv0
            refine ⟨F + 1, esG, s2, ?_, hstrip2, hS2, herr2, hpar2⟩
            intro fuel hf
            obtain ⟨m, rfl⟩ : ∃ m, fuel = m + 1 := ⟨fuel - 1, by omega⟩
            simp only [readDictLoopF, if_pos htabs, if_neg hsz, hget60,
              if_neg hcond, hTeq, hkeyB, hIns, hIfDup]
            exact hgoI m (by omega)
        | vlist itsN slN introN aN =>
          simp only [Value.commentAfter] at hSV goI hlowA hltA
          have hlegI : legalItems itsN = true := by
            have h := hlegV
            simpa [legalValue] using h
          have hval : valueLinesD d k.name (.vlist itsN slN introN aN) =
              (tbs d ++ (91 :: (k.name ++ [93]))) ::
                (commentLines [35] introN (d + 1) ++
                  itemsLines (d + 1) itsN) := by
            simp only [valueLinesD]
            simp [List.append_assoc]
          rw [hval] at hSV
          simp only [List.cons_append, List.append_assoc] at hSV
          have hline2 : sV.line = tbs d ++ (91 :: (k.name ++ [93])) := hSV.1
          have htabs : sV.tabs = (d : Int) := by
            have h := hSV.2.1
            rwa [countTabsFrom_tbs_line d (Or.inr (by simp [tab]))] at h
          obtain ⟨hSn2, herrN2, hparN2⟩ := readln_stream hSV
          obtain ⟨FB, intro3, its3, sB, hBeq, hBintro, hBstrip, hBS, hBerr,
              hBpar⟩ :=
            sim_listBody itsN introN (d + 1) (readln sV).1
              (commentLines [35] aN d ++ (entriesLines d restE ++ rest))
              hlegI hSn2 hltA
          have hv0 : stripValue (withCanonAfter
              (Value.vlist its3 0 intro3 none) aN) =
              canonValueD k.name (.vlist itsN slN introN aN) := by
            cases aN with
            | none =>
              show Value.vlist (stripItems its3) 0 (stripOC intro3) none =
                Value.vlist (canonItems itsN) 0 (canonOC introN) (canonOC none)
              rw [hBstrip, hBintro]
              rfl
            | some c =>
              show Value.vlist (stripItems its3) 0 (stripOC intro3)
                  (stripOC (some (canonCAt c 0))) =
                Value.vlist (canonItems itsN) 0 (canonOC introN)
                  (canonOC (some c))
              rw [hBstrip, hBintro, stripOC_some_canonCAt]
          obtain ⟨F, esG, s2, hgoI, hstrip2, hS2, herr2, hpar2⟩ :=
            goI (.vlist its3 0 intro3 none) sB hBS
              (by rw [hBerr, herrN2, herrV]) (by rw [hBpar, hparN2, hparV]) hv0
          refine ⟨FB + F + 1, esG, s2, ?_, hstrip2, hS2, herr2, hpar2⟩
          intro fuel hf
          obtain ⟨m, rfl⟩ : ∃ m, fuel = m + 1 := ⟨fuel - 1, by omega⟩
          have hsz : ¬ (sV.line.length - d = 0) := by
            rw [hline2, length_tbs_append]
            have h1 : (91 :: (k.name ++ [93]) : Chunk).length =
                k.name.length + 2 := by simp
            omega
          have hget91 : sV.line.getD d 0 = 91 := by
            rw [hline2, getD_tbs_append]
            rfl
          have hlast : sV.line.getD (sV.line.length - 1) 0 = 93 := by
            have hx : sV.line = (tbs d ++ 91 :: k.name) ++ [93] := by
              rw [hline2]
              simp
            have hlen : sV.line.length - 1 =
                ((tbs d ++ 91 :: k.name) : Chunk).length := by
              rw [hx]
              simp
            rw [hlen, hx]
            exact getD_append_last _ _
          have hcond : ¬ (sV.line.length - d < 2 ∨
              sV.line.getD (sV.line.length - 1) 0 ≠ 93) := by
            intro hc
            rcases hc with hc | hc
            · have h1 : (91 :: (k.name ++ [93]) : Chunk).length =
                  k.name.length + 2 := by simp
              rw [hline2, length_tbs_append, h1] at hc
              omega
            · exact hc hlast
          have hkeyB : (sV.line.drop (d + 1)).dropLast = k.name := by
            rw [hline2, drop_tbs_append_succ]
            simp
          simp only [readDictLoopF, if_pos htabs, if_neg hsz, hget91,
            if_neg hcond, hBeq m (by omega), hkeyB, hIns, hIfDup]
          exact hgoI m (by omega)
        | vdict esN slN introN aN =>
          simp only [Value.commentAfter] at hSV goI hlowA hltA
          have hle : (esN.map (fun e => e.1.name)).Nodup ∧
              legalEntries esN = true := by
            have h := hlegV
            simpa [legalValue, Bool.and_eq_true, decide_eq_true_eq] using h
          have hval : valueLinesD d k.name (.vdict esN slN introN aN) =
              (tbs d ++ (123 :: (k.name ++ [125]))) ::
                (commentLines [35] introN (d + 1) ++
                  entriesLines (d + 1) esN) := by
            simp only [valueLinesD]
            simp [List.append_assoc]
          rw [hval] at hSV
          simp only [List.cons_append, List.append_assoc] at hSV
          have hline2 : sV.line = tbs d ++ (123 :: (k.name ++ [125])) := hSV.1
          have htabs : sV.tabs = (d : Int) := by
            have h := hSV.2.1
            rwa [countTabsFrom_tbs_line d (Or.inr (by simp [tab]))] at h
          obtain ⟨hSn2, herrN2, hparN2⟩ := readln_stream hSV
          obtain ⟨FB, intro3, es3, sB, hBeq, hBintro, hBstrip, hBS, hBerr,
              hBpar⟩ :=
            sim_dictBody esN introN (d + 1) (readln sV).1
              (commentLines [35] aN d ++ (entriesLines d restE ++ rest))
              hle.2 hle.1 hSn2 hltA
          have hv0 : stripValue (withCanonAfter
              (Value.vdict es3 0 intro3 none) aN) =
              canonValueD k.name (.vdict esN slN introN aN) := by
            cases aN with
            | none =>
              show Value.vdict (stripEntries es3) 0 (stripOC intro3) none =
                Value.vdict (canonEntries esN) 0 (canonOC introN) (canonOC none)
              rw [hBstrip, hBintro]
              rfl
            | some c =>
              show Value.vdict (stripEntries es3) 0 (stripOC intro3)
                  (stripOC (some (canonCAt c 0))) =
                Value.vdict (canonEntries esN) 0 (canonOC introN)
                  (canonOC (some c))
              rw [hBstrip, hBintro, stripOC_some_canonCAt]
          obtain ⟨F, esG, s2, hgoI, hstrip2, hS2, herr2, hpar2⟩ :=
            goI (.vdict es3 0 intro3 none) sB hBS
              (by rw [hBerr, herrN2, herrV]) (by rw [hBpar, hparN2, hparV]) hv0
          refine ⟨FB + F + 1, esG, s2, ?_, hstrip2, hS2, herr2, hpar2⟩
          intro fuel hf
          obtain ⟨m, rfl⟩ : ∃ m, fuel = m + 1 := ⟨fuel - 1, by omega⟩
          have hsz : ¬ (sV.line.length - d = 0) := by
            rw [hline2, length_tbs_append]
            have h1 : (123 :: (k.name ++ [125]) : Chunk).length =
                k.name.length + 2 := by simp
            omega
          have hget123 : sV.line.getD d 0 = 123 := by
            rw [hline2, getD_tbs_append]
            rfl
          have hlast : sV.line.getD (sV.line.length - 1) 0 = 125 := by
            have hx : sV.line = (tbs d ++ 123 :: k.name) ++ [125] := by
              rw [hline2]
              simp
            have hlen : sV.line.length - 1 =
                ((tbs d ++ 123 :: k.name) : Chunk).length := by
              rw [hx]
              simp
            rw [hlen, hx]
            exact getD_append_last _ _
          have hcond : ¬ (sV.line.length - d < 2 ∨
              sV.line.getD (sV.line.length - 1) 0 ≠ 125) := by
            intro hc
            rcases hc with hc | hc
            · have h1 : (123 :: (k.name ++ [125]) : Chunk).length =
                  k.name.length + 2 := by simp
              rw [hline2, length_tbs_append, h1] at hc
              omega
            · exact hc hlast
          have hkeyB : (sV.line.drop (d + 1)).dropLast = k.name := by
            rw [hline2, drop_tbs_append_succ]
            simp
          simp only [readDictLoopF, if_pos htabs, if_neg hsz, hget123,
            if_neg hcond, hBeq m (by omega), hkeyB, hIns, hIfDup]
          exact hgoI m (by omega)
      have goC : ∀ (bl : Nat) (sC0 : DSt),
          decide (bl ≠ 0) = k.blankLineBefore →
          AtStream sC0 (commentLines [47, 47] k.commentBefore d ++
            (valueLinesD d k.name v ++
              (commentLines [35] v.commentAfter d ++
                (entriesLines d restE ++ rest)))) →
          sC0.errors = s.errors → sC0.parse = s.parse →
          ∃ (F : Nat) (esG : List (KeyA × Value)) (s2 : DSt),
            (∀ fuel, F ≤ fuel →
              readDictLoopF fuel d acc acc.length bl none sC0 =
                some (acc ++ esG, 0, none, s2)) ∧
            stripEntries esG = canonEntries ((k, v) :: restE) ∧
            AtStream s2 rest ∧ s2.errors = s.errors ∧ s2.parse = s.parse := by
        intro bl sC0 hbl hSC herrC hparC
        cases hkc : k.commentBefore with
        | none =>
          rw [hkc] at hSC
          simp only [commentLines_none, List.nil_append] at hSC
          exact goV bl none sC0 hbl (by rw [hkc]; rfl) hSC herrC hparC
        | some c =>
          rw [hkc] at hSC
          obtain ⟨sC, hCeq, hCS, hCerr, hCpar, _⟩ :=
            comment_sim d [47, 47] c hSC hlowV
          have hCeq2 : readComment d (d + 2) sC0 = (canonCAt c sC0.count, sC) :=
            hCeq
          have hnoopC : readExcess d sC = sC := readExcess_noop_stream hCS hlowV
          obtain ⟨FV, esG, s2, hVeq, hVstrip, hVS, hVerr, hVpar⟩ :=
            goV bl (some (canonCAt c sC0.count)) sC hbl
              (by rw [hkc]; exact stripOC_some_canonCAt c sC0.count)
              hCS (by rw [hCerr, herrC]) (by rw [hCpar, hparC])
          obtain ⟨M, T, hMeq⟩ : ∃ M T, commentLines [47, 47] (some c) d =
              (tbs d ++ (47 :: 47 :: M)) :: T := by
            rw [commentLines_expose]
            exact ⟨_, _, rfl⟩
          rw [hMeq] at hSC
          simp only [List.cons_append] at hSC
          have hline3 : sC0.line = tbs d ++ (47 :: 47 :: M) := hSC.1
          have htabs : sC0.tabs = (d : Int) := by
            have h := hSC.2.1
            rwa [countTabsFrom_tbs_line d (Or.inr (by simp [tab]))] at h
          have hsz : ¬ (sC0.line.length - d = 0) := by
            rw [hline3, length_tbs_append]
            have h1 : (47 :: 47 :: M : Chunk).length = M.length + 2 := by simp
            omega
          have hget47 : sC0.line.getD d 0 = 47 := by
            rw [hline3, getD_tbs_append]
            rfl
          have hget472 : sC0.line.getD (d + 1) 0 = 47 := by
            rw [hline3, getD_tbs_append_at]
            rfl
          have hcondC : ¬ (sC0.line.length - d < 2 ∨
              sC0.line.getD (d + 1) 0 ≠ 47) := by
            intro hc
            rcases hc with hc | hc
            · have h1 : (47 :: 47 :: M : Chunk).length = M.length + 2 := by simp
              rw [hline3, length_tbs_append, h1] at hc
              omega
            · exact hc hget472
          refine ⟨FV + 1, esG, s2, ?_, hVstrip, hVS, hVerr, hVpar⟩
          intro fuel hf
          obtain ⟨m, rfl⟩ : ∃ m, fuel = m + 1 := ⟨fuel - 1, by omega⟩
          simp only [readDictLoopF, if_pos htabs, if_neg hsz, hget47,
            if_neg hcondC, Option.isSome_none, Bool.false_eq_true, if_false,
            hCeq2, hnoopC]
          exact hVeq m (by omega)
      by_cases hbb : k.blankLineBefore = true
      · rw [if_pos hbb] at hS
        simp only [List.cons_append, List.nil_append] at hS
        have hline : s.line = tbs d := hS.1
        have htabs : s.tabs = (d : Int) := by
          have h := hS.2.1
          rwa [countTabsFrom_tbs] at h
        have hcount : 1 ≤ s.count := hS.2.2.2.2.2.1
        obtain ⟨hSn, herrN, hparN⟩ := readln_stream hS
        have hblf : decide (s.count ≠ 0) = k.blankLineBefore := by
          rw [hbb]
          simp only [decide_eq_true_eq]
          omega
        obtain ⟨FC, esG, s2, hCeq3, hCstrip, hCS3, hCerr3, hCpar3⟩ :=
          goC s.count (readln s).1 hblf hSn herrN hparN
        refine ⟨FC + 1, esG, s2, ?_, hCstrip, hCS3, hCerr3, hCpar3⟩
        intro fuel hf
        obtain ⟨m, rfl⟩ : ∃ m, fuel = m + 1 := ⟨fuel - 1, by omega⟩
        have hszEq : s.line.length - d = 0 := by
          rw [hline, tbs_length]
          omega
        have hcnone : ((none : Option Comment).isSome = true) = False := by
          simp
        have h00 : ((0 : Nat) ≠ 0) = False := by
          simp
        simp only [readDictLoopF, if_pos htabs, if_pos hszEq, hcnone, h00,
          if_false]
        exact hCeq3 m (by omega)
      · rw [if_neg hbb] at hS
        simp only [List.nil_append] at hS
        have hbbF : k.blankLineBefore = false := by
          cases hbv : k.blankLineBefore with
          | true => exact absurd hbv hbb
          | false => rfl
        have hblf : decide ((0 : Nat) ≠ 0) = k.blankLineBefore := by
          rw [hbbF]
          rfl
        exact goC 0 s hblf hS rfl rfl
termination_by es _ _ _ _ => (sizeOf es, 0)

/-- `_readDict` over an encoded dict body: intro comment, entries, exit,
with nothing left unclaimed. -/
theorem sim_dictBody : ∀ (es : List (KeyA × Value)) (intro : Option Comment)
      (d : Nat) (s : DSt) (rest : List Chunk),
    legalEntries es = true →
    (es.map (fun e => e.1.name)).Nodup →
    AtStream s (commentLines [35] intro d ++ (entriesLines d es ++ rest)) →
    headLT d rest →
    ∃ (F : Nat) (intro2 : Option Comment) (es2 : List (KeyA × Value)) (s2 : DSt),
      (∀ fuel, F ≤ fuel → readDictBodyF fuel d s = some (intro2, es2, s2)) ∧
      stripOC intro2 = canonOC intro ∧
      stripEntries es2 = canonEntries es ∧
      AtStream s2 rest ∧ s2.errors = s.errors ∧ s2.parse = s.parse
  | es, intro, d, s, rest => by
    intro hleg hnd hS hlt
    have hlowE : headLow d (entriesLines d es ++ rest) :=
      headLow_append2 (entriesLines_head d es).1 (fun _ => headLT_low hlt)
    match intro with
    | some c =>
      obtain ⟨sC, hCeq, hCS, hCerr, hCpar, _⟩ := comment_sim d [35] c hS hlowE
      have hCeq1 : readComment d (d + 1) s = (canonCAt c s.count, sC) := hCeq
      obtain ⟨FL, es2, s2, hLeq, hLstrip, hLS, hLerr, hLpar⟩ :=
        sim_dictLoop es d [] sC rest hleg hnd (by simp) hCS hlt
      have hLeq0 : ∀ fuel, FL ≤ fuel →
          readDictLoopF fuel d [] 0 0 none sC = some (es2, 0, none, s2) := by
        intro fuel hf
        have h2 := hLeq fuel hf
        simpa using h2
      rw [commentLines_expose] at hS
      simp only [List.cons_append, List.nil_append] at hS
      have hline := hS.1
      have htabs := hS.2.1
      have hcurtabs : countTabsFrom (tbs d ++ 35 ::
          (match normalize c.lines with | [] => [] | l0 :: _ => l0)) = d := by
        rw [countTabsFrom_tbs_line d (Or.inr (by simp [tab]))]
      have hnoop : readExcess d s = s :=
        readExcess_noop (by rw [htabs, hcurtabs])
      have hc1 : ¬ s.tabs < (d : Int) := by rw [htabs, hcurtabs]; omega
      have hc2 : s.line.length > d ∧ s.line.getD d 0 = 35 := by
        rw [hline]
        constructor
        · rw [length_tbs_append]
          simp
        · rw [getD_tbs_append]
          simp
      have hnoop2 : readExcess d sC = sC := readExcess_noop_stream hCS hlowE
      refine ⟨FL + 1, some (canonCAt c s.count), es2, s2, ?_,
        stripOC_some_canonCAt c s.count, hLstrip, hLS,
        by rw [hLerr, hCerr], by rw [hLpar, hCpar]⟩
      intro fuel hf
      obtain ⟨m, rfl⟩ : ∃ m, fuel = m + 1 := ⟨fuel - 1, by omega⟩
      simp only [readDictBodyF, hnoop, if_neg hc1, if_pos hc2, hCeq1, hnoop2,
        hLeq0 m (by omega)]
      simp
    | none =>
      simp only [commentLines_none, List.nil_append] at hS ⊢
      match es with
      | [] =>
        have hnoop : readExcess d s = s :=
          readExcess_noop_stream hS (headLT_low hlt)
        have hlt2 : s.tabs < (d : Int) := by
          rcases atStream_tabs_lt hS hlt with h | h
          · exact h
          · rw [h]; omega
        refine ⟨1, none, [], s, ?_, rfl, rfl, hS, rfl, rfl⟩
        intro fuel hf
        obtain ⟨m, rfl⟩ : ∃ m, fuel = m + 1 := ⟨fuel - 1, by omega⟩
        simp only [readDictBodyF, hnoop, if_pos hlt2]
      | (k, v) :: restE =>
        obtain ⟨FL, es2, s2, hLeq, hLstrip, hLS, hLerr, hLpar⟩ :=
          sim_dictLoop ((k, v) :: restE) d [] s rest hleg hnd (by simp) hS hlt
        have hLeq0 : ∀ fuel, FL ≤ fuel →
            readDictLoopF fuel d [] 0 0 none s = some (es2, 0, none, s2) := by
          intro fuel hf
          have h2 := hLeq fuel hf
          simpa using h2
        obtain ⟨x, t, hexp, hx⟩ := entriesLines_expose d k v restE
        have hentries : entriesLines d ((k, v) :: restE) ++ rest =
            (tbs d ++ x) :: (t ++ rest) := by
          rw [hexp]
          simp
        rw [hentries] at hS
        have hline := hS.1
        have htabs := hS.2.1
        have hcurtabs : countTabsFrom (tbs d ++ x) = d := by
          rw [countTabsFrom_tbs_line d (by
            cases hx with
            | inl h => exact Or.inl h
            | inr h => exact Or.inr h.1)]
        have hnoop : readExcess d s = s :=
          readExcess_noop (by rw [htabs, hcurtabs])
        have hc1 : ¬ s.tabs < (d : Int) := by rw [htabs, hcurtabs]; omega
        have hc2 : ¬ (s.line.length > d ∧ s.line.getD d 0 = 35) := by
          rw [hline]
          intro hc
          rw [getD_tbs_append] at hc
          cases hx with
          | inl h =>
            rw [h, length_tbs_append] at hc
            simp at hc
          | inr h => exact h.2 hc.2
        refine ⟨FL + 1, none, es2, s2, ?_, rfl, hLstrip, hLS, hLerr, hLpar⟩
        intro fuel hf
        obtain ⟨m, rfl⟩ : ∃ m, fuel = m + 1 := ⟨fuel - 1, by omega⟩
        simp only [readDictBodyF, hnoop, if_neg hc1, if_neg hc2,
          hLeq0 m (by omega)]
        simp
termination_by es _ _ _ _ => (sizeOf es, 1)

end

/-! ### Global facts about the emitted lines: no newline bytes anywhere,
and no final empty line -/

theorem commentLines_no_nl {m : Chunk} (hm : nl ∉ m) (c : Option Comment)
    (d : Nat) : ∀ l ∈ commentLines m c d, nl ∉ l := by
  match c with
  | none => simp [commentLines]
  | some com =>
    have hnn := normalize_no_nl com.lines
    simp only [commentLines]
    cases hn : normalize com.lines with
    | nil =>
      intro l hl
      simp only [List.mem_singleton] at hl
      subst hl
      exact nl_not_mem_tbs_append hm d
    | cons l0 r =>
      intro l hl
      rcases List.mem_cons.1 hl with hl | hl
      · subst hl
        rw [List.append_assoc]
        refine nl_not_mem_tbs_append ?_ d
        intro hmem
        rcases List.mem_append.1 hmem with h1 | h1
        · exact hm h1
        · exact hnn l0 (by rw [hn]; exact List.mem_cons_self _ _) h1
      · obtain ⟨x, hx, rfl⟩ := List.mem_map.1 hl
        exact nl_not_mem_tbs_append
          (hnn x (by rw [hn]; exact List.mem_cons_of_mem _ hx)) _

mutual

theorem valueLinesL_no_nl : ∀ (d : Nat) (v : Value), legalValue v = true →
    ∀ l ∈ valueLinesL d v, nl ∉ l
  | d, .text lines sl a, hleg => by
    intro l hl
    have hnn := normalize_no_nl lines
    simp only [valueLinesL] at hl
    by_cases hs : shortList (normalize lines) = true
    · rw [if_pos hs] at hl
      simp only [List.mem_singleton] at hl
      subst hl
      refine nl_not_mem_tbs_append ?_ d
      cases hn : normalize lines with
      | nil => simp
      | cons l0 r =>
        exact hnn l0 (by rw [hn]; exact List.mem_cons_self _ _)
    · rw [if_neg hs] at hl
      rcases List.mem_cons.1 hl with hl | hl
      · subst hl
        exact nl_not_mem_tbs_append (by simp [nl]) d
      · obtain ⟨x, hx, rfl⟩ := List.mem_map.1 hl
        exact nl_not_mem_tbs_append (hnn x hx) _
  | d, .vlist its sl i a, hleg => by
    intro l hl
    simp only [valueLinesL] at hl
    rcases List.mem_cons.1 hl with hl | hl
    · subst hl
      exact nl_not_mem_tbs_append (by simp [nl]) d
    · rcases List.mem_append.1 hl with hl | hl
      · exact commentLines_no_nl (by simp [nl]) i (d + 1) l hl
      · exact itemsLines_no_nl (d + 1) its (by simpa [legalValue] using hleg) l hl
  | d, .vdict es sl i a, hleg => by
    intro l hl
    simp only [valueLinesL] at hl
    rcases List.mem_cons.1 hl with hl | hl
    · subst hl
      exact nl_not_mem_tbs_append (by simp [nl]) d
    · rcases List.mem_append.1 hl with hl | hl
      · exact commentLines_no_nl (by simp [nl]) i (d + 1) l hl
      · refine entriesLines_no_nl (d + 1) es ?_ l hl
        have h := hleg
        simp only [legalValue, Bool.and_eq_true] at h
        exact h.2

theorem valueLinesD_no_nl : ∀ (d : Nat) (kname : Chunk) (v : Value),
    nl ∉ kname → legalValue v = true → ∀ l ∈ valueLinesD d kname v, nl ∉ l
  | d, kname, .text lines sl a, hk, hleg => by
    intro l hl
    have hnn := normalize_no_nl lines
    simp only [valueLinesD] at hl
    by_cases hs : shortDict kname (normalize lines) = true
    · rw [if_pos hs] at hl
      simp only [List.mem_singleton] at hl
      subst hl
      simp only [List.append_assoc]
      refine nl_not_mem_tbs_append ?_ d
      cases hn : normalize lines with
      | nil =>
        intro hmem
        rcases List.mem_append.1 hmem with h1 | h1
        · exact hk h1
        · rcases List.mem_append.1 h1 with h2 | h2
          · simp [nl] at h2
          · simp at h2
      | cons l0 r =>
        intro hmem
        rcases List.mem_append.1 hmem with h1 | h1
        · exact hk h1
        · rcases List.mem_append.1 h1 with h2 | h2
          · simp [nl] at h2
          · exact hnn l0 (by rw [hn]; exact List.mem_cons_self _ _) h2
    · rw [if_neg hs] at hl
      rcases List.mem_cons.1 hl with hl | hl
      · subst hl
        simp only [List.append_assoc]
        refine nl_not_mem_tbs_append ?_ d
        intro hmem
        rcases List.mem_append.1 hmem with h1 | h1
        · simp [nl] at h1
        · rcases List.mem_append.1 h1 with h2 | h2
          · exact hk h2
          · simp [nl] at h2
      · obtain ⟨x, hx, rfl⟩ := List.mem_map.1 hl
        exact nl_not_mem_tbs_append (hnn x hx) _
  | d, kname, .vlist its sl i a, hk, hleg => by
    intro l hl
    simp only [valueLinesD] at hl
    rcases List.mem_cons.1 hl with hl | hl
    · subst hl
      simp only [List.append_assoc]
      refine nl_not_mem_tbs_append ?_ d
      intro hmem
      rcases List.mem_append.1 hmem with h1 | h1
      · simp [nl] at h1
      · rcases List.mem_append.1 h1 with h2 | h2
        · exact hk h2
        · simp [nl] at h2
    · rcases List.mem_append.1 hl with hl | hl
      · exact commentLines_no_nl (by simp [nl]) i (d + 1) l hl
      · exact itemsLines_no_nl (d + 1) its (by simpa [legalValue] using hleg) l hl
  | d, kname, .vdict es sl i a, hk, hleg => by
    intro l hl
    simp only [valueLinesD] at hl
    rcases List.mem_cons.1 hl with hl | hl
    · subst hl
      simp only [List.append_assoc]
      refine nl_not_mem_tbs_append ?_ d
      intro hmem
      rcases List.mem_append.1 hmem with h1 | h1
      · simp [nl] at h1
      · rcases List.mem_append.1 h1 with h2 | h2
        · exact hk h2
        · simp [nl] at h2
    · rcases List.mem_append.1 hl with hl | hl
      · exact commentLines_no_nl (by simp [nl]) i (d + 1) l hl
      · refine entriesLines_no_nl (d + 1) es ?_ l hl
        have h := hleg
        simp only [legalValue, Bool.and_eq_true] at h
        exact h.2

theorem itemsLines_no_nl : ∀ (d : Nat) (its : List Value),
    legalItems its = true → ∀ l ∈ itemsLines d its, nl ∉ l
  | d, [], _ => by simp [itemsLines]
  | d, v :: rest, hleg => by
    have hsplit : legalValue v = true ∧ legalItems rest = true := by
      simpa [legalItems, Bool.and_eq_true] using hleg
    intro l hl
    simp only [itemsLines, List.append_assoc] at hl
    rcases List.mem_append.1 hl with hl | hl
    · exact valueLinesL_no_nl d v hsplit.1 l hl
    · rcases List.mem_append.1 hl with h2 | h2
      · exact commentLines_no_nl (by simp [nl]) v.commentAfter d l h2
      · exact itemsLines_no_nl d rest hsplit.2 l h2

theorem entriesLines_no_nl : ∀ (d : Nat) (es : List (KeyA × Value)),
    legalEntries es = true → ∀ l ∈ entriesLines d es, nl ∉ l
  | d, [], _ => by simp [entriesLines]
  | d, (k, v) :: rest, hleg => by
    obtain ⟨⟨hk, hv⟩, hrest⟩ : ((nl ∉ k.name) ∧ legalValue v = true) ∧
        legalEntries rest = true := by
      simpa [legalEntries, Bool.and_eq_true, decide_eq_true_eq] using hleg
    intro l hl
    simp only [entriesLines, List.append_assoc] at hl
    rcases List.mem_append.1 hl with h1 | h1
    · by_cases hbb : k.blankLineBefore = true
      · rw [if_pos hbb] at h1
        simp only [List.mem_singleton] at h1
        subst h1
        intro hm
        exact absurd (List.eq_of_mem_replicate hm) (by simp [nl, tab])
      · rw [if_neg hbb] at h1
        simp at h1
    · rcases List.mem_append.1 h1 with h2 | h2
      · exact commentLines_no_nl (by simp [nl]) k.commentBefore d l h2
      · rcases List.mem_append.1 h2 with h3 | h3
        · exact valueLinesD_no_nl d k.name v hk hv l h3
        · rcases List.mem_append.1 h3 with h4 | h4
          · exact commentLines_no_nl (by simp [nl]) v.commentAfter d l h4
          · exact entriesLines_no_nl d rest hrest l h4

end

theorem fileLines_no_nl (f : FileT) (hleg : legalFile f = true) :
    ∀ l ∈ fileLines f, nl ∉ l := by
  have hE : legalEntries f.entries = true := by
    have h := hleg
    simp only [legalFile, Bool.and_eq_true] at h
    exact h.2
  intro l hl
  simp only [fileLines, List.append_assoc] at hl
  rcases List.mem_append.1 hl with h1 | h1
  · exact commentLines_no_nl (by simp [nl]) f.hashbang 0 l h1
  · rcases List.mem_append.1 h1 with h2 | h2
    · exact commentLines_no_nl (by simp [nl]) f.commentIntro 0 l h2
    · exact entriesLines_no_nl 0 f.entries hE l h2

theorem okStream_all : ∀ {X : List Chunk}, (∀ l ∈ X, l ≠ []) → okStream X
  | [], _ => trivial
  | [l], h => h l (List.mem_singleton.2 rfl)
  | _ :: l2 :: rest, h =>
    @okStream_all (l2 :: rest) (fun x hx => h x (List.mem_cons_of_mem _ hx))

theorem okStream_append_right (X : List Chunk) {Y : List Chunk}
    (hne : Y ≠ []) (hok : okStream Y) : okStream (X ++ Y) := by
  induction X with
  | nil => simpa using hok
  | cons x xs ih =>
    show okStream (x :: (xs ++ Y))
    cases hxy : xs ++ Y with
    | nil =>
      exact absurd (List.append_eq_nil.1 hxy).2 hne
    | cons a b =>
      have h2 := ih
      rw [hxy] at h2
      exact h2

theorem append_ne_nil_right {Y : List Chunk} (X : List Chunk) (hY : Y ≠ []) :
    X ++ Y ≠ [] := by
  intro hc
  exact hY (List.append_eq_nil.1 hc).2

theorem commentLines_some_ne_nil (m : Chunk) (c : Comment) (d : Nat) :
    commentLines m (some c) d ≠ [] := by
  rw [commentLines_expose]
  simp

theorem commentLines_all_ne {m : Chunk} (hm : m ≠ []) (c : Option Comment)
    (d : Nat) : ∀ l ∈ commentLines m c d, l ≠ [] := by
  match c with
  | none => simp [commentLines]
  | some com =>
    simp only [commentLines]
    cases hn : normalize com.lines with
    | nil =>
      intro l hl
      simp only [List.mem_singleton] at hl
      subst hl
      simp [List.append_eq_nil, hm]
    | cons l0 r =>
      intro l hl
      rcases List.mem_cons.1 hl with hl | hl
      · subst hl
        simp [List.append_eq_nil, hm]
      · obtain ⟨x, hx, rfl⟩ := List.mem_map.1 hl
        simp [List.append_eq_nil, tbs]

mutual

theorem valueLinesD_all_ne : ∀ (d : Nat) (kname : Chunk) (v : Value),
    ∀ l ∈ valueLinesD d kname v, l ≠ []
  | d, kname, .text lines sl a => by
    intro l hl
    simp only [valueLinesD] at hl
    by_cases hs : shortDict kname (normalize lines) = true
    · rw [if_pos hs] at hl
      simp only [List.mem_singleton] at hl
      subst hl
      simp [List.append_eq_nil]
    · rw [if_neg hs] at hl
      rcases List.mem_cons.1 hl with hl | hl
      · subst hl
        simp [List.append_eq_nil]
      · obtain ⟨x, hx, rfl⟩ := List.mem_map.1 hl
        simp [List.append_eq_nil, tbs]
  | d, kname, .vlist its sl i a => by
    intro l hl
    simp only [valueLinesD] at hl
    rcases List.mem_cons.1 hl with hl | hl
    · subst hl
      simp [List.append_eq_nil]
    · rcases List.mem_append.1 hl with hl | hl
      · exact commentLines_all_ne (by simp) i (d + 1) l hl
      · exact itemsLines_all_ne (d + 1) (by omega) its l hl
  | d, kname, .vdict es sl i a => by
    intro l hl
    simp only [valueLinesD] at hl
    rcases List.mem_cons.1 hl with hl | hl
    · subst hl
      simp [List.append_eq_nil]
    · rcases List.mem_append.1 hl with hl | hl
      · exact commentLines_all_ne (by simp) i (d + 1) l hl
      · exact entriesLines_all_ne (d + 1) (by omega) es l hl

theorem valueLinesL_all_ne : ∀ (d : Nat), 1 ≤ d → ∀ (v : Value),
    ∀ l ∈ valueLinesL d v, l ≠ []
  | d, hd, .text lines sl a => by
    intro l hl
    simp only [valueLinesL] at hl
    by_cases hs : shortList (normalize lines) = true
    · rw [if_pos hs] at hl
      simp only [List.mem_singleton] at hl
      subst hl
      simp only [ne_eq, List.append_eq_nil, not_and]
      intro ht
      rw [show tbs d = [] ↔ d = 0 from by simp [tbs]] at ht
      omega
    · rw [if_neg hs] at hl
      rcases List.mem_cons.1 hl with hl | hl
      · subst hl
        simp [List.append_eq_nil]
      · obtain ⟨x, hx, rfl⟩ := List.mem_map.1 hl
        simp [List.append_eq_nil, tbs]
  | d, hd, .vlist its sl i a => by
    intro l hl
    simp only [valueLinesL] at hl
    rcases List.mem_cons.1 hl with hl | hl
    · subst hl
      simp [List.append_eq_nil]
    · rcases List.mem_append.1 hl with hl | hl
      · exact commentLines_all_ne (by simp) i (d + 1) l hl
      · exact itemsLines_all_ne (d + 1) (by omega) its l hl
  | d, hd, .vdict es sl i a => by
    intro l hl
    simp only [valueLinesL] at hl
    rcases List.mem_cons.1 hl with hl | hl
    · subst hl
      simp [List.append_eq_nil]
    · rcases List.mem_append.1 hl with hl | hl
      · exact commentLines_all_ne (by simp) i (d + 1) l hl
      · exact entriesLines_all_ne (d + 1) (by omega) es l hl

theorem itemsLines_all_ne : ∀ (d : Nat), 1 ≤ d → ∀ (its : List Value),
    ∀ l ∈ itemsLines d its, l ≠ []
  | d, hd, [] => by simp [itemsLines]
  | d, hd, v :: rest => by
    intro l hl
    simp only [itemsLines, List.append_assoc] at hl
    rcases List.mem_append.1 hl with hl | hl
    · exact valueLinesL_all_ne d hd v l hl
    · rcases List.mem_append.1 hl with h2 | h2
      · exact commentLines_all_ne (by simp) v.commentAfter d l h2
      · exact itemsLines_all_ne d hd rest l h2

theorem entriesLines_all_ne : ∀ (d : Nat), 1 ≤ d → ∀ (es : List (KeyA × Value)),
    ∀ l ∈ entriesLines d es, l ≠ []
  | d, hd, [] => by simp [entriesLines]
  | d, hd, (k, v) :: rest => by
    intro l hl
    simp only [entriesLines, List.append_assoc] at hl
    rcases List.mem_append.1 hl with h1 | h1
    · by_cases hbb : k.blankLineBefore = true
      · rw [if_pos hbb] at h1
        simp only [List.mem_singleton] at h1
        subst h1
        intro ht
        rw [show tbs d = [] ↔ d = 0 from by simp [tbs]] at ht
        omega
      · rw [if_neg hbb] at h1
        simp at h1
    · rcases List.mem_append.1 h1 with h2 | h2
      · exact commentLines_all_ne (by simp) k.commentBefore d l h2
      · rcases List.mem_append.1 h2 with h3 | h3
        · exact valueLinesD_all_ne d k.name v l h3
        · rcases List.mem_append.1 h3 with h4 | h4
          · exact commentLines_all_ne (by simp) v.commentAfter d l h4
          · exact entriesLines_all_ne d hd rest l h4

end

theorem entriesLines_cons_ne_nil (d : Nat) (k : KeyA) (v : Value)
    (rest : List (KeyA × Value)) :
    entriesLines d ((k, v) :: rest) ≠ [] := by
  obtain ⟨x, t, hexp, _⟩ := entriesLines_expose d k v rest
  rw [hexp]
  simp

/-- the top-level entry block never ends in an empty line: a top-level blank
line always precedes its entry. -/
theorem okStream_entriesLines0 : ∀ es : List (KeyA × Value),
    okStream (entriesLines 0 es)
  | [] => trivial
  | (k, v) :: rest => by
    have hvl := valueLinesD_all_ne 0 k.name v
    have hvlne := valueLinesD_ne_nil 0 k.name v
    cases rest with
    | cons e2 r2 =>
      have hok := okStream_entriesLines0 (e2 :: r2)
      have hne : entriesLines 0 (e2 :: r2) ≠ [] :=
        entriesLines_cons_ne_nil 0 e2.1 e2.2 r2
      have h0 : entriesLines 0 ((k, v) :: e2 :: r2) =
          ((if k.blankLineBefore = true then [tbs 0] else []) ++
            commentLines [47, 47] k.commentBefore 0 ++
            valueLinesD 0 k.name v ++ commentLines [35] v.commentAfter 0) ++
          entriesLines 0 (e2 :: r2) := rfl
      rw [h0]
      exact okStream_append_right _ hne hok
    | nil =>
      cases hca : v.commentAfter with
      | some c =>
        have h0 : entriesLines 0 [(k, v)] =
            ((if k.blankLineBefore = true then [tbs 0] else []) ++
              commentLines [47, 47] k.commentBefore 0 ++
              valueLinesD 0 k.name v) ++ commentLines [35] v.commentAfter 0 := by
          show ((if k.blankLineBefore = true then [tbs 0] else []) ++
              commentLines [47, 47] k.commentBefore 0 ++
              valueLinesD 0 k.name v ++ commentLines [35] v.commentAfter 0) ++
              entriesLines 0 [] = _
          show (((if k.blankLineBefore = true then [tbs 0] else []) ++
              commentLines [47, 47] k.commentBefore 0 ++
              valueLinesD 0 k.name v ++ commentLines [35] v.commentAfter 0) ++
              [] : List Chunk) = _
          simp [List.append_assoc]
        rw [h0, hca]
        exact okStream_append_right _ (commentLines_some_ne_nil [35] c 0)
          (okStream_all (commentLines_all_ne (by simp) (some c) 0))
      | none =>
        have h0 : entriesLines 0 [(k, v)] =
            ((if k.blankLineBefore = true then [tbs 0] else []) ++
              commentLines [47, 47] k.commentBefore 0) ++
            valueLinesD 0 k.name v := by
          show ((if k.blankLineBefore = true then [tbs 0] else []) ++
              commentLines [47, 47] k.commentBefore 0 ++
              valueLinesD 0 k.name v ++ commentLines [35] v.commentAfter 0) ++
              entriesLines 0 [] = _
          rw [hca]
          show (((if k.blankLineBefore = true then [tbs 0] else []) ++
              commentLines [47, 47] k.commentBefore 0 ++
              valueLinesD 0 k.name v ++ commentLines [35] none 0) ++
              [] : List Chunk) = _
          simp [commentLines_none, List.append_assoc]
        rw [h0]
        exact okStream_append_right _ hvlne (okStream_all hvl)

theorem okStream_fileLines (f : FileT) : okStream (fileLines f) := by
  have h0 : fileLines f =
      (commentLines [35, 33] f.hashbang 0 ++ commentLines [35] f.commentIntro 0) ++
      entriesLines 0 f.entries := rfl
  rw [h0]
  cases hes : f.entries with
  | cons e r =>
    exact okStream_append_right _ (entriesLines_cons_ne_nil 0 e.1 e.2 r)
      (okStream_entriesLines0 (e :: r))
  | nil =>
    rw [show entriesLines 0 ([] : List (KeyA × Value)) = [] from rfl,
      List.append_nil]
    cases hci : f.commentIntro with
    | some c =>
      exact okStream_append_right _ (commentLines_some_ne_nil [35] c 0)
        (okStream_all (commentLines_all_ne (by simp) (some c) 0))
    | none =>
      rw [show commentLines [35] (none : Option Comment) 0 = [] from rfl,
        List.append_nil]
      exact okStream_all (commentLines_all_ne (by simp) f.hashbang 0)

/-! ### The very first `_readln` of `decode` -/

theorem readln_init {input l : Chunk} {lns : List Chunk}
    (hinput : input = l ++ linesBytes lns)
    (hnl : nl ∉ l) (hlns : ∀ x ∈ lns, nl ∉ x) (hok : okStream (l :: lns)) :
    At (readln (decodeInit input)).1 l lns ∧
    (readln (decodeInit input)).1.errors = [] ∧
    (readln (decodeInit input)).1.parse = input := by
  have hne : l ≠ [] ∨ lns ≠ [] := okStream_head hok
  have hDne : l ++ linesBytes lns ≠ [] := by
    cases hne with
    | inl h1 => cases l with
      | nil => exact absurd rfl h1
      | cons a b => simp
    | inr h2 => cases lns with
      | nil => exact absurd rfl h2
      | cons x xs => rw [linesBytes_cons]; simp
  have hlen : 0 < input.length := by
    rw [hinput]
    cases hq : l ++ linesBytes lns with
    | nil => exact absurd hq hDne
    | cons a b => simp
  have hT := countTabsFrom_le l
  have hdrop : input.drop 0 = l ++ linesBytes lns := by
    rw [List.drop_zero, hinput]
  have hdrop2 : input.drop (0 + countTabsFrom l) =
      l.drop (countTabsFrom l) ++ linesBytes lns := by
    rw [show 0 + countTabsFrom l = countTabsFrom l from by omega, hinput,
      List.drop_append_of_le_length hT]
  simp only [readln, decodeInit]
  rw [if_neg (by omega)]
  simp only [hdrop, countTabsFrom_append_lb]
  rw [hdrop2]
  rw [scanEol_append_lb (fun hm => hnl (List.mem_of_mem_drop hm)) lns]
  have hfin1 : (scanEol (l.drop (countTabsFrom l)) (countTabsFrom l) (-1)).1 =
      l.length := by
    rw [scanEol_full (fun hm => hnl (List.mem_of_mem_drop hm))]
    simp
    omega
  refine ⟨?_, trivial, trivial⟩
  refine ⟨?_, ?_, ?_, rfl, ?_, by simp, hnl, hlns, okStream_tail hok⟩
  · simp only [hfin1, hdrop]
    exact List.take_left l (linesBytes lns)
  · simp [hfin1]
  · simp [hfin1, lineAssign, hinput]
  · simp only [hfin1]
    rw [show 0 + l.length + 1 = l.length + 1 by omega]
    rw [hinput]
    cases lns with
    | nil =>
      rw [linesBytes_nil]
      simp [List.drop_eq_nil_of_le]
    | cons x xs =>
      rw [linesBytes_cons]
      rw [show (l ++ nl :: (x ++ linesBytes xs)).drop (l.length + 1) =
        ((l ++ [nl]) ++ (x ++ linesBytes xs)).drop ((l ++ [nl]).length) by simp]
      rw [List.drop_left]
      simp

/-! ### The decoder on an encoded file -/

theorem body_glue (es : List (KeyA × Value)) (intro : Option Comment)
    (s2 : DSt) (hleg : legalEntries es = true)
    (hnd : (es.map (fun e => e.1.name)).Nodup)
    (hS : AtStream s2 (commentLines [35] intro 0 ++ entriesLines 0 es)) :
    ∃ (F : Nat) (intro2 : Option Comment) (es2 : List (KeyA × Value)) (sF : DSt),
      (∀ fuel, F ≤ fuel → readDictBodyF fuel 0 s2 = some (intro2, es2, sF)) ∧
      stripOC intro2 = canonOC intro ∧
      stripEntries es2 = canonEntries es ∧
      sF.errors = s2.errors := by
  have hS2 : AtStream s2
      (commentLines [35] intro 0 ++ (entriesLines 0 es ++ [])) := by
    rw [List.append_nil]
    exact hS
  obtain ⟨F, intro2, es2, sF, heq, hintro, hstrip, _, herr, _⟩ :=
    sim_dictBody es intro 0 s2 [] hleg hnd hS2 trivial
  exact ⟨F, intro2, es2, sF, heq, hintro, hstrip, herr⟩

/-- master simulation: on the bytes `encode f` of a legal tree the decoder
finishes with no diagnostics, rebuilding exactly the canonical tree. -/
theorem decode_canon (f : FileT) (hleg : legalFile f = true) :
    ∃ (F : Nat) (T2 : FileT),
      (∀ fuel, F ≤ fuel → decodeF fuel (encode f) = some (T2, [])) ∧
      stripFile T2 = canonFile f := by
  have hnd : (f.entries.map (fun e => e.1.name)).Nodup := by
    have h := hleg
    simp only [legalFile, Bool.and_eq_true, decide_eq_true_eq] at h
    exact h.1
  have hlegE : legalEntries f.entries = true := by
    have h := hleg
    simp only [legalFile, Bool.and_eq_true] at h
    exact h.2
  have hall : ∀ x ∈ fileLines f, nl ∉ x := fileLines_no_nl f hleg
  have hokf : okStream (fileLines f) := okStream_fileLines f
  cases hh : f.hashbang with
  | some c =>
    obtain ⟨M, T, hMeq⟩ : ∃ M T, commentLines [35, 33] (some c) 0 =
        (tbs 0 ++ (35 :: 33 :: M)) :: T := by
      rw [commentLines_expose]
      exact ⟨_, _, rfl⟩
    have hfl : fileLines f = (tbs 0 ++ (35 :: 33 :: M)) ::
        (T ++ (commentLines [35] f.commentIntro 0 ++
          entriesLines 0 f.entries)) := by
      have h1 : fileLines f = commentLines [35, 33] f.hashbang 0 ++
          (commentLines [35] f.commentIntro 0 ++ entriesLines 0 f.entries) := by
        rw [show fileLines f = (commentLines [35, 33] f.hashbang 0 ++
          commentLines [35] f.commentIntro 0) ++ entriesLines 0 f.entries
          from rfl, List.append_assoc]
      rw [h1, hh, hMeq, List.cons_append]
    rw [hfl] at hall hokf
    have henc : encode f = (tbs 0 ++ (35 :: 33 :: M)) ++
        linesBytes (T ++ (commentLines [35] f.commentIntro 0 ++
          entriesLines 0 f.entries)) := by
      rw [encode_eq_fileLines, hfl, linesBytes_cons]
      simp
    obtain ⟨hAt1, herr1, hpar1⟩ := readln_init henc
      (hall _ (List.mem_cons_self _ _))
      (fun x hx => hall x (List.mem_cons_of_mem _ hx)) hokf
    have hline1 : (readln (decodeInit (encode f))).1.line =
        tbs 0 ++ (35 :: 33 :: M) := hAt1.1
    have hbchk : (readln (decodeInit (encode f))).1.line.length > 1 ∧
        (readln (decodeInit (encode f))).1.line.getD 0 0 = 35 ∧
        (readln (decodeInit (encode f))).1.line.getD 1 0 = 33 := by
      rw [hline1]
      refine ⟨?_, ?_, ?_⟩
      · rw [length_tbs_append]
        have h2 : (35 :: 33 :: M : Chunk).length = M.length + 2 := by simp
        omega
      · rw [getD_tbs_append]
        rfl
      · have h3 := getD_tbs_append_at 0 1 (35 :: 33 :: M)
        simpa using h3
    have hS1cl : AtStream (readln (decodeInit (encode f))).1
        (commentLines [35, 33] (some c) 0 ++
          (commentLines [35] f.commentIntro 0 ++ entriesLines 0 f.entries)) := by
      rw [hMeq, List.cons_append]
      exact hAt1
    have hlowB : headLow 0 (commentLines [35] f.commentIntro 0 ++
        entriesLines 0 f.entries) :=
      headLow_append2 (commentLines_headLow (by simp [tab]) _ _)
        (fun _ => (entriesLines_head 0 f.entries).1)
    obtain ⟨sC, hCeq, hCS, hCerr, hCpar, _⟩ :=
      comment_sim 0 [35, 33] c hS1cl hlowB
    have hCeq2 : readComment 0 2 (readln (decodeInit (encode f))).1 =
        (canonCAt c (readln (decodeInit (encode f))).1.count, sC) := hCeq
    obtain ⟨FB, intro2, es2, sF, hBeq, hBintro, hBstrip, hBerr⟩ :=
      body_glue f.entries f.commentIntro sC hlegE hnd hCS
    refine ⟨FB, FileT.mk es2
      (some (canonCAt c (readln (decodeInit (encode f))).1.count)) intro2,
      ?_, ?_⟩
    · intro fuel hf
      simp only [decodeF, if_pos hbchk, hCeq2, hBeq fuel hf, hBerr, hCerr,
        herr1]
    · have hcf : canonFile f = FileT.mk (canonEntries f.entries)
          (some (canonC c)) (canonOC f.commentIntro) := by
        simp [canonFile, hh]
      rw [hcf]
      show FileT.mk (stripEntries es2)
        (stripOC (some (canonCAt c (readln (decodeInit (encode f))).1.count)))
        (stripOC intro2) = _
      rw [hBstrip, hBintro, stripOC_some_canonCAt]
      rfl
  | none =>
    cases hci : f.commentIntro with
    | none =>
      cases hes : f.entries with
      | nil =>
        have hencnil : encode f = [] := by
          rw [encode_eq_fileLines]
          rw [show fileLines f = (commentLines [35, 33] f.hashbang 0 ++
            commentLines [35] f.commentIntro 0) ++ entriesLines 0 f.entries
            from rfl, hh, hci, hes]
          rfl
        refine ⟨1, FileT.mk [] none none, ?_, ?_⟩
        · intro fuel hf
          obtain ⟨m, rfl⟩ : ∃ m, fuel = m + 1 := ⟨fuel - 1, by omega⟩
          rw [hencnil]
          rfl
        · have hcf : canonFile f = FileT.mk (canonEntries f.entries)
              none none := by
            simp [canonFile, hh, hci]
          rw [hcf, hes]
          rfl
      | cons e r =>
        obtain ⟨k, v⟩ := e
        obtain ⟨x, t, hexp, hx⟩ := entriesLines_expose 0 k v r
        have hfl : fileLines f = (tbs 0 ++ x) :: t := by
          rw [show fileLines f = (commentLines [35, 33] f.hashbang 0 ++
            commentLines [35] f.commentIntro 0) ++ entriesLines 0 f.entries
            from rfl, hh, hci, hes, hexp]
          rfl
        rw [hfl] at hall hokf
        have henc : encode f = (tbs 0 ++ x) ++ linesBytes t := by
          rw [encode_eq_fileLines, hfl, linesBytes_cons]
          simp
        obtain ⟨hAt1, herr1, hpar1⟩ := readln_init henc
          (hall _ (List.mem_cons_self _ _))
          (fun y hy => hall y (List.mem_cons_of_mem _ hy)) hokf
        have hline1 : (readln (decodeInit (encode f))).1.line = tbs 0 ++ x :=
          hAt1.1
        have hnbchk : ¬ ((readln (decodeInit (encode f))).1.line.length > 1 ∧
            (readln (decodeInit (encode f))).1.line.getD 0 0 = 35 ∧
            (readln (decodeInit (encode f))).1.line.getD 1 0 = 33) := by
          rw [hline1]
          intro hc
          cases hx with
          | inl hxe =>
            subst hxe
            have h1 := hc.1
            simp [tbs] at h1
          | inr hxn =>
            have h2 := hc.2.1
            rw [getD_tbs_append] at h2
            exact hxn.2 h2
        have hS1b : AtStream (readln (decodeInit (encode f))).1
            (commentLines [35] none 0 ++ entriesLines 0 f.entries) := by
          simp only [commentLines_none, List.nil_append]
          rw [hes, hexp]
          exact hAt1
        obtain ⟨FB, intro2, es2, sF, hBeq, hBintro, hBstrip, hBerr⟩ :=
          body_glue f.entries none (readln (decodeInit (encode f))).1
            hlegE hnd hS1b
        refine ⟨FB, FileT.mk es2 none intro2, ?_, ?_⟩
        · intro fuel hf
          simp only [decodeF, if_neg hnbchk, hBeq fuel hf, hBerr, herr1]
        · have hcf : canonFile f = FileT.mk (canonEntries f.entries)
              none none := by
            simp [canonFile, hh, hci]
          rw [hcf]
          show FileT.mk (stripEntries es2) none (stripOC intro2) = _
          rw [hBstrip, hBintro]
          rfl
    | some c =>
      cases hn : normalize c.lines with
      | nil =>
        have hclC : commentLines [35] (some c) 0 = [tbs 0 ++ [35]] := by
          simp only [commentLines, hn]
        have hfl : fileLines f = (tbs 0 ++ [35]) :: entriesLines 0 f.entries := by
          rw [show fileLines f = (commentLines [35, 33] f.hashbang 0 ++
            commentLines [35] f.commentIntro 0) ++ entriesLines 0 f.entries
            from rfl, hh, hci, hclC]
          rfl
        rw [hfl] at hall hokf
        have henc : encode f = (tbs 0 ++ [35]) ++
            linesBytes (entriesLines 0 f.entries) := by
          rw [encode_eq_fileLines, hfl, linesBytes_cons]
          simp
        obtain ⟨hAt1, herr1, hpar1⟩ := readln_init henc
          (hall _ (List.mem_cons_self _ _))
          (fun y hy => hall y (List.mem_cons_of_mem _ hy)) hokf
        have hline1 : (readln (decodeInit (encode f))).1.line = tbs 0 ++ [35] :=
          hAt1.1
        have hnbchk : ¬ ((readln (decodeInit (encode f))).1.line.length > 1 ∧
            (readln (decodeInit (encode f))).1.line.getD 0 0 = 35 ∧
            (readln (decodeInit (encode f))).1.line.getD 1 0 = 33) := by
          rw [hline1]
          intro hc
          have h1 := hc.1
          rw [length_tbs_append] at h1
          simp at h1
        have hS1b : AtStream (readln (decodeInit (encode f))).1
            (commentLines [35] (some c) 0 ++ entriesLines 0 f.entries) := by
          rw [hclC]
          exact hAt1
        obtain ⟨FB, intro2, es2, sF, hBeq, hBintro, hBstrip, hBerr⟩ :=
          body_glue f.entries (some c) (readln (decodeInit (encode f))).1
            hlegE hnd hS1b
        refine ⟨FB, FileT.mk es2 none intro2, ?_, ?_⟩
        · intro fuel hf
          simp only [decodeF, if_neg hnbchk, hBeq fuel hf, hBerr, herr1]
        · have hcf : canonFile f = FileT.mk (canonEntries f.entries) none
              (some (Comment.mk [[]] 0)) := by
            simp [canonFile, hh, hci, hn]
          rw [hcf]
          show FileT.mk (stripEntries es2) none (stripOC intro2) = _
          rw [hBstrip, hBintro]
          simp [canonOC, canonC, hn]
      | cons l0 r0 =>
        by_cases hbang : l0.getD 0 0 = 33 ∧ l0 ≠ []
        · obtain ⟨b0, l0p, rfl⟩ : ∃ b0 l0p, l0 = b0 :: l0p := by
            cases l0 with
            | nil => exact absurd rfl hbang.2
            | cons a b => exact ⟨a, b, rfl⟩
          have hb33 : b0 = 33 := by simpa using hbang.1
          subst hb33
          have hclC : commentLines [35] (some c) 0 =
              (tbs 0 ++ (35 :: 33 :: l0p)) ::
              r0.map (fun l => tbs (0 + 1) ++ l) := by
            simp only [commentLines, hn, List.append_assoc,
              List.singleton_append]
          have hfl : fileLines f = (tbs 0 ++ (35 :: 33 :: l0p)) ::
              (r0.map (fun l => tbs (0 + 1) ++ l) ++
                entriesLines 0 f.entries) := by
            rw [show fileLines f = (commentLines [35, 33] f.hashbang 0 ++
              commentLines [35] f.commentIntro 0) ++ entriesLines 0 f.entries
              from rfl, hh, hci, hclC]
            rfl
          rw [hfl] at hall hokf
          have henc : encode f = (tbs 0 ++ (35 :: 33 :: l0p)) ++
              linesBytes (r0.map (fun l => tbs (0 + 1) ++ l) ++
                entriesLines 0 f.entries) := by
            rw [encode_eq_fileLines, hfl, linesBytes_cons]
            simp
          obtain ⟨hAt1, herr1, hpar1⟩ := readln_init henc
            (hall _ (List.mem_cons_self _ _))
            (fun y hy => hall y (List.mem_cons_of_mem _ hy)) hokf
          have hline1 : (readln (decodeInit (encode f))).1.line =
              tbs 0 ++ (35 :: 33 :: l0p) := hAt1.1
          have hbchk : (readln (decodeInit (encode f))).1.line.length > 1 ∧
              (readln (decodeInit (encode f))).1.line.getD 0 0 = 35 ∧
              (readln (decodeInit (encode f))).1.line.getD 1 0 = 33 := by
            rw [hline1]
            refine ⟨?_, ?_, ?_⟩
            · rw [length_tbs_append]
              have h2 : (35 :: 33 :: l0p : Chunk).length = l0p.length + 2 := by
                simp
              omega
            · rw [getD_tbs_append]
              rfl
            · have h3 := getD_tbs_append_at 0 1 (35 :: 33 :: l0p)
              simpa using h3
          obtain ⟨sC, hCeq, hCS, hCerr, hCpar, _⟩ :=
            readComment_sim 0 2 (r0.map (fun l => tbs (0 + 1) ++ l)) hAt1
              (fun l hl => by
                obtain ⟨y, _, hy⟩ := List.mem_map.1 hl
                rw [← hy, countTabsFrom_tbs_append]
                omega)
              ((entriesLines_head 0 f.entries).1)
          have hdropC : (tbs 0 ++ (35 :: 33 :: l0p)).drop 2 = l0p := by
            have h := drop_tbs_append_at 0 2 (35 :: 33 :: l0p)
            simpa using h
          rw [hdropC, map_drop_tbs] at hCeq
          obtain ⟨FB, intro2, es2, sF, hBeq, hBintro, hBstrip, hBerr⟩ :=
            body_glue f.entries none sC hlegE hnd hCS
          refine ⟨FB, FileT.mk es2 (some (Comment.mk (l0p :: r0)
            (readln (decodeInit (encode f))).1.count)) intro2, ?_, ?_⟩
          · intro fuel hf
            simp only [decodeF, if_pos hbchk, hCeq, hBeq fuel hf, hBerr,
              hCerr, herr1]
          · have hcf : canonFile f = FileT.mk (canonEntries f.entries)
                (some (Comment.mk (l0p :: r0) 0)) none := by
              simp [canonFile, hh, hci, hn]
            rw [hcf]
            show FileT.mk (stripEntries es2)
              (stripOC (some (Comment.mk (l0p :: r0)
                (readln (decodeInit (encode f))).1.count))) (stripOC intro2) = _
            rw [hBstrip, hBintro]
            rfl
        · have hclC : commentLines [35] (some c) 0 =
              (tbs 0 ++ (35 :: l0)) :: r0.map (fun l => tbs (0 + 1) ++ l) := by
            simp only [commentLines, hn, List.append_assoc,
              List.singleton_append]
          have hfl : fileLines f = (tbs 0 ++ (35 :: l0)) ::
              (r0.map (fun l => tbs (0 + 1) ++ l) ++
                entriesLines 0 f.entries) := by
            rw [show fileLines f = (commentLines [35, 33] f.hashbang 0 ++
              commentLines [35] f.commentIntro 0) ++ entriesLines 0 f.entries
              from rfl, hh, hci, hclC]
            rfl
          rw [hfl] at hall hokf
          have henc : encode f = (tbs 0 ++ (35 :: l0)) ++
              linesBytes (r0.map (fun l => tbs (0 + 1) ++ l) ++
                entriesLines 0 f.entries) := by
            rw [encode_eq_fileLines, hfl, linesBytes_cons]
            simp
          obtain ⟨hAt1, herr1, hpar1⟩ := readln_init henc
            (hall _ (List.mem_cons_self _ _))
            (fun y hy => hall y (List.mem_cons_of_mem _ hy)) hokf
          have hline1 : (readln (decodeInit (encode f))).1.line =
              tbs 0 ++ (35 :: l0) := hAt1.1
          have hnbchk : ¬ ((readln (decodeInit (encode f))).1.line.length > 1 ∧
              (readln (decodeInit (encode f))).1.line.getD 0 0 = 35 ∧
              (readln (decodeInit (encode f))).1.line.getD 1 0 = 33) := by
            rw [hline1]
            intro hc
            refine hbang ⟨?_, ?_⟩
            · have h2 := hc.2.2
              have h3 := getD_tbs_append_at 0 1 (35 :: l0)
              rw [show (0 : Nat) + 1 = 1 from rfl] at h3
              rw [h3] at h2
              simpa using h2
            · intro hl0
              subst hl0
              have h1 := hc.1
              rw [length_tbs_append] at h1
              simp at h1
          have hS1b : AtStream (readln (decodeInit (encode f))).1
              (commentLines [35] (some c) 0 ++ entriesLines 0 f.entries) := by
            rw [hclC, List.cons_append]
            exact hAt1
          obtain ⟨FB, intro2, es2, sF, hBeq, hBintro, hBstrip, hBerr⟩ :=
            body_glue f.entries (some c) (readln (decodeInit (encode f))).1
              hlegE hnd hS1b
          refine ⟨FB, FileT.mk es2 none intro2, ?_, ?_⟩
          · intro fuel hf
            simp only [decodeF, if_neg hnbchk, hBeq fuel hf, hBerr, herr1]
          · have hcf : canonFile f = FileT.mk (canonEntries f.entries) none
                (some (Comment.mk (l0 :: r0) 0)) := by
              simp only [canonFile, hh, hci, hn]
              rw [if_neg hbang]
            rw [hcf]
            show FileT.mk (stripEntries es2) none (stripOC intro2) = _
            rw [hBstrip, hBintro]
            simp [canonOC, canonC, hn]


/-! ### The emitted lines ignore starting lines and survive canonicalization -/

theorem normalize_nil : normalize ([] : Seq) = [] := rfl

theorem normalize_one_empty : normalize ([[]] : Seq) = [] := rfl

theorem commentLines_stripOC (m : Chunk) (c : Option Comment) (d : Nat) :
    commentLines m (stripOC c) d = commentLines m c d := by
  cases c with
  | none => rfl
  | some c2 => rfl

theorem normalize_canonC (c : Comment) :
    normalize (canonC c).lines = normalize c.lines := by
  show normalize (if normalize c.lines = [] then [[]] else normalize c.lines) =
    normalize c.lines
  cases hn : normalize c.lines with
  | nil =>
    rw [if_pos rfl]
    exact normalize_one_empty
  | cons l0 r =>
    rw [if_neg (by simp)]
    have h := normalize_idem c.lines
    rw [hn] at h
    exact h

theorem commentLines_canonOC (m : Chunk) (c : Option Comment) (d : Nat) :
    commentLines m (canonOC c) d = commentLines m c d := by
  cases c with
  | none => rfl
  | some c2 =>
    show commentLines m (some (canonC c2)) d = commentLines m (some c2) d
    simp only [commentLines]
    rw [normalize_canonC]

theorem stripValue_commentAfter (v : Value) :
    (stripValue v).commentAfter = stripOC v.commentAfter := by
  cases v <;> rfl

theorem canonValueL_commentAfter (v : Value) :
    (canonValueL v).commentAfter = canonOC v.commentAfter := by
  cases v <;> rfl

theorem canonValueD_commentAfter (kname : Chunk) (v : Value) :
    (canonValueD kname v).commentAfter = canonOC v.commentAfter := by
  cases v <;> rfl

mutual

theorem valueLinesL_strip : ∀ (d : Nat) (v : Value),
    valueLinesL d (stripValue v) = valueLinesL d v
  | _, .text _ _ _ => rfl
  | d, .vlist its _ i _ => by
    simp only [stripValue, valueLinesL]
    rw [commentLines_stripOC, itemsLines_strip (d + 1) its]
  | d, .vdict es _ i _ => by
    simp only [stripValue, valueLinesL]
    rw [commentLines_stripOC, entriesLines_strip (d + 1) es]

theorem valueLinesD_strip : ∀ (d : Nat) (kname : Chunk) (v : Value),
    valueLinesD d kname (stripValue v) = valueLinesD d kname v
  | _, _, .text _ _ _ => rfl
  | d, kname, .vlist its _ i _ => by
    simp only [stripValue, valueLinesD]
    rw [commentLines_stripOC, itemsLines_strip (d + 1) its]
  | d, kname, .vdict es _ i _ => by
    simp only [stripValue, valueLinesD]
    rw [commentLines_stripOC, entriesLines_strip (d + 1) es]

theorem itemsLines_strip : ∀ (d : Nat) (its : List Value),
    itemsLines d (stripItems its) = itemsLines d its
  | _, [] => rfl
  | d, v :: rest => by
    simp only [stripItems, itemsLines]
    rw [valueLinesL_strip d v, stripValue_commentAfter, commentLines_stripOC,
      itemsLines_strip d rest]

theorem entriesLines_strip : ∀ (d : Nat) (es : List (KeyA × Value)),
    entriesLines d (stripEntries es) = entriesLines d es
  | _, [] => rfl
  | d, (k, v) :: rest => by
    simp only [stripEntries, entriesLines]
    rw [commentLines_stripOC, valueLinesD_strip d k.name v,
      stripValue_commentAfter, commentLines_stripOC, entriesLines_strip d rest]

end

theorem fileLines_stripFile (f : FileT) :
    fileLines (stripFile f) = fileLines f := by
  simp only [fileLines, stripFile]
  rw [commentLines_stripOC, commentLines_stripOC, entriesLines_strip]

theorem normalize_canon_textD (kname : Chunk) (l : Seq) :
    normalize (if normalize l = [] then
      (if shortDict kname [] then [[]] else []) else normalize l) =
    normalize l := by
  cases hn : normalize l with
  | nil =>
    rw [if_pos rfl]
    by_cases hs : shortDict kname [] = true
    · rw [if_pos hs]
      exact normalize_one_empty
    · rw [if_neg hs]
      exact normalize_nil
  | cons x y =>
    rw [if_neg (by simp)]
    have h := normalize_idem l
    rw [hn] at h
    exact h

mutual

theorem valueLinesL_canon : ∀ (d : Nat) (v : Value),
    valueLinesL d (canonValueL v) = valueLinesL d v
  | d, .text l _ a => by
    simp only [canonValueL, valueLinesL]
    rw [normalize_idem]
  | d, .vlist its _ i _ => by
    simp only [canonValueL, valueLinesL]
    rw [commentLines_canonOC, itemsLines_canon (d + 1) its]
  | d, .vdict es _ i _ => by
    simp only [canonValueL, valueLinesL]
    rw [commentLines_canonOC, entriesLines_canon (d + 1) es]

theorem valueLinesD_canon : ∀ (d : Nat) (kname : Chunk) (v : Value),
    valueLinesD d kname (canonValueD kname v) = valueLinesD d kname v
  | d, kname, .text l _ a => by
    simp only [canonValueD, valueLinesD]
    rw [normalize_canon_textD kname l]
  | d, kname, .vlist its _ i _ => by
    simp only [canonValueD, valueLinesD]
    rw [commentLines_canonOC, itemsLines_canon (d + 1) its]
  | d, kname, .vdict es _ i _ => by
    simp only [canonValueD, valueLinesD]
    rw [commentLines_canonOC, entriesLines_canon (d + 1) es]

theorem itemsLines_canon : ∀ (d : Nat) (its : List Value),
    itemsLines d (canonItems its) = itemsLines d its
  | _, [] => rfl
  | d, v :: rest => by
    simp only [canonItems, itemsLines]
    rw [valueLinesL_canon d v, canonValueL_commentAfter, commentLines_canonOC,
      itemsLines_canon d rest]

theorem entriesLines_canon : ∀ (d : Nat) (es : List (KeyA × Value)),
    entriesLines d (canonEntries es) = entriesLines d es
  | _, [] => rfl
  | d, (k, v) :: rest => by
    simp only [canonEntries, entriesLines]
    rw [commentLines_canonOC, valueLinesD_canon d k.name v,
      canonValueD_commentAfter, commentLines_canonOC, entriesLines_canon d rest]

end

/-- the canonical tree renders to the very same lines the original tree did:
canonicalization only replaces each piece by the representative its bytes
already denote. -/
theorem fileLines_canonFile (f : FileT) :
    fileLines (canonFile f) = fileLines f := by
  cases hh : f.hashbang with
  | some c =>
    have h1 : canonFile f = FileT.mk (canonEntries f.entries) (some (canonC c))
        (canonOC f.commentIntro) := by
      simp only [canonFile, hh]
    rw [h1]
    simp only [fileLines, hh]
    have hc1 : commentLines [35, 33] (some (canonC c)) 0 =
        commentLines [35, 33] (some c) 0 := commentLines_canonOC [35, 33] (some c) 0
    rw [hc1, commentLines_canonOC, entriesLines_canon]
  | none =>
    cases hci : f.commentIntro with
    | none =>
      have h1 : canonFile f = FileT.mk (canonEntries f.entries) none none := by
        simp only [canonFile, hh, hci]
      rw [h1]
      simp only [fileLines, hh, hci]
      rw [entriesLines_canon]
    | some c =>
      cases hn : normalize c.lines with
      | nil =>
        have h1 : canonFile f = FileT.mk (canonEntries f.entries) none
            (some (Comment.mk [[]] 0)) := by
          simp only [canonFile, hh, hci, hn]
        rw [h1]
        simp only [fileLines, hh, hci]
        rw [entriesLines_canon]
        have h2 : commentLines [35] (some (Comment.mk [[]] 0)) 0 =
            [tbs 0 ++ [35]] := rfl
        have h3 : commentLines [35] (some c) 0 = [tbs 0 ++ [35]] := by
          simp only [commentLines, hn]
        rw [h2, h3]
      | cons l0 r =>
        have hnlr : ∀ x ∈ l0 :: r, nl ∉ x := by
          have h := normalize_no_nl c.lines
          rw [hn] at h
          exact h
        by_cases hbang : l0.getD 0 0 = 33 ∧ l0 ≠ []
        · obtain ⟨t, ht⟩ : ∃ t, l0 = 33 :: t := by
            cases hl0 : l0 with
            | nil => exact absurd hl0 hbang.2
            | cons b t =>
              refine ⟨t, ?_⟩
              have hb : b = 33 := by
                have := hbang.1
                rw [hl0] at this
                simpa using this
              rw [hb]
          have hdrop1 : l0.drop 1 = t := by
            rw [ht]
            rfl
          have h1 : canonFile f = FileT.mk (canonEntries f.entries)
              (some (Comment.mk (t :: r) 0)) none := by
            simp only [canonFile, hh, hci, hn]
            rw [if_pos hbang, hdrop1]
          rw [h1]
          simp only [fileLines, hh, hci]
          rw [entriesLines_canon]
          have hclI : commentLines [35] (some c) 0 =
              (tbs 0 ++ [35] ++ l0) :: r.map (fun x => tbs (0 + 1) ++ x) := by
            simp only [commentLines, hn]
          rw [hclI, ht]
          by_cases hte : (t :: r : Seq) = [[]]
          · have ht2 : t = [] ∧ r = [] := by
              constructor
              · exact (List.cons_eq_cons.1 hte).1
              · exact (List.cons_eq_cons.1 hte).2
            have hclH : commentLines [35, 33] (some (Comment.mk (t :: r) 0)) 0 =
                [tbs 0 ++ [35, 33]] := by
              simp only [commentLines]
              rw [show normalize (t :: r) = [] from by rw [hte]; rfl]
            rw [hclH, ht2.1, ht2.2]
            simp [tbs, commentLines_none]
          · have hnt : normalize (t :: r) = t :: r := by
              refine normalize_of_no_nl hte ?_
              intro x hx
              rcases List.mem_cons.1 hx with hx | hx
              · subst hx
                have h33 := hnlr l0 (List.mem_cons_self _ _)
                rw [ht] at h33
                intro hmem
                exact h33 (List.mem_cons_of_mem 33 hmem)
              · exact hnlr x (List.mem_cons_of_mem _ hx)
            have hclH : commentLines [35, 33] (some (Comment.mk (t :: r) 0)) 0 =
                (tbs 0 ++ [35, 33] ++ t) :: r.map (fun x => tbs (0 + 1) ++ x) := by
              simp only [commentLines, hnt]
            rw [hclH]
            simp [commentLines_none]
        · have h1 : canonFile f = FileT.mk (canonEntries f.entries) none
              (some (Comment.mk (l0 :: r) 0)) := by
            simp only [canonFile, hh, hci, hn]
            rw [if_neg hbang]
          rw [h1]
          simp only [fileLines, hh, hci]
          rw [entriesLines_canon]
          have hnn : (l0 :: r : Seq) ≠ [[]] := by
            intro he
            have := normalize_ne_singleton_nil c.lines
            rw [hn] at this
            exact this he
          have hnt : normalize (l0 :: r) = l0 :: r := normalize_of_no_nl hnn hnlr
          have hclH : commentLines [35] (some (Comment.mk (l0 :: r) 0)) 0 =
              (tbs 0 ++ [35] ++ l0) :: r.map (fun x => tbs (0 + 1) ++ x) := by
            simp only [commentLines, hnt]
          have hclI : commentLines [35] (some c) 0 =
              (tbs 0 ++ [35] ++ l0) :: r.map (fun x => tbs (0 + 1) ++ x) := by
            simp only [commentLines, hn]
          rw [hclH, hclI]

/-! ### On producible trees canonicalization is exactly the empty-text fix -/

theorem normalize_eq_nil_iff {l : Seq} (hnl : ∀ x ∈ l, nl ∉ x) :
    normalize l = [] ↔ (l = [] ∨ l = [[]]) := by
  constructor
  · intro h
    by_cases he : l = [[]]
    · exact Or.inr he
    · rw [normalize_of_no_nl he hnl] at h
      exact Or.inl h
  · rintro (rfl | rfl)
    · exact normalize_nil
    · exact normalize_one_empty

theorem canonC_eq_stripC {c : Comment} (h : wfComment c = true) :
    canonC c = stripC c := by
  obtain ⟨hne, hnl⟩ : c.lines ≠ [] ∧ ∀ x ∈ c.lines, nl ∉ x := by
    simpa [wfComment, Bool.and_eq_true, List.all_eq_true] using h
  show Comment.mk (if normalize c.lines = [] then [[]] else normalize c.lines) 0 =
    Comment.mk c.lines 0
  by_cases he : c.lines = [[]]
  · rw [he]
    rfl
  · rw [normalize_of_no_nl he hnl, if_neg hne]

theorem canonOC_eq_stripOC {c : Option Comment} (h : wfOC c = true) :
    canonOC c = stripOC c := by
  cases c with
  | none => rfl
  | some c2 =>
    show some (canonC c2) = some (stripC c2)
    have h2 : wfComment c2 = true := h
    rw [canonC_eq_stripC h2]

mutual

theorem canonValueL_eq_fix : ∀ (v : Value), wfPValueL v = true →
    canonValueL v = stripValue (fixValueL v)
  | .text l sl a, h => by
    have h' := h
    simp only [wfPValueL, Bool.and_eq_true] at h'
    obtain ⟨⟨hall, hne'⟩, ha⟩ := h'
    have hnl : ∀ x ∈ l, nl ∉ x := by
      simpa [List.all_eq_true] using hall
    have hne : l ≠ [[]] := of_decide_eq_true hne'
    show Value.text (normalize l) 0 (canonOC a) = Value.text l 0 (stripOC a)
    rw [normalize_of_no_nl hne hnl, canonOC_eq_stripOC ha]
  | .vlist its sl i a, h => by
    have h' := h
    simp only [wfPValueL, Bool.and_eq_true] at h'
    obtain ⟨⟨hits, hi⟩, ha⟩ := h'
    show Value.vlist (canonItems its) 0 (canonOC i) (canonOC a) =
      Value.vlist (stripItems (fixItems its)) 0 (stripOC i) (stripOC a)
    rw [canonItems_eq_fix its hits, canonOC_eq_stripOC hi, canonOC_eq_stripOC ha]
  | .vdict es sl i a, h => by
    have h' := h
    simp only [wfPValueL, Bool.and_eq_true] at h'
    obtain ⟨⟨⟨_, hes⟩, hi⟩, ha⟩ := h'
    show Value.vdict (canonEntries es) 0 (canonOC i) (canonOC a) =
      Value.vdict (stripEntries (fixEntries es)) 0 (stripOC i) (stripOC a)
    rw [canonEntries_eq_fix es hes, canonOC_eq_stripOC hi, canonOC_eq_stripOC ha]

theorem canonValueD_eq_fix : ∀ (kname : Chunk) (v : Value), wfPValueD v = true →
    canonValueD kname v = stripValue (fixValueD kname v)
  | kname, .text l sl a, h => by
    have h' := h
    simp only [wfPValueD, Bool.and_eq_true] at h'
    obtain ⟨hall, ha⟩ := h'
    have hnl : ∀ x ∈ l, nl ∉ x := by
      simpa [List.all_eq_true] using hall
    show Value.text (if normalize l = [] then
        (if shortDict kname [] then [[]] else []) else normalize l) 0 (canonOC a) =
      Value.text (if l = [] ∨ l = [[]] then
        (if shortDict kname [] then [[]] else []) else l) 0 (stripOC a)
    rw [canonOC_eq_stripOC ha]
    by_cases hz : l = [] ∨ l = [[]]
    · rw [if_pos ((normalize_eq_nil_iff hnl).2 hz), if_pos hz]
    · have hn0 : normalize l ≠ [] := fun hc => hz ((normalize_eq_nil_iff hnl).1 hc)
      rw [if_neg hn0, if_neg hz,
        normalize_of_no_nl (fun he => hz (Or.inr he)) hnl]
  | kname, .vlist its sl i a, h => by
    have h' := h
    simp only [wfPValueD, Bool.and_eq_true] at h'
    obtain ⟨⟨hits, hi⟩, ha⟩ := h'
    show Value.vlist (canonItems its) 0 (canonOC i) (canonOC a) =
      Value.vlist (stripItems (fixItems its)) 0 (stripOC i) (stripOC a)
    rw [canonItems_eq_fix its hits, canonOC_eq_stripOC hi, canonOC_eq_stripOC ha]
  | kname, .vdict es sl i a, h => by
    have h' := h
    simp only [wfPValueD, Bool.and_eq_true] at h'
    obtain ⟨⟨⟨_, hes⟩, hi⟩, ha⟩ := h'
    show Value.vdict (canonEntries es) 0 (canonOC i) (canonOC a) =
      Value.vdict (stripEntries (fixEntries es)) 0 (stripOC i) (stripOC a)
    rw [canonEntries_eq_fix es hes, canonOC_eq_stripOC hi, canonOC_eq_stripOC ha]

theorem canonItems_eq_fix : ∀ (its : List Value), wfPItems its = true →
    canonItems its = stripItems (fixItems its)
  | [], _ => rfl
  | v :: rest, h => by
    have h' := h
    simp only [wfPItems, Bool.and_eq_true] at h'
    obtain ⟨hv, hrest⟩ := h'
    show canonValueL v :: canonItems rest =
      stripValue (fixValueL v) :: stripItems (fixItems rest)
    rw [canonValueL_eq_fix v hv, canonItems_eq_fix rest hrest]

theorem canonEntries_eq_fix : ∀ (es : List (KeyA × Value)), wfPEntries es = true →
    canonEntries es = stripEntries (fixEntries es)
  | [], _ => rfl
  | (k, v) :: rest, h => by
    have h' := h
    simp only [wfPEntries, Bool.and_eq_true] at h'
    obtain ⟨⟨⟨_, hcb⟩, hv⟩, hrest⟩ := h'
    show (KeyA.mk k.name k.blankLineBefore (canonOC k.commentBefore),
        canonValueD k.name v) :: canonEntries rest =
      (KeyA.mk k.name k.blankLineBefore (stripOC k.commentBefore),
        stripValue (fixValueD k.name v)) :: stripEntries (fixEntries rest)
    rw [canonOC_eq_stripOC hcb, canonValueD_eq_fix k.name v hv,
      canonEntries_eq_fix rest hrest]

end

theorem canonFile_eq_fix (f : FileT) (h : wfPFile f = true) :
    canonFile f = stripFile (fixFile f) := by
  have h' := h
  simp only [wfPFile, Bool.and_eq_true] at h'
  obtain ⟨⟨⟨⟨_, hE⟩, hhb⟩, hin⟩, htop⟩ := h'
  have hsf : stripFile (fixFile f) = FileT.mk (stripEntries (fixEntries f.entries))
      (stripOC f.hashbang) (stripOC f.commentIntro) := rfl
  rw [hsf, ← canonEntries_eq_fix f.entries hE]
  cases hh : f.hashbang with
  | some c =>
    have h1 : canonFile f = FileT.mk (canonEntries f.entries) (some (canonC c))
        (canonOC f.commentIntro) := by
      simp only [canonFile, hh]
    rw [h1]
    have hc : wfComment c = true := by
      rw [hh] at hhb
      exact hhb
    show FileT.mk (canonEntries f.entries) (some (canonC c))
        (canonOC f.commentIntro) =
      FileT.mk (canonEntries f.entries) (some (stripC c)) (stripOC f.commentIntro)
    rw [canonC_eq_stripC hc, canonOC_eq_stripOC hin]
  | none =>
    cases hci : f.commentIntro with
    | none =>
      have h1 : canonFile f = FileT.mk (canonEntries f.entries) none none := by
        simp only [canonFile, hh, hci]
      rw [h1]
      rfl
    | some c =>
      have hcw : wfComment c = true := by
        rw [hci] at hin
        exact hin
      have hcne : c.lines ≠ [] ∧ ∀ x ∈ c.lines, nl ∉ x := by
        simpa [wfComment, Bool.and_eq_true, List.all_eq_true] using hcw
      cases hn : normalize c.lines with
      | nil =>
        have hl : c.lines = [[]] := by
          rcases (normalize_eq_nil_iff hcne.2).1 hn with h0 | h0
          · exact absurd h0 hcne.1
          · exact h0
        have h1 : canonFile f = FileT.mk (canonEntries f.entries) none
            (some (Comment.mk [[]] 0)) := by
          simp only [canonFile, hh, hci, hn]
        rw [h1]
        show FileT.mk (canonEntries f.entries) none (some (Comment.mk [[]] 0)) =
          FileT.mk (canonEntries f.entries) none (some (Comment.mk c.lines 0))
        rw [hl]
      | cons l0 r =>
        have hbang : ¬(l0.getD 0 0 = 33 ∧ l0 ≠ []) := by
          intro hb
          rw [hh, hci] at htop
          simp [hn, hb.2] at htop
          exact htop (by simpa using hb.1)
        have h1 : canonFile f = FileT.mk (canonEntries f.entries) none
            (some (Comment.mk (l0 :: r) 0)) := by
          simp only [canonFile, hh, hci, hn]
          rw [if_neg hbang]
        have hnn : c.lines ≠ [[]] := by
          intro he
          rw [he, normalize_one_empty] at hn
          simp at hn
        have hl : c.lines = l0 :: r := by
          have h2 := normalize_of_no_nl hnn hcne.2
          rw [hn] at h2
          exact h2.symm
        rw [h1]
        show FileT.mk (canonEntries f.entries) none
            (some (Comment.mk (l0 :: r) 0)) =
          FileT.mk (canonEntries f.entries) none (some (Comment.mk c.lines 0))
        rw [hl]

mutual

theorem wfPValueL_legal : ∀ (v : Value), wfPValueL v = true →
    legalValue v = true
  | .text _ _ _, _ => rfl
  | .vlist its _ _ _, h => by
    have h' := h
    simp only [wfPValueL, Bool.and_eq_true] at h'
    show legalItems its = true
    exact wfPItems_legal its h'.1.1
  | .vdict es _ _ _, h => by
    have h' := h
    simp only [wfPValueL, Bool.and_eq_true] at h'
    show (decide ((es.map (fun e => e.1.name)).Nodup) && legalEntries es) = true
    rw [Bool.and_eq_true]
    exact ⟨h'.1.1.1, wfPEntries_legal es h'.1.1.2⟩

theorem wfPValueD_legal : ∀ (v : Value), wfPValueD v = true →
    legalValue v = true
  | .text _ _ _, _ => rfl
  | .vlist its _ _ _, h => by
    have h' := h
    simp only [wfPValueD, Bool.and_eq_true] at h'
    show legalItems its = true
    exact wfPItems_legal its h'.1.1
  | .vdict es _ _ _, h => by
    have h' := h
    simp only [wfPValueD, Bool.and_eq_true] at h'
    show (decide ((es.map (fun e => e.1.name)).Nodup) && legalEntries es) = true
    rw [Bool.and_eq_true]
    exact ⟨h'.1.1.1, wfPEntries_legal es h'.1.1.2⟩

theorem wfPItems_legal : ∀ (its : List Value), wfPItems its = true →
    legalItems its = true
  | [], _ => rfl
  | v :: rest, h => by
    have h' := h
    simp only [wfPItems, Bool.and_eq_true] at h'
    show (legalValue v && legalItems rest) = true
    rw [Bool.and_eq_true]
    exact ⟨wfPValueL_legal v h'.1, wfPItems_legal rest h'.2⟩

theorem wfPEntries_legal : ∀ (es : List (KeyA × Value)), wfPEntries es = true →
    legalEntries es = true
  | [], _ => rfl
  | (k, v) :: rest, h => by
    have h' := h
    simp only [wfPEntries, Bool.and_eq_true] at h'
    obtain ⟨⟨⟨hk, _⟩, hv⟩, hrest⟩ := h'
    show (decide (nl ∉ k.name) && legalValue v && legalEntries rest) = true
    simp only [Bool.and_eq_true]
    exact ⟨⟨hk, wfPValueD_legal v hv⟩, wfPEntries_legal rest hrest⟩

end

theorem wfPFile_legal (f : FileT) (h : wfPFile f = true) : legalFile f = true := by
  have h' := h
  simp only [wfPFile, Bool.and_eq_true] at h'
  obtain ⟨⟨⟨⟨hnd, hE⟩, _⟩, _⟩, _⟩ := h'
  simp only [legalFile, Bool.and_eq_true]
  exact ⟨hnd, wfPEntries_legal f.entries hE⟩
